import Mathlib

/-!
# The crawl orchestrator (`orchestrator.go`)

A shallow embedding of the orchestrator of `jakelacey2012/crawl` and the
properties of its specification.

* Part 1 embeds the data model (`VType`, `OrchestratorStore`,
  `OrchestratorConfig`, `Orchestrator`, `Request`) and, for each goroutine
  body, one iteration of its loop run on a snapshot of the shared state
  (`requester`, `processWorkingLinks`, the ticker body `tick`).
* Part 2 embeds the same code as an interleaving semantics: every access to
  shared state (an atomic counter, the mutex-protected store, a channel) is
  one step of one goroutine, and an execution is a list of such steps.
* Part 3 embeds the functions of Go's `net/url` that `Crawl` and
  `processWorkingLinks` call.

Conventions. A `uint64` is a `Nat` below `2 ^ 64`; `atomic.Uint64.Add(1)`
is `add1`, which wraps. `int` is 64 bits wide (`toInt`). A Go `string` is a
Lean `String` that holds its bytes, one character per byte, so an ASCII string
is written as itself. The mutex `Store.mu` is not data: the code between
`Lock` and `Unlock` is one atomic step. What the outside world returns (the
HTTP client, the HTML parser) is an argument of the step that asks for it, so
a theorem about every execution holds for every page graph.
-/

namespace crawl

/-! ## Part 1. Data model and goroutine bodies -/

/-- The result of `atomic.Uint64.Add(1)` on the value `n`. -/
def add1 (n : Nat) : Nat := (n + 1) % 2 ^ 64

/-- The conversion `int(x)` of a `uint64` value `x` (two's complement, 64 bits). -/
def toInt (x : Nat) : Int :=
  if x % 2 ^ 64 < 2 ^ 63 then ((x % 2 ^ 64 : Nat) : Int) else ((x % 2 ^ 64 : Nat) : Int) - 2 ^ 64

/-- The type `VType` with its two constants. -/
inductive VType where
  | TO_VISIT
  | VISITED
deriving DecidableEq, Repr

/-- The map `map[string]VType`: the first binding of a key is the current one. -/
abbrev VisitedMap := List (String × VType)

/-- The lookup `v, ok := m[k]`. -/
def VisitedMap.get (m : VisitedMap) (k : String) : Option VType :=
  match m with
  | [] => none
  | (k', v) :: rest => if k = k' then some v else VisitedMap.get rest k

/-- The assignment `m[k] = v`. -/
def VisitedMap.set (m : VisitedMap) (k : String) (v : VType) : VisitedMap :=
  (k, v) :: m

/-- The keys present in the map. -/
def VisitedMap.keys (m : VisitedMap) : List String := m.map Prod.fst

/-- The struct `OrchestratorStore`; its mutex is modelled by atomic steps. -/
structure OrchestratorStore where
  Visited : VisitedMap
deriving DecidableEq, Repr

/-- The struct `OrchestratorConfig`. -/
structure OrchestratorConfig where
  MaxRequests : Nat
  PolitenessDelay : Nat
  Timeout : Nat
deriving DecidableEq, Repr

/-- A buffered `chan string`: `make(chan string, cap)`. -/
structure Chan where
  cap : Nat
  buf : List String
deriving DecidableEq, Repr

/-- The builtin `len(ch)`. -/
def Chan.len (c : Chan) : Nat := c.buf.length

/-- The body of an `http.Response`, as far as the crawler looks at it: `none`
when `goquery.NewDocumentFromReader` fails on it, otherwise the `href` values
of its `a` elements in document order. -/
abbrev Body := Option (List String)

/-- The fields of `http.Response` that the crawler and its observers read.
`ContentType` is `resp.Header.Get("Content-type")`. -/
structure Response where
  StatusCode : Int
  ContentType : String
  Body : Body
deriving DecidableEq, Repr

/-- The struct `Request`. -/
structure Request where
  ID : Nat
  Url : String
deriving DecidableEq, Repr

/-- The struct `Orchestrator`. A callback `func(resp *http.Response)` acts on
the state `σ` of its environment. `Context` and `Client` are not fields here:
cancellation is a result of `tick`, and what the client returns is an
argument of `requester`. -/
structure Orchestrator (σ : Type) where
  Config : OrchestratorConfig
  Store : OrchestratorStore
  VisitedCallback : List (Response → σ → σ)
  Queue : Chan
  processedOps : Nat
  sendingOps : Nat

/-- The zero value `Orchestrator{}`. -/
def Orchestrator.zero (σ : Type) : Orchestrator σ :=
  { Config := { MaxRequests := 0, PolitenessDelay := 0, Timeout := 0 }
    Store := { Visited := [] }
    VisitedCallback := []
    Queue := { cap := 0, buf := [] }
    processedOps := 0
    sendingOps := 0 }

/-- The method `Init`. -/
def Orchestrator.Init {σ : Type} (o : Orchestrator σ) (config : OrchestratorConfig) :
    Orchestrator σ :=
  { o with
    Config := config
    Queue := { cap := config.MaxRequests, buf := [] }
    Store := { Visited := [] } }

/-- The method `OnVisited`. -/
def Orchestrator.OnVisited {σ : Type} (o : Orchestrator σ) (callback : Response → σ → σ) :
    Orchestrator σ :=
  { o with VisitedCallback := o.VisitedCallback ++ [callback] }

/-- The method `visited`: the `for ... range o.VisitedCallback` loop. -/
def Orchestrator.visited {σ : Type} (o : Orchestrator σ) (resp : Response) (w : σ) : σ :=
  o.VisitedCallback.foldl (fun acc callback => callback resp acc) w

/-- The call `strings.HasPrefix(s, p)`. -/
def HasPrefix (s p : String) : Bool := p.toList.isPrefixOf s.toList

/-- What the two fallible calls of `requester` return for a request:
`http.NewRequest` fails, or `o.Client.Do` fails, or `o.Client.Do` returns a
response. -/
inductive FetchResult where
  | newRequestErr
  | doErr
  | ok (resp : Response)
deriving DecidableEq, Repr

/-- The outcome of one iteration of the loop of `requester`. `clientDo` records
whether `o.Client.Do` was called, `results` the value sent on `results`. -/
structure RequesterResult (σ : Type) where
  o : Orchestrator σ
  world : σ
  clientDo : Bool
  results : Option Body

/-- One iteration of the loop of `requester` (lines 97-139), on a snapshot. -/
def requester {σ : Type} (o : Orchestrator σ) (w : σ) (request : Request) (fr : FetchResult) :
    RequesterResult σ :=
  if o.processedOps > o.Config.MaxRequests then
    { o := { o with processedOps := add1 o.processedOps }, world := w,
      clientDo := false, results := none }
  else if o.Store.Visited.get request.Url = some VType.VISITED then
    { o := { o with processedOps := add1 o.processedOps }, world := w,
      clientDo := false, results := none }
  else
    match fr with
    | .newRequestErr =>
      { o := { o with processedOps := add1 o.processedOps }, world := w,
        clientDo := false, results := none }
    | .doErr =>
      { o := { o with processedOps := add1 o.processedOps }, world := w,
        clientDo := true, results := none }
    | .ok resp =>
      let o1 := { o with Store := { Visited := o.Store.Visited.set request.Url VType.VISITED } }
      let w1 := o1.visited resp w
      let o2 := { o1 with processedOps := add1 o1.processedOps }
      if HasPrefix resp.ContentType "text/html" == false then
        { o := o2, world := w1, clientDo := true, results := none }
      else
        { o := o2, world := w1, clientDo := true, results := some resp.Body }

/-- One iteration of the loop of `linkerParser`: the links it sends on `links`. -/
def linkerParser (body : Body) : List String :=
  match body with
  | none => []
  | some hrefs => hrefs

/-- The functions of `net/url` that the orchestrator calls, over the type `U`
of `*url.URL`. `JoinPath` and `Parse` return `none` for a non-nil error. -/
structure NetUrl (U : Type) where
  Parse : String → Option U
  IsAbs : U → Bool
  ResolveReference : U → U → U
  Hostname : U → String
  UrlString : U → String
  JoinPath : String → List String → Option String

/-- Lines 167-185 of `processWorkingLinks`: the key `joined` of a link, or
`none` when the link is dropped before the store is consulted. An error of
`url.JoinPath` is discarded by the code, which leaves `joined` empty. -/
def canonical {U : Type} (lib : NetUrl U) (startingUrl : U) (unvalidatedLink : String) :
    Option String :=
  match lib.Parse unvalidatedLink with
  | none => none
  | some link0 =>
    let link := if lib.IsAbs link0 == false then lib.ResolveReference startingUrl link0 else link0
    let startingDomain := lib.Hostname startingUrl
    let linkDomain := lib.Hostname link
    if startingDomain != linkDomain then none
    else some ((lib.JoinPath (lib.UrlString link) ["/"]).getD "")

/-- How one iteration of the loop of `processWorkingLinks` ends. -/
inductive LinkResult (σ : Type) where
  /-- The link was dropped (`continue`, or the `if` of line 203 was false). -/
  | dropped (o : Orchestrator σ)
  /-- The key was sent on `o.Queue`. -/
  | pushed (o : Orchestrator σ)
  /-- The send of line 204 is reached with a full buffer: the goroutine blocks. -/
  | blocked (o : Orchestrator σ) (joined : String)

/-- The orchestrator state at the end of the iteration. -/
def LinkResult.state {σ : Type} : LinkResult σ → Orchestrator σ
  | .dropped o => o
  | .pushed o => o
  | .blocked o _ => o

/-- The condition of line 203 for a queue holding `n` entries. -/
def belowMark (MaxRequests n : Nat) : Bool :=
  decide ((n : Int) ≤ toInt (MaxRequests - MaxRequests / 8))

/-- One iteration of the loop of `processWorkingLinks` (lines 167-205), on a
snapshot. -/
def processWorkingLinks {σ U : Type} (lib : NetUrl U) (o : Orchestrator σ) (startingUrl : U)
    (unvalidatedLink : String) : LinkResult σ :=
  match canonical lib startingUrl unvalidatedLink with
  | none => .dropped o
  | some joined =>
    if (o.Store.Visited.get joined).isSome then .dropped o
    else
      let o1 := { o with Store := { Visited := o.Store.Visited.set joined VType.TO_VISIT } }
      if o1.processedOps > o1.Config.MaxRequests then .dropped o1
      else if belowMark o1.Config.MaxRequests o1.Queue.len then
        if o1.Queue.len < o1.Queue.cap then
          .pushed { o1 with Queue := { o1.Queue with buf := o1.Queue.buf ++ [joined] } }
        else .blocked o1 joined
      else .dropped o1

/-- How the body of the ticker case (lines 252-267) ends. -/
inductive TickResult (σ : Type) where
  /-- The branch `cancel(); return`. -/
  | cancel (o : Orchestrator σ)
  /-- The branch of line 263: the request sent on `jobs`. -/
  | dispatch (o : Orchestrator σ) (request : Request)
  /-- No branch taken. -/
  | idle (o : Orchestrator σ)

/-- The body of the ticker case (lines 252-267), on a snapshot. -/
def tick {σ : Type} (o : Orchestrator σ) : TickResult σ :=
  if o.processedOps ≥ o.Config.MaxRequests then .cancel o
  else if o.Queue.len == 0 && o.sendingOps == o.processedOps then .cancel o
  else if o.Queue.len > 0 then
    match o.Queue.buf with
    | [] => .idle o
    | link :: rest =>
      let o1 := { o with Queue := { o.Queue with buf := rest } }
      let o2 := { o1 with sendingOps := add1 o1.sendingOps }
      .dispatch o2 { ID := o2.sendingOps, Url := link }
  else .idle o

/-- Lines 212-220 of `Crawl`: the parsed start URL, or `none` where the code
calls `log.Fatalf`. -/
def Crawl.startUrl {U : Type} (lib : NetUrl U) (startUrlString : String) : Option U :=
  match lib.JoinPath startUrlString ["/"] with
  | none => none
  | some str => lib.Parse str

/-- The key that line 276 of `Crawl` sends on `o.Queue`. -/
def Crawl.startKey {U : Type} (lib : NetUrl U) (startUrlString : String) : Option String :=
  (Crawl.startUrl lib startUrlString).map lib.UrlString

/-! ## Part 2. Interleaving semantics

`Crawl` starts one ticker goroutine and `numWorkers` goroutines for each of
`requester`, `linkerParser` and `processWorkingLinks`. A goroutine that is in
the middle of an iteration is at a program point; a goroutine waiting at the
head of its loop is not listed. One step is one access to shared state by one
goroutine. The channels `jobs`, `payloads` and `workingLinks` are unbuffered:
a send is a step only together with a receive by a waiting goroutine. -/

/-- The number of goroutines per stage (`for w := 1; w <= 100; w++`). -/
def numWorkers : Nat := 100

/-- Program points of the ticker goroutine (lines 236-272). -/
inductive TickerPC where
  /-- Waiting in `select` for the next tick. -/
  | wait
  /-- The test of line 252 was false; line 257 is next. -/
  | l257
  /-- In line 257, `len(o.Queue) == 0` was true; the two counters are read next. -/
  | l257b
  /-- The test of line 257 was false; line 263 is next. -/
  | l263
  /-- Line 266: blocked in `jobs <- request`. -/
  | send (request : Request)
  /-- The goroutine returned after `cancel()`. -/
  | stopped
deriving DecidableEq, Repr

/-- Program points of a `requester` goroutine inside an iteration. -/
inductive ReqPC where
  /-- A request was received (line 96); the load of line 97 is next. -/
  | recv (request : Request)
  /-- The test of line 97 was false; waiting for the lock of line 104. -/
  | lock (request : Request)
  /-- The `processedOps.Add(1)` of line 99, 107, 115 or 123 is next. -/
  | count
  /-- The store was unlocked in line 128; the callbacks of line 129 are next. -/
  | notify (resp : Response)
  /-- The `processedOps.Add(1)` of line 131 is next. -/
  | countResp (resp : Response)
  /-- Lines 133-139: the content type test and the send on `results`. -/
  | forward (resp : Response)
deriving DecidableEq, Repr

/-- Program points of a `processWorkingLinks` goroutine inside an iteration. -/
inductive FilterPC where
  /-- A link was received (line 166); lines 167-193 are next. -/
  | recv (link : String)
  /-- The key was inserted (line 192); the load of line 195 is next. -/
  | budget (joined : String)
  /-- The test of line 195 was false; the test of line 203 is next. -/
  | mark (joined : String)
  /-- The test of line 203 was true; blocked in or about to do `o.Queue <- joined`. -/
  | send (joined : String)
deriving DecidableEq, Repr

/-- The state of a running `Crawl`. The last three fields are history
variables: every key sent on `o.Queue`, every request taken from it, and the
URL of every call of `o.Client.Do`, in order. -/
structure System (σ : Type) where
  o : Orchestrator σ
  world : σ
  /-- Whether line 276 (`o.Queue <- startUrl.String()`) has run. -/
  crawlPushed : Bool
  ticker : TickerPC
  requesters : List ReqPC
  /-- For each busy `linkerParser`, the links it has still to send. -/
  parsers : List (List String)
  filters : List FilterPC
  pushed : List String
  dispatched : List Request
  fetched : List String

/-- The state in which `Crawl` starts its goroutines, for an orchestrator that
went through `Init` and any number of `OnVisited` calls. -/
def System.initial {σ : Type} (config : OrchestratorConfig) (callbacks : List (Response → σ → σ))
    (w : σ) : System σ :=
  { o := callbacks.foldl Orchestrator.OnVisited ((Orchestrator.zero σ).Init config)
    world := w
    crawlPushed := false
    ticker := .wait
    requesters := []
    parsers := []
    filters := []
    pushed := []
    dispatched := []
    fetched := [] }

/-- Replace entry `i` of a list of goroutines by `x`, or remove it when the
goroutine returns to the head of its loop. -/
def upd {α : Type} : List α → Nat → Option α → List α
  | [], _, _ => []
  | _ :: l, 0, some x => x :: l
  | _ :: l, 0, none => l
  | a :: l, i + 1, x => a :: upd l i x

/-- The steps of an execution: which goroutine moves, and for a requester what
the request construction and the client return should it get that far. -/
inductive Action where
  | crawlPush
  | ticker
  | requester (i : Nat) (fr : FetchResult)
  | parser (i : Nat)
  | filter (i : Nat)
deriving DecidableEq, Repr

/-- Line 276 of `Crawl`: possible once, when the buffer has room. -/
def stepCrawl {σ U : Type} (lib : NetUrl U) (startUrl : U) (s : System σ) : Option (System σ) :=
  if s.crawlPushed == false && decide (s.o.Queue.len < s.o.Queue.cap) then
    some { s with
      o := { s.o with Queue := { s.o.Queue with buf := s.o.Queue.buf ++ [lib.UrlString startUrl] } }
      crawlPushed := true
      pushed := s.pushed ++ [lib.UrlString startUrl] }
  else none

/-- The next step of the ticker goroutine. -/
def stepTicker {σ : Type} (s : System σ) : Option (System σ) :=
  match s.ticker with
  | .wait =>
    if s.o.processedOps ≥ s.o.Config.MaxRequests then some { s with ticker := .stopped }
    else some { s with ticker := .l257 }
  | .l257 =>
    if s.o.Queue.len == 0 then some { s with ticker := .l257b }
    else some { s with ticker := .l263 }
  | .l257b =>
    if s.o.sendingOps == s.o.processedOps then some { s with ticker := .stopped }
    else some { s with ticker := .l263 }
  | .l263 =>
    match s.o.Queue.buf with
    | [] => some { s with ticker := .wait }
    | link :: rest =>
      let request : Request := { ID := add1 s.o.sendingOps, Url := link }
      some { s with
        o := { s.o with Queue := { s.o.Queue with buf := rest }, sendingOps := add1 s.o.sendingOps }
        ticker := .send request
        dispatched := s.dispatched ++ [request] }
  | .send request =>
    if s.requesters.length < numWorkers then
      some { s with ticker := .wait, requesters := s.requesters ++ [.recv request] }
    else none
  | .stopped => none

/-- The next step of the `requester` goroutine listed at `i`. -/
def stepRequester {σ : Type} (s : System σ) (i : Nat) (fr : FetchResult) : Option (System σ) :=
  match s.requesters.get? i with
  | none => none
  | some (.recv request) =>
    if s.o.processedOps > s.o.Config.MaxRequests then
      some { s with requesters := upd s.requesters i (some .count) }
    else some { s with requesters := upd s.requesters i (some (.lock request)) }
  | some (.lock request) =>
    if s.o.Store.Visited.get request.Url = some VType.VISITED then
      some { s with requesters := upd s.requesters i (some .count) }
    else
      match fr with
      | .newRequestErr => some { s with requesters := upd s.requesters i (some .count) }
      | .doErr =>
        some { s with
          requesters := upd s.requesters i (some .count)
          fetched := s.fetched ++ [request.Url] }
      | .ok resp =>
        some { s with
          o := { s.o with Store := { Visited := s.o.Store.Visited.set request.Url VType.VISITED } }
          requesters := upd s.requesters i (some (.notify resp))
          fetched := s.fetched ++ [request.Url] }
  | some .count =>
    some { s with
      o := { s.o with processedOps := add1 s.o.processedOps }
      requesters := upd s.requesters i none }
  | some (.notify resp) =>
    some { s with
      world := s.o.visited resp s.world
      requesters := upd s.requesters i (some (.countResp resp)) }
  | some (.countResp resp) =>
    some { s with
      o := { s.o with processedOps := add1 s.o.processedOps }
      requesters := upd s.requesters i (some (.forward resp)) }
  | some (.forward resp) =>
    if HasPrefix resp.ContentType "text/html" == false then
      some { s with requesters := upd s.requesters i none }
    else if s.parsers.length < numWorkers then
      match resp.Body with
      | none => some { s with requesters := upd s.requesters i none }
      | some hrefs =>
        some { s with requesters := upd s.requesters i none, parsers := s.parsers ++ [hrefs] }
    else none

/-- The next step of the `linkerParser` goroutine listed at `i`: send one link
to a waiting `processWorkingLinks` goroutine, or finish the body. -/
def stepParser {σ : Type} (s : System σ) (i : Nat) : Option (System σ) :=
  match s.parsers.get? i with
  | none => none
  | some [] => some { s with parsers := upd s.parsers i none }
  | some (link :: rest) =>
    if s.filters.length < numWorkers then
      some { s with parsers := upd s.parsers i (some rest), filters := s.filters ++ [.recv link] }
    else none

/-- The next step of the `processWorkingLinks` goroutine listed at `i`. -/
def stepFilter {σ U : Type} (lib : NetUrl U) (startUrl : U) (s : System σ) (i : Nat) :
    Option (System σ) :=
  match s.filters.get? i with
  | none => none
  | some (.recv link) =>
    match canonical lib startUrl link with
    | none => some { s with filters := upd s.filters i none }
    | some joined =>
      if (s.o.Store.Visited.get joined).isSome then
        some { s with filters := upd s.filters i none }
      else
        some { s with
          o := { s.o with Store := { Visited := s.o.Store.Visited.set joined VType.TO_VISIT } }
          filters := upd s.filters i (some (.budget joined)) }
  | some (.budget joined) =>
    if s.o.processedOps > s.o.Config.MaxRequests then
      some { s with filters := upd s.filters i none }
    else some { s with filters := upd s.filters i (some (.mark joined)) }
  | some (.mark joined) =>
    if belowMark s.o.Config.MaxRequests s.o.Queue.len then
      some { s with filters := upd s.filters i (some (.send joined)) }
    else some { s with filters := upd s.filters i none }
  | some (.send joined) =>
    if s.o.Queue.len < s.o.Queue.cap then
      some { s with
        o := { s.o with Queue := { s.o.Queue with buf := s.o.Queue.buf ++ [joined] } }
        filters := upd s.filters i none
        pushed := s.pushed ++ [joined] }
    else none

/-- One step of the system; `none` when the goroutine cannot move. -/
def step {σ U : Type} (lib : NetUrl U) (startUrl : U) (a : Action) (s : System σ) :
    Option (System σ) :=
  match a with
  | .crawlPush => stepCrawl lib startUrl s
  | .ticker => stepTicker s
  | .requester i fr => stepRequester s i fr
  | .parser i => stepParser s i
  | .filter i => stepFilter lib startUrl s i

/-- An execution: the steps of a list of actions, one after the other. -/
def run {σ U : Type} (lib : NetUrl U) (startUrl : U) : List Action → System σ → Option (System σ)
  | [], s => some s
  | a :: as, s =>
    match step lib startUrl a s with
    | none => none
    | some s' => run lib startUrl as s'

/-- The states that an execution of `Crawl` can be in. -/
def Reachable {σ U : Type} (lib : NetUrl U) (startUrl : U) (config : OrchestratorConfig)
    (callbacks : List (Response → σ → σ)) (w : σ) (s : System σ) : Prop :=
  ∃ as : List Action, run lib startUrl as (System.initial config callbacks w) = some s

/-- The requests that are counted in `sendingOps` and not yet in
`processedOps`: 1 for such a program point, 0 otherwise. -/
def ReqPC.uncounted : ReqPC → Nat
  | .forward _ => 0
  | _ => 1

/-- As `ReqPC.uncounted`, for the ticker: the request it is about to hand over. -/
def TickerPC.uncounted : TickerPC → Nat
  | .send _ => 1
  | _ => 0

/-- The number of dispatched requests on which the Fetch Stage has not yet
run its `processedOps.Add(1)`. -/
def System.inFlight {σ : Type} (s : System σ) : Nat :=
  s.ticker.uncounted + (s.requesters.map ReqPC.uncounted).sum


/-! ## Part 3. The functions of Go's `net/url` and `path` that the crawler calls

A model of `net/url` as of Go 1.19.1 to 1.22 (`url.JoinPath` exists since Go
1.19), function by function. A Go string is the list of its bytes, each byte
written as the character with that code. -/

namespace url

/-- The constants of type `encoding`. -/
inductive encoding where
  | encodePath
  | encodePathSegment
  | encodeHost
  | encodeZone
  | encodeUserPassword
  | encodeQueryComponent
  | encodeFragment
deriving DecidableEq, Repr

/-- The test `'a' <= c && c <= 'z' || 'A' <= c && c <= 'Z'`. -/
def isLetter (c : Char) : Bool :=
  (decide ('a' ≤ c) && decide (c ≤ 'z')) || (decide ('A' ≤ c) && decide (c ≤ 'Z'))

/-- The test `'0' <= c && c <= '9'`. -/
def isDigit (c : Char) : Bool := decide ('0' ≤ c) && decide (c ≤ '9')

/-- The function `ishex`. -/
def ishex (c : Char) : Bool :=
  isDigit c || (decide ('a' ≤ c) && decide (c ≤ 'f')) || (decide ('A' ≤ c) && decide (c ≤ 'F'))

/-- The function `unhex`. -/
def unhex (c : Char) : Nat :=
  if isDigit c then c.toNat - 48
  else if decide ('a' ≤ c) && decide (c ≤ 'f') then c.toNat - 97 + 10
  else if decide ('A' ≤ c) && decide (c ≤ 'F') then c.toNat - 65 + 10
  else 0

/-- The lookup `upperhex[n]` in `"0123456789ABCDEF"`. -/
def upperhex (n : Nat) : Char :=
  "0123456789ABCDEF".toList.getD n '0'

/-- The characters that `shouldEscape` lets through in a host. -/
def hostSubDelims : List Char :=
  ['!', '$', '&', Char.ofNat 39, '(', ')', '*', '+', ',', ';', '=', ':', '[', ']', '<', '>',
   Char.ofNat 34]

/-- The function `shouldEscape`. -/
def shouldEscape (c : Char) (mode : encoding) : Bool :=
  if isLetter c || isDigit c then false
  else if (mode == .encodeHost || mode == .encodeZone) && hostSubDelims.contains c then false
  else if ['-', '_', '.', '~'].contains c then false
  else if ['$', '&', '+', ',', '/', ':', ';', '=', '?', '@'].contains c
      && mode == .encodePath then c == '?'
  else if ['$', '&', '+', ',', '/', ':', ';', '=', '?', '@'].contains c
      && mode == .encodePathSegment then c == '/' || c == ';' || c == ',' || c == '?'
  else if ['$', '&', '+', ',', '/', ':', ';', '=', '?', '@'].contains c
      && mode == .encodeUserPassword then c == '@' || c == '/' || c == '?' || c == ':'
  else if ['$', '&', '+', ',', '/', ':', ';', '=', '?', '@'].contains c
      && mode == .encodeQueryComponent then true
  else if ['$', '&', '+', ',', '/', ':', ';', '=', '?', '@'].contains c
      && mode == .encodeFragment then false
  else if mode == .encodeFragment && ['!', '(', ')', '*'].contains c then false
  else true

/-- The first loop of `unescape`: `true` when it returns no error. -/
def unescapeCheck (mode : encoding) : List Char → Bool
  | [] => true
  | c :: rest =>
    if c = '%' then
      match rest with
      | h1 :: h2 :: rest' =>
        if !(ishex h1) || !(ishex h2) then false
        else if mode == .encodeHost && decide (unhex h1 < 8) && (h1, h2) != ('2', '5') then false
        else if mode == .encodeZone && (h1, h2) != ('2', '5')
            && Char.ofNat (unhex h1 * 16 + unhex h2) != ' '
            && shouldEscape (Char.ofNat (unhex h1 * 16 + unhex h2)) .encodeHost then false
        else unescapeCheck mode rest'
      | _ => false
    else if c = '+' then unescapeCheck mode rest
    else if (mode == .encodeHost || mode == .encodeZone) && decide (c.toNat < 128)
        && shouldEscape c .encodeHost then false
    else unescapeCheck mode rest

/-- The second loop of `unescape`. -/
def unescapeDecode (mode : encoding) : List Char → List Char
  | [] => []
  | c :: rest =>
    if c = '%' then
      match rest with
      | h1 :: h2 :: rest' => Char.ofNat (unhex h1 * 16 + unhex h2) :: unescapeDecode mode rest'
      | _ => []
    else if c = '+' then
      (if mode == .encodeQueryComponent then ' ' else '+') :: unescapeDecode mode rest
    else c :: unescapeDecode mode rest

/-- The function `unescape`; `none` for an error. Where the code returns `s`
itself (no `%`, no `+` to turn into a space) the second loop copies `s`. -/
def unescape (s : List Char) (mode : encoding) : Option (List Char) :=
  if unescapeCheck mode s then some (unescapeDecode mode s) else none

/-- The function `escape`. -/
def escape (s : List Char) (mode : encoding) : List Char :=
  match s with
  | [] => []
  | c :: rest =>
    if c = ' ' && mode == .encodeQueryComponent then '+' :: escape rest mode
    else if shouldEscape c mode then
      '%' :: upperhex (c.toNat / 16 % 16) :: upperhex (c.toNat % 16) :: escape rest mode
    else c :: escape rest mode

/-- The function `validEncoded`. -/
def validEncoded (s : List Char) (mode : encoding) : Bool :=
  s.all fun c =>
    if ['!', '$', '&', Char.ofNat 39, '(', ')', '*', '+', ',', ';', '=', ':', '@'].contains c then
      true
    else if c = '[' || c = ']' then true
    else if c = '%' then true
    else !(shouldEscape c mode)

/-- The call `strings.Cut(s, sep)` for a separator of one byte. -/
def cut (sep : Char) : List Char → List Char × List Char × Bool
  | [] => ([], [], false)
  | c :: rest =>
    if c = sep then ([], rest, true)
    else ((c :: (cut sep rest).1), (cut sep rest).2.1, (cut sep rest).2.2)

/-- The split of `s` around the last `sep`: `s[:i]`, `s[i+1:]` and `i >= 0`
for `i := strings.LastIndex(s, sep)`. -/
def cutLast (sep : Char) (s : List Char) : List Char × List Char × Bool :=
  ((cut sep s.reverse).2.1.reverse, (cut sep s.reverse).1.reverse, (cut sep s.reverse).2.2)

/-- The type `Userinfo`. -/
structure Userinfo where
  username : List Char
  password : List Char
  passwordSet : Bool
deriving DecidableEq, Repr

/-- The type `URL`. -/
structure URL where
  Scheme : List Char
  Opaque : List Char
  User : Option Userinfo
  Host : List Char
  Path : List Char
  RawPath : List Char
  OmitHost : Bool
  ForceQuery : Bool
  RawQuery : List Char
  Fragment : List Char
  RawFragment : List Char
deriving DecidableEq, Repr

/-- The zero value `URL{}`. -/
def URL.zero : URL :=
  { Scheme := [], Opaque := [], User := none, Host := [], Path := [], RawPath := [],
    OmitHost := false, ForceQuery := false, RawQuery := [], Fragment := [], RawFragment := [] }

/-- The loop of `getScheme` from index `i` on; `none` for an error. -/
def getSchemeLoop (rawURL : List Char) : Nat → List Char → Option (List Char × List Char)
  | _, [] => some ([], rawURL)
  | i, c :: rest =>
    if isLetter c then getSchemeLoop rawURL (i + 1) rest
    else if isDigit c || c = '+' || c = '-' || c = '.' then
      if i = 0 then some ([], rawURL) else getSchemeLoop rawURL (i + 1) rest
    else if c = ':' then
      if i = 0 then none else some (rawURL.take i, rest)
    else some ([], rawURL)

/-- The function `getScheme`. -/
def getScheme (rawURL : List Char) : Option (List Char × List Char) :=
  getSchemeLoop rawURL 0 rawURL

/-- The bytes over which the loop of `getScheme` goes on: the letters, and
the digits, `+`, `-` and `.` of its second case. -/
def schemeByte (c : Char) : Bool :=
  isLetter c || (isDigit c || c = '+' || c = '-' || c = '.')

/-- The function `stringContainsCTLByte`. -/
def stringContainsCTLByte (s : List Char) : Bool :=
  s.any fun b => decide (b.toNat < 32) || decide (b.toNat = 127)

/-- The function `validOptionalPort`. -/
def validOptionalPort (port : List Char) : Bool :=
  match port with
  | [] => true
  | c :: rest => if c != ':' then false else rest.all isDigit

/-- The function `validUserinfo`. -/
def validUserinfo (s : List Char) : Bool :=
  s.all fun r =>
    isLetter r || isDigit r ||
    ['-', '.', '_', ':', '~', '!', '$', '&', Char.ofNat 39, '(', ')', '*', '+', ',', ';', '=', '%',
     '@'].contains r

/-- The index `strings.Index(s, "%25")` as the split `s[:i]`, `s[i:]`. -/
def cutZone : List Char → Option (List Char × List Char)
  | [] => none
  | c :: rest =>
    if ['%', '2', '5'].isPrefixOf (c :: rest) then some ([], c :: rest)
    else (cutZone rest).map fun p => (c :: p.1, p.2)

/-- The function `parseHost`. -/
def parseHost (host : List Char) : Option (List Char) :=
  if host.head? = some '[' then
    match cutLast ']' host with
    | (_, _, false) => none
    | (before, colonPort, true) =>
      if !(validOptionalPort colonPort) then none
      else
        match cutZone before with
        | some (h1, zone) =>
          match unescape h1 .encodeHost, unescape zone .encodeZone,
              unescape (']' :: colonPort) .encodeHost with
          | some host1, some host2, some host3 => some (host1 ++ host2 ++ host3)
          | _, _, _ => none
        | none => unescape host .encodeHost
  else
    match cutLast ':' host with
    | (_, port, true) =>
      if !(validOptionalPort (':' :: port)) then none else unescape host .encodeHost
    | (_, _, false) => unescape host .encodeHost

/-- The function `parseAuthority`. -/
def parseAuthority (authority : List Char) : Option (Option Userinfo × List Char) :=
  match cutLast '@' authority with
  | (_, _, false) => (parseHost authority).map fun host => (none, host)
  | (userinfo, hostPart, true) =>
    match parseHost hostPart with
    | none => none
    | some host =>
      if !(validUserinfo userinfo) then none
      else if !(userinfo.contains ':') then
        (unescape userinfo .encodeUserPassword).map fun name =>
          (some { username := name, password := [], passwordSet := false }, host)
      else
        match unescape (cut ':' userinfo).1 .encodeUserPassword,
            unescape (cut ':' userinfo).2.1 .encodeUserPassword with
        | some name, some pass =>
          some (some { username := name, password := pass, passwordSet := true }, host)
        | _, _ => none

/-- The method `setPath`; `none` for an error. -/
def URL.setPath (u : URL) (p : List Char) : Option URL :=
  match unescape p .encodePath with
  | none => none
  | some path =>
    some { u with Path := path, RawPath := if p = escape path .encodePath then [] else p }

/-- The method `setFragment`; `none` for an error. -/
def URL.setFragment (u : URL) (f : List Char) : Option URL :=
  match unescape f .encodeFragment with
  | none => none
  | some frag =>
    some { u with
      Fragment := frag, RawFragment := if f = escape frag .encodeFragment then [] else f }

/-- The method `EscapedPath`. -/
def URL.EscapedPath (u : URL) : List Char :=
  if u.RawPath ≠ [] && validEncoded u.RawPath .encodePath
      && unescape u.RawPath .encodePath == some u.Path then u.RawPath
  else if u.Path = ['*'] then ['*']
  else escape u.Path .encodePath

/-- The method `EscapedFragment`. -/
def URL.EscapedFragment (u : URL) : List Char :=
  if u.RawFragment ≠ [] && validEncoded u.RawFragment .encodeFragment
      && unescape u.RawFragment .encodeFragment == some u.Fragment then u.RawFragment
  else escape u.Fragment .encodeFragment

/-- The call `strings.ToLower` on a scheme (letters, digits, `+`, `-`, `.`). -/
def toLower (s : List Char) : List Char :=
  s.map fun c => if decide ('A' ≤ c) && decide (c ≤ 'Z') then Char.ofNat (c.toNat + 32) else c

/-- The function `parse` with `viaRequest` false; `none` for an error. -/
def parse (rawURL : List Char) : Option URL :=
  if stringContainsCTLByte rawURL then none
  else if rawURL = ['*'] then some { URL.zero with Path := ['*'] }
  else
    match getScheme rawURL with
    | none => none
    | some (scheme, rest0) =>
      let url0 : URL := { URL.zero with Scheme := toLower scheme }
      let forced : Bool := rest0.getLast? = some '?' && rest0.count '?' = 1
      let rest1 : List Char := if forced then rest0.dropLast else (cut '?' rest0).1
      let url1 : URL :=
        if forced then { url0 with ForceQuery := true }
        else { url0 with RawQuery := (cut '?' rest0).2.1 }
      if rest1.head? ≠ some '/' && url1.Scheme ≠ [] then some { url1 with Opaque := rest1 }
      else if rest1.head? ≠ some '/' && (cut '/' rest1).1.contains ':' then none
      else if (url1.Scheme ≠ [] || !(['/', '/', '/'].isPrefixOf rest1))
          && ['/', '/'].isPrefixOf rest1 then
        let authority : List Char := (cut '/' (rest1.drop 2)).1
        let rest2 : List Char := (rest1.drop 2).drop authority.length
        match parseAuthority authority with
        | none => none
        | some (user, host) => URL.setPath { url1 with User := user, Host := host } rest2
      else if url1.Scheme ≠ [] && rest1.head? = some '/' then
        URL.setPath { url1 with OmitHost := true } rest1
      else URL.setPath url1 rest1

/-- The function `Parse`; `none` for an error. -/
def Parse (rawURL : List Char) : Option URL :=
  match parse (cut '#' rawURL).1 with
  | none => none
  | some u => if (cut '#' rawURL).2.1 = [] then some u else u.setFragment (cut '#' rawURL).2.1

/-- The method `Userinfo.String` of a non-nil receiver. -/
def Userinfo.UserString (ui : Userinfo) : List Char :=
  escape ui.username .encodeUserPassword ++
    (if ui.passwordSet then ':' :: escape ui.password .encodeUserPassword else [])

/-- The method `String` of `URL`. -/
def URL.UrlString (u : URL) : List Char :=
  let buf0 : List Char := if u.Scheme ≠ [] then u.Scheme ++ [':'] else []
  let buf3 : List Char :=
    if u.Opaque ≠ [] then buf0 ++ u.Opaque
    else
      let buf1 : List Char :=
        if u.Scheme ≠ [] || u.Host ≠ [] || u.User.isSome then
          if u.OmitHost && u.Host = [] && u.User.isNone then buf0
          else
            buf0 ++ (if u.Host ≠ [] || u.Path ≠ [] || u.User.isSome then ['/', '/'] else [])
              ++ (match u.User with
                  | some ui => ui.UserString ++ ['@']
                  | none => [])
              ++ (if u.Host ≠ [] then escape u.Host .encodeHost else [])
        else buf0
      let path : List Char := u.EscapedPath
      let buf2 : List Char :=
        if path ≠ [] && path.head? ≠ some '/' && u.Host ≠ [] then buf1 ++ ['/'] else buf1
      let buf2b : List Char :=
        if buf2 = [] && (cut '/' path).1.contains ':' then buf2 ++ ['.', '/'] else buf2
      buf2b ++ path
  let buf4 : List Char :=
    if u.ForceQuery || u.RawQuery ≠ [] then buf3 ++ ['?'] ++ u.RawQuery else buf3
  if u.Fragment ≠ [] then buf4 ++ ['#'] ++ u.EscapedFragment else buf4

/-- The method `IsAbs`. -/
def URL.IsAbs (u : URL) : Bool := u.Scheme ≠ []

/-- The function `splitHostPort`, first result. -/
def splitHost (hostPort : List Char) : List Char :=
  let host : List Char :=
    if (cutLast ':' hostPort).2.2 && validOptionalPort (':' :: (cutLast ':' hostPort).2.1) then
      (cutLast ':' hostPort).1
    else hostPort
  if host.head? = some '[' && host.getLast? = some ']' then host.tail.dropLast else host

/-- The method `Hostname`. -/
def URL.Hostname (u : URL) : List Char := splitHost u.Host

/-- The loop of `lazybuf` backtracking in `path.Clean`: the new `out.w`, from
`w` downwards. -/
def backtrackIdx (out : List Char) (dotdot : Nat) : Nat → Nat
  | 0 => 0
  | w + 1 => if w + 1 > dotdot && out.getD (w + 1) ' ' != '/' then backtrackIdx out dotdot w else w + 1

/-- The loop `for r < n` of `path.Clean`, with the bytes still to read, the
bytes written and `dotdot`; it runs at most once per byte left. -/
def cleanLoop (rooted : Bool) : Nat → List Char → List Char → Nat → List Char
  | 0, _, out, _ => out
  | _ + 1, [], out, _ => out
  | fuel + 1, c :: t, out, dotdot =>
    if c = '/' then cleanLoop rooted fuel t out dotdot
    else if c = '.' && (t = [] || t.head? = some '/') then cleanLoop rooted fuel t out dotdot
    else if c = '.' && t.head? = some '.' && (t.tail = [] || t.tail.head? = some '/') then
      if out.length > dotdot then
        cleanLoop rooted fuel t.tail (out.take (backtrackIdx out dotdot (out.length - 1))) dotdot
      else if !rooted then
        cleanLoop rooted fuel t.tail ((if out.length > 0 then out ++ ['/'] else out) ++ ['.', '.'])
          ((if out.length > 0 then out ++ ['/'] else out) ++ ['.', '.']).length
      else cleanLoop rooted fuel t.tail out dotdot
    else
      cleanLoop rooted fuel ((c :: t).dropWhile (· != '/'))
        ((if rooted && out.length != 1 || !rooted && out.length != 0 then out ++ ['/'] else out)
          ++ (c :: t).takeWhile (· != '/'))
        dotdot

/-- The function `path.Clean`. -/
def Clean (path : List Char) : List Char :=
  if path = [] then ['.']
  else
    let rooted : Bool := path.head? = some '/'
    let out : List Char :=
      if rooted then cleanLoop true path.length path.tail ['/'] 1
      else cleanLoop false path.length path [] 0
    if out = [] then ['.'] else out

/-- The loop of `path.Join` over the elements, with the bytes written so far. -/
def joinLoop : List (List Char) → List Char → List Char
  | [], buf => buf
  | e :: es, buf =>
    if buf ≠ [] || e ≠ [] then joinLoop es ((if buf ≠ [] then buf ++ ['/'] else buf) ++ e)
    else joinLoop es buf

/-- The function `path.Join`. -/
def Join (elem : List (List Char)) : List Char :=
  if (elem.map List.length).sum = 0 then [] else Clean (joinLoop elem [])

/-- The path `p` that the method `JoinPath` hands to `setPath`. -/
def URL.joinedPath (u : URL) (elem : List (List Char)) : List Char :=
  let elem0 : List Char := u.EscapedPath
  let p : List Char :=
    if elem0.head? ≠ some '/' then (Join (('/' :: elem0) :: elem)).tail
    else Join (elem0 :: elem)
  if ((elem0 :: elem).getLast?.getD []).getLast? = some '/' && p.getLast? ≠ some '/' then
    p ++ ['/']
  else p

/-- The method `JoinPath`; an error of `setPath` is discarded by the code. -/
def URL.JoinPath (u : URL) (elem : List (List Char)) : URL :=
  (u.setPath (u.joinedPath elem)).getD u

/-- The function `JoinPath`; `none` for an error. -/
def JoinPath (base : List Char) (elem : List (List Char)) : Option (List Char) :=
  (Parse base).map fun u => (u.JoinPath elem).UrlString

/-- The call `strings.Split(s, "/")`. -/
def splitSlash : List Char → List (List Char)
  | [] => [[]]
  | c :: rest =>
    if c = '/' then [] :: splitSlash rest
    else
      match splitSlash rest with
      | [] => [[c]]
      | seg :: segs => (c :: seg) :: segs

/-- One round of the loop of `resolvePath` on the element `elem`: the bytes
written (`dst`) and `first`. -/
def resolveElem (st : List Char × Bool) (elem : List Char) : List Char × Bool :=
  if elem = ['.'] then (st.1, false)
  else if elem = ['.', '.'] then
    if (cutLast '/' st.1.tail).2.2 then ('/' :: (cutLast '/' st.1.tail).1, st.2)
    else (['/'], true)
  else ((if !st.2 then st.1 ++ ['/'] else st.1) ++ elem, false)

/-- The function `resolvePath`. -/
def resolvePath (base ref : List Char) : List Char :=
  let full : List Char :=
    if ref = [] then base
    else if ref.head? ≠ some '/' then
      (if (cutLast '/' base).2.2 then (cutLast '/' base).1 ++ ['/'] else []) ++ ref
    else ref
  if full = [] then []
  else
    let dst : List Char := ((splitSlash full).foldl resolveElem (['/'], true)).1
    let last : List Char := (splitSlash full).getLast?.getD []
    let r : List Char := if last = ['.'] || last = ['.', '.'] then dst ++ ['/'] else dst
    if r.length > 1 && r.tail.head? = some '/' then r.tail else r

/-- The method `ResolveReference`; an error of `setPath` is discarded. -/
def URL.ResolveReference (u ref : URL) : URL :=
  let url0 : URL := if ref.Scheme = [] then { ref with Scheme := u.Scheme } else ref
  if ref.Scheme ≠ [] || ref.Host ≠ [] || ref.User.isSome then
    (url0.setPath (resolvePath ref.EscapedPath [])).getD url0
  else if ref.Opaque ≠ [] then { url0 with User := none, Host := [], Path := [] }
  else
    let url1 : URL :=
      if ref.Path = [] && !ref.ForceQuery && ref.RawQuery = [] then
        if ref.Fragment = [] then
          { url0 with RawQuery := u.RawQuery, Fragment := u.Fragment, RawFragment := u.RawFragment }
        else { url0 with RawQuery := u.RawQuery }
      else url0
    let url2 : URL := { url1 with Host := u.Host, User := u.User }
    (url2.setPath (resolvePath u.EscapedPath ref.EscapedPath)).getD url2

end url

/-- The package `net/url` as the orchestrator uses it. -/
def goUrl : NetUrl url.URL :=
  { Parse := fun s => url.Parse s.toList
    IsAbs := url.URL.IsAbs
    ResolveReference := url.URL.ResolveReference
    Hostname := fun u => String.mk u.Hostname
    UrlString := fun u => String.mk u.UrlString
    JoinPath := fun base elem =>
      (url.JoinPath base.toList (elem.map String.toList)).map String.mk }


/-! ## Part 4. Reference definitions from the specification -/

/-- What one scheduler tick decides, in the words of section 4.5 of the
specification: cancel the crawl, dispatch (the Frontier left, the new
DispatchedCount, the request submitted), or do nothing. -/
inductive Decision where
  | cancel
  | dispatch (frontier : List String) (dispatchedCount : Nat) (request : Request)
  | nothing
deriving DecidableEq, Repr

/-- The four-case decision of the specification, on the Frontier contents,
DispatchedCount, CompletedCount and MaxRequests, over the integers. -/
def tickSpec (frontier : List String) (dispatchedCount completedCount maxRequests : Nat) :
    Decision :=
  if completedCount ≥ maxRequests then .cancel
  else if frontier = [] ∧ dispatchedCount = completedCount then .cancel
  else
    match frontier with
    | head :: rest =>
      .dispatch rest (dispatchedCount + 1) { ID := dispatchedCount + 1, Url := head }
    | [] => .nothing

/-- The outcome of the ticker body that a decision stands for. -/
def Decision.toResult {σ : Type} (o : Orchestrator σ) : Decision → TickResult σ
  | .cancel => .cancel o
  | .dispatch frontier dispatchedCount request =>
    .dispatch { o with Queue := { o.Queue with buf := frontier }, sendingOps := dispatchedCount }
      request
  | .nothing => .idle o

/-- An observer that appends its number and the response to a log. -/
def recorder (i : Nat) : Response → List (Nat × Response) → List (Nat × Response) :=
  fun resp log => log ++ [(i, resp)]

/-! ## Part 5. Invariants and example executions -/

/-- The orchestrator of the examples: `Init` with the given budget, after the
start page was fetched and counted and the given keys were claimed and queued. -/
def exampleOrch (maxRequests : Nat) (queue : List String) : Orchestrator Unit :=
  { (Orchestrator.zero Unit).Init
      { MaxRequests := maxRequests, PolitenessDelay := 400, Timeout := 4000 } with
    Store := { Visited := (queue.map fun k => (k, VType.TO_VISIT))
                ++ [("https://test.com/", VType.VISITED)] }
    Queue := { cap := maxRequests, buf := queue }
    processedOps := 1
    sendingOps := 1 }

/-- The parsed start URL of the examples. -/
def exampleStart : url.URL :=
  { url.URL.zero with
    Scheme := "https".toList, Host := "test.com".toList, Path := "/".toList }

/-- The key a `processWorkingLinks` goroutine has inserted and still holds. -/
def FilterPC.claim : FilterPC → Option String
  | .recv _ => none
  | .budget joined => some joined
  | .mark joined => some joined
  | .send joined => some joined

/-- The steps of the system in relational form, with the list of goroutines
split around the one that moves. -/
inductive Trans {σ : Type} (key : String) : System σ → System σ → Prop where
  | crawlPush (s : System σ) (h1 : s.crawlPushed = false) (h2 : s.o.Queue.len < s.o.Queue.cap) :
    Trans key s { s with
      o := { s.o with Queue := { s.o.Queue with buf := s.o.Queue.buf ++ [key] } }
      crawlPushed := true
      pushed := s.pushed ++ [key] }
  | tickerMove (s : System σ) (pc : TickerPC) (h1 : s.ticker.uncounted = 0)
      (h2 : pc.uncounted = 0) :
    Trans key s { s with ticker := pc }
  | tickerPop (s : System σ) (link : String) (rest : List String) (h1 : s.ticker.uncounted = 0)
      (h2 : s.o.Queue.buf = link :: rest) :
    Trans key s { s with
      o := { s.o with Queue := { s.o.Queue with buf := rest }, sendingOps := add1 s.o.sendingOps }
      ticker := .send { ID := add1 s.o.sendingOps, Url := link }
      dispatched := s.dispatched ++ [{ ID := add1 s.o.sendingOps, Url := link }] }
  | deliver (s : System σ) (request : Request) (h1 : s.ticker = .send request)
      (h2 : s.requesters.length < numWorkers) :
    Trans key s { s with ticker := .wait, requesters := s.requesters ++ [.recv request] }
  | reqSoftStop (s : System σ) (l1 l2 : List ReqPC) (request : Request)
      (h1 : s.requesters = l1 ++ .recv request :: l2) :
    Trans key s { s with requesters := l1 ++ .count :: l2 }
  | reqPass (s : System σ) (l1 l2 : List ReqPC) (request : Request)
      (h1 : s.requesters = l1 ++ .recv request :: l2)
      (h2 : ¬ s.o.processedOps > s.o.Config.MaxRequests) :
    Trans key s { s with requesters := l1 ++ .lock request :: l2 }
  | reqSkip (s : System σ) (l1 l2 : List ReqPC) (request : Request)
      (h1 : s.requesters = l1 ++ .lock request :: l2) :
    Trans key s { s with requesters := l1 ++ .count :: l2 }
  | reqFail (s : System σ) (l1 l2 : List ReqPC) (request : Request)
      (h1 : s.requesters = l1 ++ .lock request :: l2) :
    Trans key s { s with
      requesters := l1 ++ .count :: l2
      fetched := s.fetched ++ [request.Url] }
  | reqOk (s : System σ) (l1 l2 : List ReqPC) (request : Request) (resp : Response)
      (h1 : s.requesters = l1 ++ .lock request :: l2) :
    Trans key s { s with
      o := { s.o with Store := { Visited := s.o.Store.Visited.set request.Url VType.VISITED } }
      requesters := l1 ++ .notify resp :: l2
      fetched := s.fetched ++ [request.Url] }
  | reqCount (s : System σ) (l1 l2 : List ReqPC)
      (h1 : s.requesters = l1 ++ .count :: l2) :
    Trans key s { s with
      o := { s.o with processedOps := add1 s.o.processedOps }
      requesters := l1 ++ l2 }
  | reqNotify (s : System σ) (l1 l2 : List ReqPC) (resp : Response)
      (h1 : s.requesters = l1 ++ .notify resp :: l2) :
    Trans key s { s with
      world := s.o.visited resp s.world
      requesters := l1 ++ .countResp resp :: l2 }
  | reqCountResp (s : System σ) (l1 l2 : List ReqPC) (resp : Response)
      (h1 : s.requesters = l1 ++ .countResp resp :: l2) :
    Trans key s { s with
      o := { s.o with processedOps := add1 s.o.processedOps }
      requesters := l1 ++ .forward resp :: l2 }
  | reqForward (s : System σ) (l1 l2 : List ReqPC) (resp : Response) (new : List (List String))
      (h1 : s.requesters = l1 ++ .forward resp :: l2) :
    Trans key s { s with requesters := l1 ++ l2, parsers := s.parsers ++ new }
  | parserDone (s : System σ) (p1 p2 : List (List String))
      (h1 : s.parsers = p1 ++ [] :: p2) :
    Trans key s { s with parsers := p1 ++ p2 }
  | parserSend (s : System σ) (p1 p2 : List (List String)) (link : String) (rest : List String)
      (h1 : s.parsers = p1 ++ (link :: rest) :: p2) :
    Trans key s { s with parsers := p1 ++ rest :: p2, filters := s.filters ++ [.recv link] }
  | filterDrop (s : System σ) (f1 f2 : List FilterPC) (pc : FilterPC)
      (h1 : s.filters = f1 ++ pc :: f2) :
    Trans key s { s with filters := f1 ++ f2 }
  | filterClaim (s : System σ) (f1 f2 : List FilterPC) (link joined : String)
      (h1 : s.filters = f1 ++ .recv link :: f2)
      (h2 : s.o.Store.Visited.get joined = none) :
    Trans key s { s with
      o := { s.o with Store := { Visited := s.o.Store.Visited.set joined VType.TO_VISIT } }
      filters := f1 ++ .budget joined :: f2 }
  | filterKeep (s : System σ) (f1 f2 : List FilterPC) (pc pc' : FilterPC)
      (h1 : s.filters = f1 ++ pc :: f2) (h2 : pc'.claim = pc.claim) :
    Trans key s { s with filters := f1 ++ pc' :: f2 }
  | filterPush (s : System σ) (f1 f2 : List FilterPC) (joined : String)
      (h1 : s.filters = f1 ++ .send joined :: f2)
      (h2 : s.o.Queue.len < s.o.Queue.cap) :
    Trans key s { s with
      o := { s.o with Queue := { s.o.Queue with buf := s.o.Queue.buf ++ [joined] } }
      filters := f1 ++ f2
      pushed := s.pushed ++ [joined] }

/-- 1 for a requester that passed the test of line 97 and has not yet entered
the locked region. -/
def ReqPC.atLock : ReqPC → Nat
  | .lock _ => 1
  | _ => 0

/-- 1 for a requester between the locked region and its `processedOps.Add(1)`. -/
def ReqPC.postLock : ReqPC → Nat
  | .count => 1
  | .notify _ => 1
  | .countResp _ => 1
  | _ => 0

/-- The counting invariant: the configuration is the one of `Init`; at most
`numWorkers` requesters are busy; the counters are the number of dispatched
requests and the number of those already counted, modulo `2 ^ 64`; every call
of the client is counted or belongs to a requester about to count it; and,
before the counters wrap, the calls made plus the requesters that may still
make one number at most `MaxRequests + numWorkers`. -/
def CountInv {σ : Type} (config : OrchestratorConfig) (s : System σ) : Prop :=
  s.o.Config = config
  ∧ s.requesters.length ≤ numWorkers
  ∧ s.inFlight ≤ s.dispatched.length
  ∧ s.o.sendingOps = s.dispatched.length % 2 ^ 64
  ∧ s.o.processedOps = (s.dispatched.length - s.inFlight) % 2 ^ 64
  ∧ s.fetched.length + s.inFlight
      ≤ s.dispatched.length + (s.requesters.map ReqPC.postLock).sum
  ∧ (s.dispatched.length < 2 ^ 64 →
      s.fetched.length + (s.requesters.map ReqPC.atLock).sum
        ≤ config.MaxRequests + numWorkers)

/-- The URL of the request a requester holds before the locked region. -/
def ReqPC.url : ReqPC → Option String
  | .recv request => some request.Url
  | .lock request => some request.Url
  | _ => none

/-- Whether a requester holds a response of the client. -/
def ReqPC.holdsResp : ReqPC → Bool
  | .notify _ => true
  | .countResp _ => true
  | .forward _ => true
  | _ => false

/-- The URL of the request the ticker is about to hand over. -/
def TickerPC.url : TickerPC → Option String
  | .send request => some request.Url
  | _ => none

/-- The keys that filter goroutines have inserted and not yet pushed or dropped. -/
def System.claimed {σ : Type} (s : System σ) : List String :=
  s.filters.filterMap FilterPC.claim

/-- The deduplication invariant for the start key `key`: the keys held by
filter goroutines and the keys pushed so far are pairwise distinct; held keys
are in the store; a pushed key is in the store, or it is the start key and the
store is still empty; while the store is empty no response, body or link is
around; nothing is pushed before line 276 runs; the pushed keys are the
dispatched ones followed by the queue; and a request in the hands of the
ticker or of a requester was dispatched. -/
def DedupInv {σ : Type} (key : String) (s : System σ) : Prop :=
  (s.claimed ++ s.pushed).Nodup
  ∧ (∀ j ∈ s.claimed, j ∈ s.o.Store.Visited.keys)
  ∧ (∀ u ∈ s.pushed, u ∈ s.o.Store.Visited.keys ∨ (s.o.Store.Visited = [] ∧ u = key))
  ∧ (s.o.Store.Visited = [] →
      s.parsers = [] ∧ s.filters = [] ∧ ∀ pc ∈ s.requesters, pc.holdsResp = false)
  ∧ (s.crawlPushed = false → s.pushed = [] ∧ s.o.Store.Visited = [])
  ∧ s.pushed = s.dispatched.map Request.Url ++ s.o.Queue.buf
  ∧ (∀ u, s.ticker.url = some u → u ∈ s.dispatched.map Request.Url)
  ∧ (∀ pc ∈ s.requesters, ∀ u, pc.url = some u → u ∈ s.dispatched.map Request.Url)

/-- The URLs of the requests that are on their way to the locked region of a
requester: with the ticker, or with a requester before line 111. -/
def System.held {σ : Type} (s : System σ) : List String :=
  s.ticker.url.toList ++ s.requesters.filterMap ReqPC.url

/-- The fetch invariant: counted with multiplicity, the URLs fetched so far
and the URLs still on their way to a fetch are among the dispatched URLs. -/
def FetchInv {σ : Type} (s : System σ) : Prop :=
  ∀ u, (s.fetched ++ s.held).count u ≤ (s.dispatched.map Request.Url).count u

/-- The budget of the example run: two requests. -/
def exampleConfig : OrchestratorConfig :=
  { MaxRequests := 2, PolitenessDelay := 400, Timeout := 4000 }

/-- The start page of the example run: HTML with links to `/a` and `/b`. -/
def examplePage : Response :=
  { StatusCode := 200, ContentType := "text/html",
    Body := some ["https://test.com/a", "/b"] }

/-- A page of the example run without links. -/
def exampleLeaf : Response :=
  { StatusCode := 200, ContentType := "text/html", Body := some [] }

/-- The example run: the start page is fetched and counted, its two links
are queued; the ticker dispatches `/a/`, whose fetch is answered but not yet
counted when the next tick reads a completed count of 1 and dispatches `/b/`;
then `/a/` is counted, which brings the completed count to 2, the budget; the
requester that received `/b/` reads that count, finds that 2 is not above 2,
and calls the client for `/b/`. -/
def exampleRun : List Action :=
  [ .crawlPush,
    .ticker, .ticker, .ticker, .ticker,
    .requester 0 (.ok examplePage), .requester 0 (.ok examplePage),
    .requester 0 (.ok examplePage), .requester 0 (.ok examplePage),
    .requester 0 (.ok examplePage),
    .parser 0, .parser 0, .parser 0,
    .filter 0, .filter 0, .filter 0, .filter 0,
    .filter 0, .filter 0, .filter 0, .filter 0,
    .ticker, .ticker, .ticker, .ticker,
    .requester 0 (.ok exampleLeaf), .requester 0 (.ok exampleLeaf),
    .ticker, .ticker, .ticker, .ticker,
    .requester 0 (.ok exampleLeaf), .requester 0 (.ok exampleLeaf),
    .requester 0 (.ok exampleLeaf),
    .parser 0,
    .requester 0 (.ok exampleLeaf), .requester 0 (.ok exampleLeaf) ]

/-- The state at the end of the example run. -/
def exampleEnd : Option (System Unit) :=
  run goUrl exampleStart exampleRun (System.initial exampleConfig [] ())

/-- The start page of the second example run: links back to the start page
(the empty link and `/`), and two links to the same page. -/
def loopPage : Response :=
  { StatusCode := 200, ContentType := "text/html",
    Body := some ["", "/", "https://test.com/a", "/a"] }

/-- The second example run, with a budget of 100: the start page is fetched
and each of its four links goes through the filter stage. -/
def loopRun : List Action :=
  [ .crawlPush,
    .ticker, .ticker, .ticker, .ticker,
    .requester 0 (.ok loopPage), .requester 0 (.ok loopPage),
    .requester 0 (.ok loopPage), .requester 0 (.ok loopPage),
    .requester 0 (.ok loopPage),
    .parser 0, .parser 0, .parser 0, .parser 0, .parser 0,
    .filter 0, .filter 0,
    .filter 0, .filter 0, .filter 0, .filter 0,
    .filter 0 ]

/-- The state at the end of the second example run. -/
def loopEnd : Option (System Unit) :=
  run goUrl exampleStart loopRun
    (System.initial { MaxRequests := 100, PolitenessDelay := 400, Timeout := 4000 } [] ())

/-- The budget of the third example run: one request, so that the queue has
capacity 1 and the mark of line 203 is `1 - 1/8 = 1`. -/
def blockedConfig : OrchestratorConfig :=
  { MaxRequests := 1, PolitenessDelay := 400, Timeout := 4000 }

/-- The third example run, with a budget of 1: the start page is fetched and
counted, its first link is claimed and queued, which fills the queue; its
second link is claimed, passes the tests of lines 195 and 203 and reaches the
send of line 204; the ticker then reads a completed count of 1 and stops. -/
def blockedRun : List Action :=
  [ .crawlPush,
    .ticker, .ticker, .ticker, .ticker,
    .requester 0 (.ok examplePage), .requester 0 (.ok examplePage),
    .requester 0 (.ok examplePage), .requester 0 (.ok examplePage),
    .requester 0 (.ok examplePage),
    .parser 0, .parser 0, .parser 0,
    .filter 0, .filter 0, .filter 0, .filter 0,
    .filter 0, .filter 0, .filter 0,
    .ticker ]

/-- The state at the end of the third example run. -/
def blockedEnd : Option (System Unit) :=
  run goUrl exampleStart blockedRun (System.initial blockedConfig [] ())

/-! ## Theorems -/

/-! ### Machine integers -/

theorem add1_eq {n : Nat} (h : n + 1 < 2 ^ 64) : add1 n = n + 1 := by
  unfold add1; exact Nat.mod_eq_of_lt h

theorem toInt_eq {x : Nat} (h : x < 2 ^ 63) : toInt x = (x : Int) := by
  unfold toInt
  have h2 : x % 2 ^ 64 = x := Nat.mod_eq_of_lt (by omega)
  rw [h2, if_pos h]

theorem belowMark_iff {m n : Nat} (h : m < 2 ^ 63) : belowMark m n = true ↔ n ≤ m - m / 8 := by
  unfold belowMark
  rw [toInt_eq (by omega), decide_eq_true_iff]
  omega

/-! ### C3: the scheduler tick -/

/-- C3. While `sendingOps` is below the top of the `uint64` range, the ticker
body is the four-case decision of the specification; and a tick that
dispatches does so below the budget, pops exactly the head of the queue, adds
one to `sendingOps` and hands out the new value as the request ID, which is
larger than the previous one. -/
theorem tick_refines_tickSpec {σ : Type} (o : Orchestrator σ) (h : o.sendingOps + 1 < 2 ^ 64) :
    tick o = (tickSpec o.Queue.buf o.sendingOps o.processedOps o.Config.MaxRequests).toResult o
    ∧ (∀ o' request, tick o = .dispatch o' request →
        o.processedOps < o.Config.MaxRequests
        ∧ o.Queue.buf = request.Url :: o'.Queue.buf
        ∧ o'.sendingOps = o.sendingOps + 1
        ∧ request.ID = o'.sendingOps
        ∧ o.sendingOps < request.ID) := by
  constructor
  · unfold tick tickSpec Chan.len
    by_cases h1 : o.processedOps ≥ o.Config.MaxRequests
    · simp [h1, Decision.toResult]
    · cases hq : o.Queue.buf with
      | nil =>
        by_cases h2 : o.sendingOps = o.processedOps
        · simp [h1, h2, Decision.toResult]
        · simp [h1, h2, Decision.toResult]
      | cons link rest =>
        simp [h1, Decision.toResult, add1_eq h]
  · intro o' request ht
    unfold tick Chan.len at ht
    by_cases h1 : o.processedOps ≥ o.Config.MaxRequests
    · simp [h1] at ht
    · cases hq : o.Queue.buf with
      | nil =>
        by_cases h2 : o.sendingOps = o.processedOps
        · simp [h1, h2, hq] at ht
        · simp [h1, h2, hq] at ht
      | cons link rest =>
        simp [h1, hq, add1_eq h] at ht
        obtain ⟨ho, hr⟩ := ht
        subst ho; subst hr
        simp
        omega

/-- Witness of C3: the tick of a fresh orchestrator holding the start URL. -/
theorem tick_refines_tickSpec_witness :
    (0 : Nat) + 1 < 2 ^ 64 ∧
    tick ({ (Orchestrator.zero Unit).Init
              { MaxRequests := 100, PolitenessDelay := 400, Timeout := 4000 } with
            Queue := { cap := 100, buf := ["https://test.com/"] } })
      = .dispatch
          { (Orchestrator.zero Unit).Init
              { MaxRequests := 100, PolitenessDelay := 400, Timeout := 4000 } with
            Queue := { cap := 100, buf := [] }, sendingOps := 1 }
          { ID := 1, Url := "https://test.com/" } :=
  ⟨by decide,
   (tick_refines_tickSpec
      ({ (Orchestrator.zero Unit).Init
            { MaxRequests := 100, PolitenessDelay := 400, Timeout := 4000 } with
          Queue := { cap := 100, buf := ["https://test.com/"] } }) (by decide)).1⟩

/-! ### C4: observers -/

theorem foldl_OnVisited {σ : Type} (callbacks : List (Response → σ → σ)) (o : Orchestrator σ) :
    callbacks.foldl Orchestrator.OnVisited o
      = { o with VisitedCallback := o.VisitedCallback ++ callbacks } := by
  induction callbacks generalizing o with
  | nil => simp
  | cons c cs ih => simp [List.foldl_cons, ih, Orchestrator.OnVisited]

theorem foldl_recorder (resp : Response) (n : Nat) (log : List (Nat × Response)) :
    ((List.range n).map recorder).foldl (fun acc callback => callback resp acc) log
      = log ++ (List.range n).map (fun i => (i, resp)) := by
  induction n with
  | zero => simp
  | succ n ih =>
    simp [List.range_succ, List.foldl_append, ih, recorder]

theorem requester_world_ok {σ : Type} (o : Orchestrator σ) (w : σ) (request : Request)
    (resp : Response) (h : (requester o w request (.ok resp)).clientDo = true) :
    (requester o w request (.ok resp)).world
      = o.VisitedCallback.foldl (fun acc callback => callback resp acc) w := by
  unfold requester at h ⊢
  by_cases h1 : o.processedOps > o.Config.MaxRequests
  · simp [h1] at h
  · by_cases h2 : o.Store.Visited.get request.Url = some VType.VISITED
    · simp [h1, h2] at h
    · simp only [h1, h2, if_false]
      split <;> rfl

theorem requester_world_err {σ : Type} (o : Orchestrator σ) (w : σ) (request : Request) :
    (requester o w request .doErr).world = w := by
  unfold requester
  split
  · rfl
  · split <;> rfl

/-- C4. Registering `callbacks` through `OnVisited` appends them, in order,
behind the callbacks already there. For a request that the requester fetches
(`o.Client.Do` is called): when the client returns a response, whatever its
status code and content type, the environment is the one obtained by running
every registered callback once on that response, in registration order; when
the client returns an error, the environment is untouched. With `n` recording
observers the log gains exactly the entries `(0, resp), ..., (n-1, resp)`. -/
theorem observer_completeness {σ : Type} (o : Orchestrator σ)
    (callbacks : List (Response → σ → σ)) (w : σ) (request : Request) (fr : FetchResult)
    (hfetch : (requester (callbacks.foldl Orchestrator.OnVisited o) w request fr).clientDo = true) :
    (callbacks.foldl Orchestrator.OnVisited o).VisitedCallback = o.VisitedCallback ++ callbacks
    ∧ (∀ resp, fr = .ok resp →
        (requester (callbacks.foldl Orchestrator.OnVisited o) w request fr).world
          = (o.VisitedCallback ++ callbacks).foldl (fun acc callback => callback resp acc) w)
    ∧ (fr = .doErr →
        (requester (callbacks.foldl Orchestrator.OnVisited o) w request fr).world = w)
    ∧ (∀ (n : Nat) (config : OrchestratorConfig) (log : List (Nat × Response))
        (request' : Request) (resp : Response),
        (requester (((List.range n).map recorder).foldl Orchestrator.OnVisited
            ((Orchestrator.zero (List (Nat × Response))).Init config))
            log request' (.ok resp)).clientDo = true →
        (requester (((List.range n).map recorder).foldl Orchestrator.OnVisited
            ((Orchestrator.zero (List (Nat × Response))).Init config))
            log request' (.ok resp)).world
          = log ++ (List.range n).map (fun i => (i, resp))) := by
  refine ⟨?_, ?_, ?_, ?_⟩
  · rw [foldl_OnVisited]
  · intro resp hfr
    subst hfr
    rw [requester_world_ok _ _ _ _ hfetch, foldl_OnVisited]
  · intro hfr
    subst hfr
    exact requester_world_err _ _ _
  · intro n config log request' resp hdo
    rw [requester_world_ok _ _ _ _ hdo, foldl_OnVisited]
    simp [Orchestrator.Init, Orchestrator.zero, foldl_recorder]

/-- Witness of C4: two recording observers and a 404 response that is not HTML. -/
theorem observer_completeness_witness :
    (requester ([recorder 0, recorder 1].foldl Orchestrator.OnVisited
        ((Orchestrator.zero (List (Nat × Response))).Init
          { MaxRequests := 100, PolitenessDelay := 400, Timeout := 4000 }))
        [] { ID := 1, Url := "https://test.com/" }
        (.ok { StatusCode := 404, ContentType := "image/png", Body := none })).world
      = [(0, { StatusCode := 404, ContentType := "image/png", Body := none }),
         (1, { StatusCode := 404, ContentType := "image/png", Body := none })] :=
  ((observer_completeness
      ((Orchestrator.zero (List (Nat × Response))).Init
        { MaxRequests := 100, PolitenessDelay := 400, Timeout := 4000 })
      [recorder 0, recorder 1] [] { ID := 1, Url := "https://test.com/" }
      (.ok { StatusCode := 404, ContentType := "image/png", Body := none })
      (by decide)).2.1 _ rfl).trans (by decide)

/-! ### C5: the high-water mark -/

/-- Counterexample to C5 as stated: with `MaxRequests = 8` the mark is
`8 - 8/8 = 7`; a queue holding 7 entries is at the mark, not strictly below
it, and the new key is pushed all the same. -/
theorem high_water_mark_at_mark_pushes :
    ¬ ((7 : Nat) < 8 - 8 / 8)
    ∧ (processWorkingLinks goUrl
        (exampleOrch 8 ["https://test.com/1/", "https://test.com/2/", "https://test.com/3/",
          "https://test.com/4/", "https://test.com/5/", "https://test.com/6/",
          "https://test.com/7/"])
        exampleStart "https://test.com/new").state.Queue.buf
      = ["https://test.com/1/", "https://test.com/2/", "https://test.com/3/",
          "https://test.com/4/", "https://test.com/5/", "https://test.com/6/",
          "https://test.com/7/", "https://test.com/new/"] := by
  constructor
  · decide
  · decide

/-- C5, amended. For a budget that fits Go's `int`, a link whose key is new
and a completed count that does not exceed the budget: with a queue holding
`n` entries and room for one more, the key is pushed if `n` is at most
`MaxRequests - MaxRequests / 8`; and whenever `n` is above that mark the link
is dropped with the queue unchanged. In both cases the key is in the store as
`TO_VISIT`. -/
theorem high_water_mark {σ U : Type} (lib : NetUrl U) (o : Orchestrator σ) (startingUrl : U)
    (unvalidatedLink joined : String)
    (hmax : o.Config.MaxRequests < 2 ^ 63)
    (hcan : canonical lib startingUrl unvalidatedLink = some joined)
    (hnew : o.Store.Visited.get joined = none)
    (hbudget : ¬ o.processedOps > o.Config.MaxRequests) :
    (o.Queue.len ≤ o.Config.MaxRequests - o.Config.MaxRequests / 8 →
      o.Queue.len < o.Queue.cap →
      processWorkingLinks lib o startingUrl unvalidatedLink
        = .pushed { o with
            Store := { Visited := o.Store.Visited.set joined VType.TO_VISIT }
            Queue := { o.Queue with buf := o.Queue.buf ++ [joined] } })
    ∧ (o.Queue.len > o.Config.MaxRequests - o.Config.MaxRequests / 8 →
      processWorkingLinks lib o startingUrl unvalidatedLink
        = .dropped { o with Store := { Visited := o.Store.Visited.set joined VType.TO_VISIT } }) := by
  constructor
  · intro hle hroom
    have hb : belowMark o.Config.MaxRequests o.Queue.len = true := (belowMark_iff hmax).2 hle
    unfold processWorkingLinks
    simp [hcan, hnew, hbudget, hb, hroom]
  · intro hgt
    have hb : belowMark o.Config.MaxRequests o.Queue.len = false := by
      rw [Bool.eq_false_iff]
      intro h
      have := (belowMark_iff hmax).1 h
      omega
    unfold processWorkingLinks
    simp [hcan, hnew, hbudget, hb]

/-- Witness of C5: the queue of the counterexample, one entry above the mark. -/
theorem high_water_mark_witness :
    (8 : Nat) < 2 ^ 63
    ∧ (processWorkingLinks goUrl
        (exampleOrch 8 ["https://test.com/1/", "https://test.com/2/", "https://test.com/3/",
          "https://test.com/4/", "https://test.com/5/", "https://test.com/6/",
          "https://test.com/7/", "https://test.com/8/"])
        exampleStart "https://test.com/new").state.Queue.buf
      = ["https://test.com/1/", "https://test.com/2/", "https://test.com/3/",
          "https://test.com/4/", "https://test.com/5/", "https://test.com/6/",
          "https://test.com/7/", "https://test.com/8/"] :=
  ⟨by decide, by
    rw [(high_water_mark goUrl
      (exampleOrch 8 ["https://test.com/1/", "https://test.com/2/", "https://test.com/3/",
          "https://test.com/4/", "https://test.com/5/", "https://test.com/6/",
          "https://test.com/7/", "https://test.com/8/"])
      exampleStart "https://test.com/new" "https://test.com/new/"
      (by decide) (by decide) (by decide) (by decide)).2 (by decide)]
    rfl⟩

/-! ### C7: failed fetches -/

/-- Counterexample to C7 as stated: a key that the filter stage inserted as
`TO_VISIT` is still `TO_VISIT`, not `VISITED`, after a fetch of it that ended
in a transport error. -/
theorem failed_fetch_stays_to_visit :
    (requester
        ({ exampleOrch 100 [] with
            Store := { Visited := [("https://test.com/a/", VType.TO_VISIT),
                                   ("https://test.com/", VType.VISITED)] }
            sendingOps := 2 })
        () { ID := 2, Url := "https://test.com/a/" } .doErr).clientDo = true
    ∧ (requester
        ({ exampleOrch 100 [] with
            Store := { Visited := [("https://test.com/a/", VType.TO_VISIT),
                                   ("https://test.com/", VType.VISITED)] }
            sendingOps := 2 })
        () { ID := 2, Url := "https://test.com/a/" } .doErr).o.Store.Visited.get
          "https://test.com/a/" = some VType.TO_VISIT
    ∧ (requester
        ({ exampleOrch 100 [] with
            Store := { Visited := [("https://test.com/a/", VType.TO_VISIT),
                                   ("https://test.com/", VType.VISITED)] }
            sendingOps := 2 })
        () { ID := 2, Url := "https://test.com/a/" } .doErr).o.Store.Visited.get
          "https://test.com/a/" ≠ some VType.VISITED := by
  refine ⟨by decide, by decide, by decide⟩

/-- C7, amended. A request whose fetch fails, in the construction of the
request or in the client, leaves the store exactly as it was: the target keeps
the state it had (`TO_VISIT` after a claim by the filter stage, absent for the
start URL). The request is counted, nothing is sent on to the parser and no
observer runs. -/
theorem failed_fetch_leaves_store {σ : Type} (o : Orchestrator σ) (w : σ) (request : Request) :
    (requester o w request .newRequestErr).o.Store = o.Store
    ∧ (requester o w request .doErr).o.Store = o.Store
    ∧ (requester o w request .newRequestErr).o.processedOps = add1 o.processedOps
    ∧ (requester o w request .doErr).o.processedOps = add1 o.processedOps
    ∧ (requester o w request .newRequestErr).results = none
    ∧ (requester o w request .doErr).results = none
    ∧ (requester o w request .newRequestErr).world = w
    ∧ (requester o w request .doErr).world = w := by
  unfold requester
  by_cases h1 : o.processedOps > o.Config.MaxRequests
  · simp [h1]
  · by_cases h2 : o.Store.Visited.get request.Url = some VType.VISITED
    · simp [h1, h2]
    · simp [h1, h2]

/-! ### C8: the domain filter -/

/-- C8. A raw link that parses and whose hostname, after a non-absolute link
is resolved against the start URL, differs from the hostname of the start URL
is dropped: the iteration ends with the orchestrator, and so the store and the
queue, unchanged. -/
theorem domain_filter {σ U : Type} (lib : NetUrl U) (o : Orchestrator σ) (startingUrl : U)
    (unvalidatedLink : String) (link : U)
    (hparse : lib.Parse unvalidatedLink = some link)
    (hhost : lib.Hostname (if lib.IsAbs link = true then link
        else lib.ResolveReference startingUrl link) ≠ lib.Hostname startingUrl) :
    processWorkingLinks lib o startingUrl unvalidatedLink = .dropped o
    ∧ (processWorkingLinks lib o startingUrl unvalidatedLink).state.Store = o.Store
    ∧ (processWorkingLinks lib o startingUrl unvalidatedLink).state.Queue = o.Queue := by
  have hcan : canonical lib startingUrl unvalidatedLink = none := by
    unfold canonical
    rw [hparse]
    by_cases habs : lib.IsAbs link = true
    · rw [if_pos habs] at hhost
      simp [habs, Ne.symm hhost]
    · rw [if_neg habs] at hhost
      simp [habs, Ne.symm hhost]
  have h : processWorkingLinks lib o startingUrl unvalidatedLink = .dropped o := by
    unfold processWorkingLinks
    rw [hcan]
  rw [h]
  exact ⟨rfl, rfl, rfl⟩

/-- Witness of C8: a link to another host, met while crawling `test.com`. -/
theorem domain_filter_witness :
    goUrl.Parse "https://other.com/x"
      = some { url.URL.zero with
          Scheme := "https".toList, Host := "other.com".toList, Path := "/x".toList }
    ∧ (processWorkingLinks goUrl (exampleOrch 100 []) exampleStart
        "https://other.com/x").state.Queue = (exampleOrch 100 []).Queue :=
  ⟨by decide,
   (domain_filter goUrl (exampleOrch 100 []) exampleStart "https://other.com/x"
      { url.URL.zero with
          Scheme := "https".toList, Host := "other.com".toList, Path := "/x".toList }
      (by decide) (by decide)).2.2⟩

theorem upd_split_aux {α : Type} {l : List α} {i : Nat} {a : α} (h : l[i]? = some a) :
    ∃ l1 l2, l = l1 ++ a :: l2 ∧ (∀ x, upd l i (some x) = l1 ++ x :: l2)
      ∧ upd l i none = l1 ++ l2 := by
  induction l generalizing i with
  | nil => simp at h
  | cons b l ih =>
    cases i with
    | zero =>
      simp at h
      subst h
      exact ⟨[], l, rfl, fun x => rfl, rfl⟩
    | succ i =>
      simp at h
      obtain ⟨l1, l2, h1, h2, h3⟩ := ih h
      refine ⟨b :: l1, l2, by simp [h1], fun x => ?_, ?_⟩
      · simp [upd, h2]
      · simp [upd, h3]

theorem upd_split {α : Type} {l : List α} {i : Nat} {a : α} (h : l.get? i = some a) :
    ∃ l1 l2, l = l1 ++ a :: l2 ∧ (∀ x, upd l i (some x) = l1 ++ x :: l2)
      ∧ upd l i none = l1 ++ l2 := by
  rw [List.get?_eq_getElem?] at h
  exact upd_split_aux h

theorem stepTicker_trans {σ : Type} (key : String) (s s' : System σ)
    (h : stepTicker s = some s') : Trans key s s' := by
  unfold stepTicker at h
  split at h
  · rename_i ht
    split at h <;> (cases h; exact Trans.tickerMove s _ (by rw [ht]; rfl) rfl)
  · rename_i ht
    split at h <;> (cases h; exact Trans.tickerMove s _ (by rw [ht]; rfl) rfl)
  · rename_i ht
    split at h <;> (cases h; exact Trans.tickerMove s _ (by rw [ht]; rfl) rfl)
  · rename_i ht
    split at h
    · cases h; exact Trans.tickerMove s _ (by rw [ht]; rfl) rfl
    · rename_i link rest hq
      cases h
      exact Trans.tickerPop s link rest (by rw [ht]; rfl) hq
  · rename_i request ht
    split at h
    · rename_i hlen
      cases h
      exact Trans.deliver s request ht hlen
    · cases h
  · cases h

theorem stepCrawl_trans {σ U : Type} (lib : NetUrl U) (startUrl : U) (s s' : System σ)
    (h : stepCrawl lib startUrl s = some s') : Trans (lib.UrlString startUrl) s s' := by
  unfold stepCrawl at h
  split at h
  · rename_i hc
    simp at hc
    cases h
    exact Trans.crawlPush s hc.1 hc.2
  · cases h

theorem stepRequester_trans {σ : Type} (key : String) (s s' : System σ) (i : Nat)
    (fr : FetchResult) (h : stepRequester s i fr = some s') : Trans key s s' := by
  unfold stepRequester at h
  split at h
  · cases h
  · rename_i request hg
    obtain ⟨l1, l2, e, hs, _⟩ := upd_split hg
    split at h
    · cases h; rw [hs]; exact Trans.reqSoftStop s l1 l2 request e
    · rename_i hb
      cases h; rw [hs]; exact Trans.reqPass s l1 l2 request e hb
  · rename_i request hg
    obtain ⟨l1, l2, e, hs, _⟩ := upd_split hg
    split at h
    · cases h; rw [hs]; exact Trans.reqSkip s l1 l2 request e
    · split at h
      · cases h; rw [hs]; exact Trans.reqSkip s l1 l2 request e
      · cases h; rw [hs]; exact Trans.reqFail s l1 l2 request e
      · rename_i resp
        cases h; rw [hs]; exact Trans.reqOk s l1 l2 request resp e
  · rename_i hg
    obtain ⟨l1, l2, e, _, hn⟩ := upd_split hg
    cases h; rw [hn]; exact Trans.reqCount s l1 l2 e
  · rename_i resp hg
    obtain ⟨l1, l2, e, hs, _⟩ := upd_split hg
    cases h; rw [hs]; exact Trans.reqNotify s l1 l2 resp e
  · rename_i resp hg
    obtain ⟨l1, l2, e, hs, _⟩ := upd_split hg
    cases h; rw [hs]; exact Trans.reqCountResp s l1 l2 resp e
  · rename_i resp hg
    obtain ⟨l1, l2, e, _, hn⟩ := upd_split hg
    split at h
    · cases h; rw [hn]
      have := @Trans.reqForward _ key s l1 l2 resp [] e
      simpa using this
    · split at h
      · split at h
        · cases h; rw [hn]
          have := @Trans.reqForward _ key s l1 l2 resp [] e
          simpa using this
        · rename_i hrefs _
          cases h; rw [hn]
          exact Trans.reqForward s l1 l2 resp [hrefs] e
      · cases h

theorem stepParser_trans {σ : Type} (key : String) (s s' : System σ) (i : Nat)
    (h : stepParser s i = some s') : Trans key s s' := by
  unfold stepParser at h
  split at h
  · cases h
  · rename_i hg
    obtain ⟨p1, p2, e, _, hn⟩ := upd_split hg
    cases h; rw [hn]; exact Trans.parserDone s p1 p2 e
  · rename_i link rest hg
    obtain ⟨p1, p2, e, hs, _⟩ := upd_split hg
    split at h
    · cases h; rw [hs]; exact Trans.parserSend s p1 p2 link rest e
    · cases h

theorem stepFilter_trans {σ U : Type} (lib : NetUrl U) (startUrl : U) (key : String)
    (s s' : System σ) (i : Nat)
    (h : stepFilter lib startUrl s i = some s') : Trans key s s' := by
  unfold stepFilter at h
  split at h
  · cases h
  · rename_i link hg
    obtain ⟨f1, f2, e, hs, hn⟩ := upd_split hg
    split at h
    · cases h; rw [hn]; exact Trans.filterDrop s f1 f2 _ e
    · rename_i joined _
      split at h
      · cases h; rw [hn]; exact Trans.filterDrop s f1 f2 _ e
      · rename_i hv
        cases h; rw [hs]
        refine Trans.filterClaim s f1 f2 link joined e ?_
        cases hget : s.o.Store.Visited.get joined with
        | none => rfl
        | some v => simp [hget] at hv
  · rename_i joined hg
    obtain ⟨f1, f2, e, hs, hn⟩ := upd_split hg
    split at h
    · cases h; rw [hn]; exact Trans.filterDrop s f1 f2 _ e
    · cases h; rw [hs]; exact Trans.filterKeep s f1 f2 _ _ e rfl
  · rename_i joined hg
    obtain ⟨f1, f2, e, hs, hn⟩ := upd_split hg
    split at h
    · cases h; rw [hs]; exact Trans.filterKeep s f1 f2 _ _ e rfl
    · cases h; rw [hn]; exact Trans.filterDrop s f1 f2 _ e
  · rename_i joined hg
    obtain ⟨f1, f2, e, _, hn⟩ := upd_split hg
    split at h
    · rename_i hroom
      cases h; rw [hn]; exact Trans.filterPush s f1 f2 joined e hroom
    · cases h

theorem step_trans {σ U : Type} (lib : NetUrl U) (startUrl : U) (a : Action) (s s' : System σ)
    (h : step lib startUrl a s = some s') : Trans (lib.UrlString startUrl) s s' := by
  cases a with
  | crawlPush => exact stepCrawl_trans lib startUrl s s' h
  | ticker => exact stepTicker_trans _ s s' h
  | requester i fr => exact stepRequester_trans _ s s' i fr h
  | parser i => exact stepParser_trans _ s s' i h
  | filter i => exact stepFilter_trans lib startUrl _ s s' i h

/-- An invariant that holds initially and is kept by every step holds in every
reachable state. -/
theorem reachable_induction {σ U : Type} (lib : NetUrl U) (startUrl : U)
    (config : OrchestratorConfig) (callbacks : List (Response → σ → σ)) (w : σ)
    (P : System σ → Prop) (h0 : P (System.initial config callbacks w))
    (hstep : ∀ s s', P s → Trans (lib.UrlString startUrl) s s' → P s')
    (s : System σ) (hs : Reachable lib startUrl config callbacks w s) : P s := by
  obtain ⟨as, hrun⟩ := hs
  have key : ∀ (as : List Action) (s0 s1 : System σ), P s0 → run lib startUrl as s0 = some s1 →
      P s1 := by
    intro as
    induction as with
    | nil =>
      intro s0 s1 hp hr
      simp [run] at hr
      subst hr
      exact hp
    | cons a as ih =>
      intro s0 s1 hp hr
      simp only [run] at hr
      split at hr
      · cases hr
      · rename_i s2 hst
        exact ih s2 s1 (hstep s0 s2 hp (step_trans lib startUrl a s0 s2 hst)) hr
  exact key as _ s h0 hrun

theorem atLock_postLock_le (l : List ReqPC) :
    (l.map ReqPC.atLock).sum + (l.map ReqPC.postLock).sum ≤ l.length := by
  induction l with
  | nil => simp
  | cons pc l ih =>
    cases pc <;> simp [ReqPC.atLock, ReqPC.postLock] <;> omega

theorem postLock_le_uncounted (l : List ReqPC) :
    (l.map ReqPC.postLock).sum ≤ (l.map ReqPC.uncounted).sum := by
  induction l with
  | nil => simp
  | cons pc l ih =>
    cases pc <;> simp [ReqPC.uncounted, ReqPC.postLock] <;> omega

theorem foldl_OnVisited_config {σ : Type} (callbacks : List (Response → σ → σ))
    (o : Orchestrator σ) :
    (callbacks.foldl Orchestrator.OnVisited o).Config = o.Config
    ∧ (callbacks.foldl Orchestrator.OnVisited o).Store = o.Store
    ∧ (callbacks.foldl Orchestrator.OnVisited o).Queue = o.Queue
    ∧ (callbacks.foldl Orchestrator.OnVisited o).processedOps = o.processedOps
    ∧ (callbacks.foldl Orchestrator.OnVisited o).sendingOps = o.sendingOps := by
  induction callbacks generalizing o with
  | nil => simp
  | cons c cs ih =>
    simp only [List.foldl_cons]
    obtain ⟨h1, h2, h3, h4, h5⟩ := ih (o.OnVisited c)
    exact ⟨h1, h2, h3, h4, h5⟩

theorem countInv_initial {σ : Type} (config : OrchestratorConfig)
    (callbacks : List (Response → σ → σ)) (w : σ) :
    CountInv config (System.initial config callbacks w) := by
  obtain ⟨h1, _, _, h4, h5⟩ :=
    foldl_OnVisited_config callbacks ((Orchestrator.zero σ).Init config)
  unfold CountInv System.inFlight
  simp only [System.initial, h1, h4, h5]
  simp [Orchestrator.Init, Orchestrator.zero, TickerPC.uncounted]

theorem countInv_step {σ : Type} (config : OrchestratorConfig) (key : String) (s s' : System σ)
    (hinv : CountInv config s) (ht : Trans key s s') : CountInv config s' := by
  obtain ⟨hc, hw, hI, hS, hP, hF, hB⟩ := hinv
  unfold System.inFlight at hI hP hF
  have hAB := atLock_postLock_le s.requesters
  have hBU := postLock_le_uncounted s.requesters
  unfold CountInv System.inFlight
  cases ht with
  | crawlPush h1 h2 => exact ⟨hc, hw, hI, hS, hP, hF, hB⟩
  | tickerMove pc h1 h2 =>
    simp only [h2]
    rw [h1] at hI hP hF
    exact ⟨hc, hw, hI, hS, hP, hF, hB⟩
  | tickerPop link rest h1 h2 =>
    rw [h1] at hI hP hF
    simp only [TickerPC.uncounted, List.length_append, List.length_singleton]
    refine ⟨hc, hw, by omega, ?_, ?_, by omega, ?_⟩
    · rw [hS]; unfold add1; omega
    · rw [hP]; congr 1; omega
    · intro hd; exact hB (by omega)
  | deliver request h1 h2 =>
    rw [h1] at hI hP hF
    simp only [TickerPC.uncounted, ReqPC.uncounted, ReqPC.postLock, ReqPC.atLock,
      List.map_append, List.sum_append, List.map_cons, List.map_nil, List.sum_cons,
      List.sum_nil, List.length_append, List.length_singleton] at hI hP hF ⊢
    refine ⟨hc, by omega, by omega, hS, ?_, by omega, ?_⟩
    · rw [hP]; congr 1; omega
    · intro hd; have := hB hd; omega
  | reqSoftStop l1 l2 request h1 =>
    rw [h1] at hw hI hP hF hB hAB hBU
    simp only [ReqPC.uncounted, ReqPC.postLock, ReqPC.atLock,
      List.map_append, List.sum_append, List.map_cons, List.sum_cons,
      List.length_append, List.length_cons, List.length_nil] at hw hI hP hF hB hAB hBU ⊢
    refine ⟨hc, by omega, by omega, hS, ?_, by omega, ?_⟩
    · rw [hP]
    · intro hd; have := hB hd; omega
  | reqPass l1 l2 request h1 h2 =>
    rw [h1] at hw hI hP hF hB hAB hBU
    simp only [ReqPC.uncounted, ReqPC.postLock, ReqPC.atLock,
      List.map_append, List.sum_append, List.map_cons, List.sum_cons,
      List.length_append, List.length_cons, List.length_nil] at hw hI hP hF hB hAB hBU ⊢
    refine ⟨hc, by omega, by omega, hS, ?_, by omega, ?_⟩
    · rw [hP]
    · intro hd
      have hb := hB hd
      have hA1 := atLock_postLock_le l1
      have hA2 := atLock_postLock_le l2
      have hlt : s.dispatched.length - (s.ticker.uncounted + ((l1.map ReqPC.uncounted).sum
          + (1 + (l2.map ReqPC.uncounted).sum))) < 2 ^ 64 := by omega
      rw [hP, hc, Nat.mod_eq_of_lt hlt] at h2
      omega
  | reqSkip l1 l2 request h1 =>
    rw [h1] at hw hI hP hF hB hAB hBU
    simp only [ReqPC.uncounted, ReqPC.postLock, ReqPC.atLock,
      List.map_append, List.sum_append, List.map_cons, List.sum_cons,
      List.length_append, List.length_cons, List.length_nil] at hw hI hP hF hB hAB hBU ⊢
    refine ⟨hc, by omega, by omega, hS, ?_, by omega, ?_⟩
    · rw [hP]
    · intro hd; have := hB hd; omega
  | reqFail l1 l2 request h1 =>
    rw [h1] at hw hI hP hF hB hAB hBU
    simp only [ReqPC.uncounted, ReqPC.postLock, ReqPC.atLock,
      List.map_append, List.sum_append, List.map_cons, List.sum_cons,
      List.length_append, List.length_cons, List.length_nil] at hw hI hP hF hB hAB hBU ⊢
    refine ⟨hc, by omega, by omega, hS, ?_, by omega, ?_⟩
    · rw [hP]
    · intro hd; have := hB hd; omega
  | reqOk l1 l2 request resp h1 =>
    rw [h1] at hw hI hP hF hB hAB hBU
    simp only [ReqPC.uncounted, ReqPC.postLock, ReqPC.atLock,
      List.map_append, List.sum_append, List.map_cons, List.sum_cons,
      List.length_append, List.length_cons, List.length_nil] at hw hI hP hF hB hAB hBU ⊢
    refine ⟨hc, by omega, by omega, hS, ?_, by omega, ?_⟩
    · rw [hP]
    · intro hd; have := hB hd; omega
  | reqCount l1 l2 h1 =>
    rw [h1] at hw hI hP hF hB hAB hBU
    simp only [ReqPC.uncounted, ReqPC.postLock, ReqPC.atLock,
      List.map_append, List.sum_append, List.map_cons, List.sum_cons,
      List.length_append, List.length_cons, List.length_nil] at hw hI hP hF hB hAB hBU ⊢
    refine ⟨hc, by omega, by omega, hS, ?_, by omega, ?_⟩
    · rw [hP]; unfold add1; omega
    · intro hd; have := hB hd; omega
  | reqNotify l1 l2 resp h1 =>
    rw [h1] at hw hI hP hF hB hAB hBU
    simp only [ReqPC.uncounted, ReqPC.postLock, ReqPC.atLock,
      List.map_append, List.sum_append, List.map_cons, List.sum_cons,
      List.length_append, List.length_cons, List.length_nil] at hw hI hP hF hB hAB hBU ⊢
    refine ⟨hc, by omega, by omega, hS, ?_, by omega, ?_⟩
    · rw [hP]
    · intro hd; have := hB hd; omega
  | reqCountResp l1 l2 resp h1 =>
    rw [h1] at hw hI hP hF hB hAB hBU
    simp only [ReqPC.uncounted, ReqPC.postLock, ReqPC.atLock,
      List.map_append, List.sum_append, List.map_cons, List.sum_cons,
      List.length_append, List.length_cons, List.length_nil] at hw hI hP hF hB hAB hBU ⊢
    refine ⟨hc, by omega, by omega, hS, ?_, by omega, ?_⟩
    · rw [hP]; unfold add1; omega
    · intro hd; have := hB hd; omega
  | reqForward l1 l2 resp new h1 =>
    rw [h1] at hw hI hP hF hB hAB hBU
    simp only [ReqPC.uncounted, ReqPC.postLock, ReqPC.atLock,
      List.map_append, List.sum_append, List.map_cons, List.sum_cons,
      List.length_append, List.length_cons, List.length_nil] at hw hI hP hF hB hAB hBU ⊢
    refine ⟨hc, by omega, by omega, hS, ?_, by omega, ?_⟩
    · rw [hP]; congr 1; omega
    · intro hd; have := hB hd; omega
  | parserDone p1 p2 h1 => exact ⟨hc, hw, hI, hS, hP, hF, hB⟩
  | parserSend p1 p2 link rest h1 => exact ⟨hc, hw, hI, hS, hP, hF, hB⟩
  | filterDrop f1 f2 pc h1 => exact ⟨hc, hw, hI, hS, hP, hF, hB⟩
  | filterClaim f1 f2 link joined h1 h2 => exact ⟨hc, hw, hI, hS, hP, hF, hB⟩
  | filterKeep f1 f2 pc pc' h1 h2 => exact ⟨hc, hw, hI, hS, hP, hF, hB⟩
  | filterPush f1 f2 joined h1 h2 => exact ⟨hc, hw, hI, hS, hP, hF, hB⟩

theorem get_none_not_mem_keys (m : VisitedMap) (k : String) (h : m.get k = none) :
    k ∉ m.keys := by
  induction m with
  | nil => simp [VisitedMap.keys]
  | cons p m ih =>
    obtain ⟨k', v⟩ := p
    unfold VisitedMap.get at h
    by_cases hk : k = k'
    · simp [hk] at h
    · simp only [hk, if_false] at h
      have := ih h
      simp only [VisitedMap.keys, List.map_cons, List.mem_cons, not_or] at this ⊢
      exact ⟨hk, this⟩

theorem keys_set (m : VisitedMap) (k : String) (v : VType) : (m.set k v).keys = k :: m.keys := by
  simp [VisitedMap.set, VisitedMap.keys]

theorem uncounted_zero_url {pc : TickerPC} (h : pc.uncounted = 0) : pc.url = none := by
  cases pc <;> simp [TickerPC.uncounted, TickerPC.url] at h ⊢

theorem dedupInv_initial {σ : Type} (key : String) (config : OrchestratorConfig)
    (callbacks : List (Response → σ → σ)) (w : σ) :
    DedupInv key (System.initial config callbacks w) := by
  obtain ⟨_, h2, h3, _, _⟩ :=
    foldl_OnVisited_config callbacks ((Orchestrator.zero σ).Init config)
  unfold DedupInv System.claimed
  simp only [System.initial, h2, h3]
  simp [Orchestrator.Init, TickerPC.url]

theorem keys_nil_of_nil {m : VisitedMap} (h : m = []) : m.keys = [] := by
  subst h; rfl

theorem dedupInv_step {σ : Type} (key : String) (s s' : System σ)
    (hinv : DedupInv key s) (ht : Trans key s s') : DedupInv key s' := by
  obtain ⟨h1, h2, h3, h4, h5, h6, h7, h8⟩ := hinv
  unfold System.claimed at h1 h2
  unfold DedupInv System.claimed
  cases ht with
  | crawlPush hc hroom =>
    obtain ⟨hp, hv⟩ := h5 hc
    obtain ⟨_, hf, _⟩ := h4 hv
    refine ⟨?_, h2, ?_, h4, ?_, ?_, h7, h8⟩
    · simp [hf, hp]
    · intro u hu
      simp only [hp, List.nil_append, List.mem_singleton] at hu
      exact Or.inr ⟨hv, hu⟩
    · intro hfalse; cases hfalse
    · simp [h6]
  | tickerMove pc hu1 hu2 =>
    refine ⟨h1, h2, h3, h4, h5, h6, ?_, h8⟩
    intro u hu
    rw [uncounted_zero_url hu2] at hu
    cases hu
  | tickerPop link rest hu1 hq =>
    refine ⟨h1, h2, h3, h4, h5, ?_, ?_, ?_⟩
    · simp [h6, hq]
    · intro u hu
      simp only [TickerPC.url, Option.some.injEq] at hu
      subst hu
      simp
    · intro pc hpc u hu
      have := h8 pc hpc u hu
      simp only [List.map_append, List.mem_append]
      exact Or.inl this
  | deliver request hsend hlen =>
    refine ⟨h1, h2, h3, ?_, h5, h6, ?_, ?_⟩
    · intro hv
      obtain ⟨a, b, c⟩ := h4 hv
      refine ⟨a, b, ?_⟩
      intro pc hpc
      simp only [List.mem_append, List.mem_singleton] at hpc
      rcases hpc with hpc | hpc
      · exact c pc hpc
      · subst hpc; rfl
    · intro u hu
      simp [TickerPC.url] at hu
    · intro pc hpc u hu
      simp only [List.mem_append, List.mem_singleton] at hpc
      rcases hpc with hpc | hpc
      · exact h8 pc hpc u hu
      · subst hpc
        simp only [ReqPC.url, Option.some.injEq] at hu
        exact h7 u (by rw [hsend]; simp [TickerPC.url, hu])
  | reqSoftStop l1 l2 request hr =>
    rw [hr] at h4 h8
    refine ⟨h1, h2, h3, ?_, h5, h6, h7, ?_⟩
    · intro hv
      obtain ⟨a, b, c⟩ := h4 hv
      refine ⟨a, b, ?_⟩
      intro pc hpc
      simp only [List.mem_append, List.mem_cons] at hpc c
      rcases hpc with hpc | hpc | hpc
      · exact c pc (Or.inl hpc)
      · subst hpc; rfl
      · exact c pc (Or.inr (Or.inr hpc))
    · intro pc hpc u hu
      simp only [List.mem_append, List.mem_cons] at hpc h8
      rcases hpc with hpc | hpc | hpc
      · exact h8 pc (Or.inl hpc) u hu
      · subst hpc; simp [ReqPC.url] at hu
      · exact h8 pc (Or.inr (Or.inr hpc)) u hu
  | reqPass l1 l2 request hr hb =>
    rw [hr] at h4 h8
    refine ⟨h1, h2, h3, ?_, h5, h6, h7, ?_⟩
    · intro hv
      obtain ⟨a, b, c⟩ := h4 hv
      refine ⟨a, b, ?_⟩
      intro pc hpc
      simp only [List.mem_append, List.mem_cons] at hpc c
      rcases hpc with hpc | hpc | hpc
      · exact c pc (Or.inl hpc)
      · subst hpc; rfl
      · exact c pc (Or.inr (Or.inr hpc))
    · intro pc hpc u hu
      simp only [List.mem_append, List.mem_cons] at hpc h8
      rcases hpc with hpc | hpc | hpc
      · exact h8 pc (Or.inl hpc) u hu
      · subst hpc
        exact h8 (.recv request) (Or.inr (Or.inl rfl)) u (by simpa [ReqPC.url] using hu)
      · exact h8 pc (Or.inr (Or.inr hpc)) u hu
  | reqSkip l1 l2 request hr =>
    rw [hr] at h4 h8
    refine ⟨h1, h2, h3, ?_, h5, h6, h7, ?_⟩
    · intro hv
      obtain ⟨a, b, c⟩ := h4 hv
      refine ⟨a, b, ?_⟩
      intro pc hpc
      simp only [List.mem_append, List.mem_cons] at hpc c
      rcases hpc with hpc | hpc | hpc
      · exact c pc (Or.inl hpc)
      · subst hpc; rfl
      · exact c pc (Or.inr (Or.inr hpc))
    · intro pc hpc u hu
      simp only [List.mem_append, List.mem_cons] at hpc h8
      rcases hpc with hpc | hpc | hpc
      · exact h8 pc (Or.inl hpc) u hu
      · subst hpc; simp [ReqPC.url] at hu
      · exact h8 pc (Or.inr (Or.inr hpc)) u hu
  | reqFail l1 l2 request hr =>
    rw [hr] at h4 h8
    refine ⟨h1, h2, h3, ?_, h5, h6, h7, ?_⟩
    · intro hv
      obtain ⟨a, b, c⟩ := h4 hv
      refine ⟨a, b, ?_⟩
      intro pc hpc
      simp only [List.mem_append, List.mem_cons] at hpc c
      rcases hpc with hpc | hpc | hpc
      · exact c pc (Or.inl hpc)
      · subst hpc; rfl
      · exact c pc (Or.inr (Or.inr hpc))
    · intro pc hpc u hu
      simp only [List.mem_append, List.mem_cons] at hpc h8
      rcases hpc with hpc | hpc | hpc
      · exact h8 pc (Or.inl hpc) u hu
      · subst hpc; simp [ReqPC.url] at hu
      · exact h8 pc (Or.inr (Or.inr hpc)) u hu
  | reqOk l1 l2 request resp hr =>
    rw [hr] at h4 h8
    have hdisp : request.Url ∈ s.dispatched.map Request.Url :=
      h8 (.lock request) (by simp) request.Url rfl
    have hpushed : request.Url ∈ s.pushed := by
      rw [h6]; exact List.mem_append_left _ hdisp
    refine ⟨h1, ?_, ?_, ?_, ?_, h6, h7, ?_⟩
    · intro j hj
      simp only [keys_set, List.mem_cons]
      exact Or.inr (h2 j hj)
    · intro u hu
      simp only [keys_set, List.mem_cons]
      rcases h3 u hu with hk | ⟨hv, hk⟩
      · exact Or.inl (Or.inr hk)
      · rcases h3 request.Url hpushed with hk2 | ⟨_, hk2⟩
        · rw [keys_nil_of_nil hv] at hk2
          cases hk2
        · exact Or.inl (Or.inl (by rw [hk, hk2]))
    · intro hv
      simp [VisitedMap.set] at hv
    · intro hc
      obtain ⟨hp, _⟩ := h5 hc
      rw [hp] at hpushed
      cases hpushed
    · intro pc hpc u hu
      simp only [List.mem_append, List.mem_cons] at hpc h8
      rcases hpc with hpc | hpc | hpc
      · exact h8 pc (Or.inl hpc) u hu
      · subst hpc; simp [ReqPC.url] at hu
      · exact h8 pc (Or.inr (Or.inr hpc)) u hu
  | reqCount l1 l2 hr =>
    rw [hr] at h4 h8
    refine ⟨h1, h2, h3, ?_, h5, h6, h7, ?_⟩
    · intro hv
      obtain ⟨a, b, c⟩ := h4 hv
      refine ⟨a, b, ?_⟩
      intro pc hpc
      simp only [List.mem_append, List.mem_cons] at hpc c
      rcases hpc with hpc | hpc
      · exact c pc (Or.inl hpc)
      · exact c pc (Or.inr (Or.inr hpc))
    · intro pc hpc u hu
      simp only [List.mem_append, List.mem_cons] at hpc h8
      rcases hpc with hpc | hpc
      · exact h8 pc (Or.inl hpc) u hu
      · exact h8 pc (Or.inr (Or.inr hpc)) u hu
  | reqNotify l1 l2 resp hr =>
    rw [hr] at h4 h8
    refine ⟨h1, h2, h3, ?_, h5, h6, h7, ?_⟩
    · intro hv
      obtain ⟨_, _, c⟩ := h4 hv
      have := c (.notify resp) (by simp)
      simp [ReqPC.holdsResp] at this
    · intro pc hpc u hu
      simp only [List.mem_append, List.mem_cons] at hpc h8
      rcases hpc with hpc | hpc | hpc
      · exact h8 pc (Or.inl hpc) u hu
      · subst hpc; simp [ReqPC.url] at hu
      · exact h8 pc (Or.inr (Or.inr hpc)) u hu
  | reqCountResp l1 l2 resp hr =>
    rw [hr] at h4 h8
    refine ⟨h1, h2, h3, ?_, h5, h6, h7, ?_⟩
    · intro hv
      obtain ⟨_, _, c⟩ := h4 hv
      have := c (.countResp resp) (by simp)
      simp [ReqPC.holdsResp] at this
    · intro pc hpc u hu
      simp only [List.mem_append, List.mem_cons] at hpc h8
      rcases hpc with hpc | hpc | hpc
      · exact h8 pc (Or.inl hpc) u hu
      · subst hpc; simp [ReqPC.url] at hu
      · exact h8 pc (Or.inr (Or.inr hpc)) u hu
  | reqForward l1 l2 resp new hr =>
    rw [hr] at h4 h8
    refine ⟨h1, h2, h3, ?_, h5, h6, h7, ?_⟩
    · intro hv
      obtain ⟨_, _, c⟩ := h4 hv
      have := c (.forward resp) (by simp)
      simp [ReqPC.holdsResp] at this
    · intro pc hpc u hu
      simp only [List.mem_append, List.mem_cons] at hpc h8
      rcases hpc with hpc | hpc
      · exact h8 pc (Or.inl hpc) u hu
      · exact h8 pc (Or.inr (Or.inr hpc)) u hu
  | parserDone p1 p2 hp =>
    refine ⟨h1, h2, h3, ?_, h5, h6, h7, h8⟩
    intro hv
    obtain ⟨a, _, _⟩ := h4 hv
    rw [hp] at a
    simp at a
  | parserSend p1 p2 link rest hp =>
    refine ⟨?_, ?_, h3, ?_, h5, h6, h7, h8⟩
    · simpa [List.filterMap_append, FilterPC.claim] using h1
    · simpa [List.filterMap_append, FilterPC.claim] using h2
    · intro hv
      obtain ⟨a, _, _⟩ := h4 hv
      rw [hp] at a
      simp at a
  | filterDrop f1 f2 pc hf =>
    rw [hf] at h1 h2 h4
    refine ⟨?_, ?_, h3, ?_, h5, h6, h7, h8⟩
    · refine List.Nodup.sublist ?_ h1
      refine List.Sublist.append_right ?_ _
      rw [List.filterMap_append, List.filterMap_append]
      refine List.Sublist.append_left ?_ _
      rw [List.filterMap_cons]
      split
      · exact List.Sublist.refl _
      · exact List.sublist_cons_self _ _
    · intro j hj
      apply h2
      rw [List.filterMap_append, List.mem_append] at hj ⊢
      rcases hj with hj | hj
      · exact Or.inl hj
      · right
        rw [List.filterMap_cons]
        split
        · exact hj
        · exact List.mem_cons_of_mem _ hj
    · intro hv
      obtain ⟨_, b, _⟩ := h4 hv
      simp at b
  | filterClaim f1 f2 link joined hf hget =>
    rw [hf] at h1 h2 h4
    have hnk := get_none_not_mem_keys _ _ hget
    have hne : s.o.Store.Visited ≠ [] := by
      intro hv
      obtain ⟨_, b, _⟩ := h4 hv
      simp at b
    simp only [List.filterMap_append, List.filterMap_cons, FilterPC.claim] at h1 h2 ⊢
    have hnp : joined ∉ s.pushed := by
      intro hm
      rcases h3 joined hm with hk | ⟨hv, _⟩
      · exact hnk hk
      · exact hne hv
    have hnc : ∀ j, j ∈ List.filterMap FilterPC.claim f1 ∨ j ∈ List.filterMap FilterPC.claim f2 →
        j ≠ joined := by
      intro j hj hjj
      subst hjj
      exact hnk (h2 j (by simpa [List.mem_append] using hj))
    refine ⟨?_, ?_, ?_, ?_, fun hc => absurd (h5 hc).2 hne, h6, h7, h8⟩
    · simp only [List.nodup_append, List.nodup_cons, List.mem_append, List.mem_cons,
        List.Disjoint] at h1 ⊢
      obtain ⟨⟨a1, a2, a3⟩, b, c⟩ := h1
      refine ⟨⟨a1, ⟨?_, a2⟩, ?_⟩, b, ?_⟩
      · intro hm; exact hnc joined (Or.inr hm) rfl
      · intro x hx hx2
        rcases hx2 with hx2 | hx2
        · exact hnc x (Or.inl hx) hx2
        · exact a3 hx hx2
      · intro x hx hx2
        rcases hx with hx | hx | hx
        · exact c (Or.inl hx) hx2
        · subst hx; exact hnp hx2
        · exact c (Or.inr hx) hx2
    · intro j hj
      simp only [keys_set, List.mem_cons, List.mem_append] at hj ⊢
      rcases hj with hj | hj | hj
      · exact Or.inr (h2 j (by simp [hj]))
      · exact Or.inl hj
      · exact Or.inr (h2 j (by simp [hj]))
    · intro u hu
      simp only [keys_set, List.mem_cons]
      rcases h3 u hu with hk | ⟨hv, _⟩
      · exact Or.inl (Or.inr hk)
      · exact absurd hv hne
    · intro hv
      simp [VisitedMap.set] at hv
  | filterKeep f1 f2 pc pc' hf hclaim =>
    rw [hf] at h1 h2 h4
    refine ⟨?_, ?_, h3, ?_, h5, h6, h7, h8⟩
    · simpa [List.filterMap_append, List.filterMap_cons, hclaim] using h1
    · simpa [List.filterMap_append, List.filterMap_cons, hclaim] using h2
    · intro hv
      obtain ⟨_, b, _⟩ := h4 hv
      simp at b
  | filterPush f1 f2 joined hf hroom =>
    rw [hf] at h1 h2 h4
    have hne : s.o.Store.Visited ≠ [] := by
      intro hv
      obtain ⟨_, b, _⟩ := h4 hv
      simp at b
    simp only [List.filterMap_append, List.filterMap_cons, FilterPC.claim] at h1 h2 ⊢
    refine ⟨?_, ?_, ?_, ?_, ?_, ?_, h7, h8⟩
    · have hperm : (List.filterMap FilterPC.claim f1 ++ List.filterMap FilterPC.claim f2
          ++ (s.pushed ++ [joined])).Perm
          (List.filterMap FilterPC.claim f1 ++ joined :: List.filterMap FilterPC.claim f2
          ++ s.pushed) := by
        simp only [List.append_assoc]
        refine List.Perm.append_left _ ?_
        rw [← List.append_assoc]
        exact (List.perm_append_singleton _ _).trans (List.Perm.refl _)
      exact hperm.nodup_iff.2 h1
    · intro j hj
      apply h2
      simp only [List.mem_append, List.mem_cons] at hj ⊢
      rcases hj with hj | hj
      · exact Or.inl hj
      · exact Or.inr (Or.inr hj)
    · intro u hu
      simp only [List.mem_append, List.mem_singleton] at hu
      rcases hu with hu | hu
      · exact h3 u hu
      · subst hu
        exact Or.inl (h2 _ (by simp))
    · intro hv
      exact absurd hv hne
    · intro hc
      exact absurd (h5 hc).2 hne
    · simp [h6]

theorem fetchInv_initial {σ : Type} (config : OrchestratorConfig)
    (callbacks : List (Response → σ → σ)) (w : σ) :
    FetchInv (System.initial config callbacks w) := by
  intro u
  simp [System.initial, System.held, TickerPC.url]

theorem fetchInv_step {σ : Type} (key : String) (s s' : System σ)
    (hinv : FetchInv s) (ht : Trans key s s') : FetchInv s' := by
  unfold FetchInv System.held at hinv ⊢
  intro u
  have h := hinv u
  cases ht with
  | crawlPush hc hroom => exact h
  | tickerMove pc hu1 hu2 =>
    rw [uncounted_zero_url hu1] at h
    simp only [uncounted_zero_url hu2]
    exact h
  | tickerPop link rest hu1 hq =>
    rw [uncounted_zero_url hu1] at h
    simp only [TickerPC.url, Option.toList, List.count_append, List.map_append, List.map_cons,
      List.map_nil, List.count_cons, List.count_nil] at h ⊢
    omega
  | deliver request hsend hlen =>
    rw [hsend] at h
    simp only [TickerPC.url, Option.toList, List.count_append, List.filterMap_append,
      List.filterMap_cons, List.filterMap_nil, ReqPC.url, List.count_cons, List.count_nil] at h ⊢
    omega
  | reqSoftStop l1 l2 request hr =>
    rw [hr] at h
    simp only [List.count_append, List.filterMap_append,
      List.filterMap_cons, ReqPC.url, List.count_cons] at h ⊢
    omega
  | reqPass l1 l2 request hr hb =>
    rw [hr] at h
    simp only [List.count_append, List.filterMap_append,
      List.filterMap_cons, ReqPC.url, List.count_cons] at h ⊢
    omega
  | reqSkip l1 l2 request hr =>
    rw [hr] at h
    simp only [List.count_append, List.filterMap_append,
      List.filterMap_cons, ReqPC.url, List.count_cons] at h ⊢
    omega
  | reqFail l1 l2 request hr =>
    rw [hr] at h
    simp only [List.count_append, List.filterMap_append,
      List.filterMap_cons, ReqPC.url, List.count_cons, List.count_nil] at h ⊢
    omega
  | reqOk l1 l2 request resp hr =>
    rw [hr] at h
    simp only [List.count_append, List.filterMap_append,
      List.filterMap_cons, ReqPC.url, List.count_cons, List.count_nil] at h ⊢
    omega
  | reqCount l1 l2 hr =>
    rw [hr] at h
    simp only [List.count_append, List.filterMap_append,
      List.filterMap_cons, ReqPC.url] at h ⊢
    omega
  | reqNotify l1 l2 resp hr =>
    rw [hr] at h
    simp only [List.count_append, List.filterMap_append,
      List.filterMap_cons, ReqPC.url] at h ⊢
    omega
  | reqCountResp l1 l2 resp hr =>
    rw [hr] at h
    simp only [List.count_append, List.filterMap_append,
      List.filterMap_cons, ReqPC.url] at h ⊢
    omega
  | reqForward l1 l2 resp new hr =>
    rw [hr] at h
    simp only [List.count_append, List.filterMap_append,
      List.filterMap_cons, ReqPC.url] at h ⊢
    omega
  | parserDone p1 p2 hp => exact h
  | parserSend p1 p2 link rest hp => exact h
  | filterDrop f1 f2 pc hf => exact h
  | filterClaim f1 f2 link joined hf hget => exact h
  | filterKeep f1 f2 pc pc' hf hclaim => exact h
  | filterPush f1 f2 joined hf hroom => exact h

theorem exampleStart_eq : Crawl.startUrl goUrl "https://test.com" = some exampleStart := by
  decide

theorem reachable_of_run {σ U : Type} (lib : NetUrl U) (startUrl : U)
    (config : OrchestratorConfig) (callbacks : List (Response → σ → σ)) (w : σ)
    (as : List Action)
    (h : (run lib startUrl as (System.initial config callbacks w)).isSome = true) :
    Reachable lib startUrl config callbacks w
      ((run lib startUrl as (System.initial config callbacks w)).get h) :=
  ⟨as, (Option.some_get h).symm⟩

theorem exampleEnd_isSome : exampleEnd.isSome = true := by decide

theorem loopEnd_isSome : loopEnd.isSome = true := by decide

theorem exampleEnd_dispatched : (exampleEnd.get exampleEnd_isSome).dispatched.length = 3 := by
  decide

theorem exampleEnd_reachable :
    Reachable goUrl exampleStart exampleConfig [] () (exampleEnd.get exampleEnd_isSome) :=
  reachable_of_run goUrl exampleStart exampleConfig [] () exampleRun exampleEnd_isSome

theorem loopEnd_reachable :
    Reachable goUrl exampleStart { MaxRequests := 100, PolitenessDelay := 400, Timeout := 4000 }
      [] () (loopEnd.get loopEnd_isSome) :=
  reachable_of_run goUrl exampleStart _ [] () loopRun loopEnd_isSome

/-! ### C1: deduplication -/

theorem fetchInv_reachable {σ U : Type} (lib : NetUrl U) (startUrl : U)
    (config : OrchestratorConfig) (callbacks : List (Response → σ → σ)) (w : σ)
    (s : System σ) (hs : Reachable lib startUrl config callbacks w s) : FetchInv s :=
  reachable_induction lib startUrl config callbacks w FetchInv
    (fetchInv_initial config callbacks w)
    (fun s1 s2 h1 h2 => fetchInv_step _ s1 s2 h1 h2) s hs

/-- C1. In every state of every execution (any start URL, any responses of
the client, any interleaving of the goroutines) the keys sent on the queue so
far are pairwise distinct, the URLs of the requests dispatched so far are
pairwise distinct, the keys pushed are exactly the dispatched URLs followed by
the queue contents, and the URLs for which the client was called are pairwise
distinct. -/
theorem dedup_invariant {σ U : Type} (lib : NetUrl U) (startUrl : U)
    (config : OrchestratorConfig) (callbacks : List (Response → σ → σ)) (w : σ)
    (s : System σ) (hs : Reachable lib startUrl config callbacks w s) :
    s.pushed.Nodup
    ∧ (s.dispatched.map Request.Url).Nodup
    ∧ s.pushed = s.dispatched.map Request.Url ++ s.o.Queue.buf
    ∧ s.fetched.Nodup := by
  have hinv : DedupInv (lib.UrlString startUrl) s :=
    reachable_induction lib startUrl config callbacks w (DedupInv (lib.UrlString startUrl))
      (dedupInv_initial _ config callbacks w)
      (fun s1 s2 h1 h2 => dedupInv_step _ s1 s2 h1 h2) s hs
  have hF := fetchInv_reachable lib startUrl config callbacks w s hs
  obtain ⟨h1, _, _, _, _, h6, _, _⟩ := hinv
  have hp : s.pushed.Nodup := (List.nodup_append.1 h1).2.1
  have hd : (s.dispatched.map Request.Url).Nodup := by
    rw [h6] at hp
    exact (List.nodup_append.1 hp).1
  refine ⟨hp, hd, h6, ?_⟩
  rw [List.nodup_iff_count_le_one]
  intro u
  have h2 := hF u
  have h3 := List.nodup_iff_count_le_one.1 hd u
  rw [List.count_append] at h2
  omega

/-- Witness of C1: a start page that links to itself twice and to `/a` twice;
only the start key and the key of `/a` are ever pushed. -/
theorem dedup_invariant_witness :
    (loopEnd.map fun s => s.pushed) = some ["https://test.com/", "https://test.com/a/"]
    ∧ ∃ s, loopEnd = some s ∧ s.pushed.Nodup ∧ (s.dispatched.map Request.Url).Nodup :=
  ⟨by decide,
   loopEnd.get loopEnd_isSome, (Option.some_get loopEnd_isSome).symm,
   (dedup_invariant goUrl exampleStart
      { MaxRequests := 100, PolitenessDelay := 400, Timeout := 4000 } [] ()
      (loopEnd.get loopEnd_isSome) loopEnd_reachable).1,
   (dedup_invariant goUrl exampleStart
      { MaxRequests := 100, PolitenessDelay := 400, Timeout := 4000 } [] ()
      (loopEnd.get loopEnd_isSome) loopEnd_reachable).2.1⟩

/-! ### C2: the request budget -/

theorem countInv_reachable {σ U : Type} (lib : NetUrl U) (startUrl : U)
    (config : OrchestratorConfig) (callbacks : List (Response → σ → σ)) (w : σ)
    (s : System σ) (hs : Reachable lib startUrl config callbacks w s) : CountInv config s :=
  reachable_induction lib startUrl config callbacks w (CountInv config)
    (countInv_initial config callbacks w)
    (fun s1 s2 h1 h2 => countInv_step config _ s1 s2 h1 h2) s hs

/-- C2, the code at the failing input. With `MaxRequests = 2` the example
run calls the client three times. The tick that dispatches `/b/` fires while
the fetch of `/a/` is not yet counted, so the test of line 252 sees a completed
count of 1; and when the requester takes up `/b/` the completed count is 2,
which the test of line 97, `>`, lets through. -/
theorem request_budget_exceeded :
    1 ≤ exampleConfig.MaxRequests
    ∧ (exampleEnd.map fun s => s.fetched)
        = some ["https://test.com/", "https://test.com/a/", "https://test.com/b/"]
    ∧ (exampleEnd.map fun s => decide (s.fetched.length ≤ exampleConfig.MaxRequests))
        = some false
    ∧ ∃ s, Reachable goUrl exampleStart exampleConfig [] () s ∧ exampleEnd = some s :=
  ⟨by decide, by decide, by decide,
   exampleEnd.get exampleEnd_isSome, exampleEnd_reachable,
   (Option.some_get exampleEnd_isSome).symm⟩

/-- What the code does guarantee about the budget. In every state of every
execution in which the counters have not wrapped (fewer than `2 ^ 64` requests
dispatched), the number of calls of the client is at most
`MaxRequests + numWorkers`, that is `MaxRequests + 100`:
a requester calls the client only after it has read a completed count of at
most `MaxRequests`, and each of the 100 requesters can be past that test at
the same time. -/
theorem request_budget {σ U : Type} (lib : NetUrl U) (startUrl : U)
    (config : OrchestratorConfig) (callbacks : List (Response → σ → σ)) (w : σ)
    (s : System σ) (hs : Reachable lib startUrl config callbacks w s)
    (hd : s.dispatched.length < 2 ^ 64) :
    s.fetched.length ≤ config.MaxRequests + numWorkers := by
  obtain ⟨_, _, _, _, _, _, hB⟩ := countInv_reachable lib startUrl config callbacks w s hs
  have := hB hd
  omega

/-- The bound at the end of the example run. -/
theorem request_budget_witness :
    ∃ s, exampleEnd = some s ∧ s.dispatched.length < 2 ^ 64
      ∧ s.fetched.length ≤ exampleConfig.MaxRequests + numWorkers :=
  ⟨exampleEnd.get exampleEnd_isSome, (Option.some_get exampleEnd_isSome).symm,
   exampleEnd_dispatched ▸ (by decide : (3 : Nat) < 2 ^ 64),
   request_budget goUrl exampleStart exampleConfig [] () (exampleEnd.get exampleEnd_isSome)
     exampleEnd_reachable (exampleEnd_dispatched ▸ (by decide : (3 : Nat) < 2 ^ 64))⟩

/-! ### C6: the send on a full queue -/

theorem blockedEnd_isSome : blockedEnd.isSome = true := by decide

theorem blockedEnd_reachable :
    Reachable goUrl exampleStart blockedConfig [] () (blockedEnd.get blockedEnd_isSome) :=
  reachable_of_run goUrl exampleStart blockedConfig [] () blockedRun blockedEnd_isSome

theorem blockedEnd_stuck (a : Action) :
    step goUrl exampleStart a (blockedEnd.get blockedEnd_isSome) = none := by
  cases a with
  | filter i => cases i <;> rfl
  | _ => rfl

/-- C6, the code at the failing input. With `MaxRequests = 1` the queue has
capacity 1 and the mark is `1 - 1/8 = 1`: on a queue that holds one entry the
test of line 203 is true, so the goroutine goes on to the send of line 204 and
blocks on the full buffer. The third example run reaches that state in a crawl:
the goroutine is at the send with the key of `/b`, the queue holds its one
entry, and no goroutine of the crawl can take a step. -/
theorem push_blocks_on_full_queue :
    belowMark 1 1 = true
    ∧ ¬ ((1 : Nat) < 1)
    ∧ (∃ o', processWorkingLinks goUrl (exampleOrch 1 ["https://test.com/a/"]) exampleStart
        "/b" = .blocked o' "https://test.com/b/")
    ∧ ∃ s, blockedEnd = some s
        ∧ Reachable goUrl exampleStart blockedConfig [] () s
        ∧ s.filters = [.send "https://test.com/b/"]
        ∧ s.o.Queue.buf = ["https://test.com/a/"]
        ∧ s.o.Queue.cap = 1
        ∧ ∀ a, step goUrl exampleStart a s = none := by
  refine ⟨by decide, by decide, ?_, blockedEnd.get blockedEnd_isSome,
    (Option.some_get blockedEnd_isSome).symm, blockedEnd_reachable, by decide, by decide,
    by decide, blockedEnd_stuck⟩
  have hcan : canonical goUrl exampleStart "/b" = some "https://test.com/b/" := by
    decide
  unfold processWorkingLinks
  rw [hcan]
  exact ⟨_, rfl⟩

/-! ### C10: every request is counted once -/

theorem requester_counts {σ : Type} (o : Orchestrator σ) (w : σ) (request : Request)
    (fr : FetchResult) : (requester o w request fr).o.processedOps = add1 o.processedOps := by
  unfold requester
  split
  · rfl
  · split
    · rfl
    · split
      · rfl
      · rfl
      · dsimp only
        split <;> rfl

/-- C10. Whatever branch of the requester handles a request (soft stop,
already visited, request construction failed, transport error, HTML response,
other response), `processedOps` goes up by exactly one, as long as it is below
the top of the `uint64` range. And in every state of every execution in which
fewer than `2 ^ 64` requests were dispatched, `sendingOps` is the number of
requests dispatched, `processedOps` plus the number of dispatched requests not
yet counted by the Fetch Stage is `sendingOps`, so `processedOps` is at most
`sendingOps`, with equality exactly when no dispatched request is uncounted. -/
theorem every_request_counted_once {σ U : Type} (lib : NetUrl U) (startUrl : U)
    (config : OrchestratorConfig) (callbacks : List (Response → σ → σ)) (w : σ)
    (s : System σ) (hs : Reachable lib startUrl config callbacks w s)
    (hd : s.dispatched.length < 2 ^ 64) :
    (∀ (o : Orchestrator σ) (w' : σ) (request : Request) (fr : FetchResult),
        o.processedOps + 1 < 2 ^ 64 →
        (requester o w' request fr).o.processedOps = o.processedOps + 1)
    ∧ s.o.sendingOps = s.dispatched.length
    ∧ s.o.processedOps + s.inFlight = s.o.sendingOps
    ∧ s.o.processedOps ≤ s.o.sendingOps
    ∧ (s.o.sendingOps = s.o.processedOps ↔ s.inFlight = 0) := by
  obtain ⟨_, _, hI, hS, hP, _, _⟩ := countInv_reachable lib startUrl config callbacks w s hs
  rw [Nat.mod_eq_of_lt hd] at hS
  rw [Nat.mod_eq_of_lt (by omega)] at hP
  refine ⟨?_, hS, by omega, by omega, by omega⟩
  intro o w' request fr ho
  rw [requester_counts, add1_eq ho]

/-- Witness of C10: the end of the example run, where three requests were
dispatched, two are counted and one is still with its requester. -/
theorem every_request_counted_once_witness :
    (exampleEnd.map fun s => (s.o.sendingOps, s.o.processedOps, s.inFlight)) = some (3, 2, 1)
    ∧ ∃ s, exampleEnd = some s ∧ s.o.processedOps + s.inFlight = s.o.sendingOps :=
  ⟨by decide,
   exampleEnd.get exampleEnd_isSome, (Option.some_get exampleEnd_isSome).symm,
   (every_request_counted_once goUrl exampleStart exampleConfig [] ()
      (exampleEnd.get exampleEnd_isSome) exampleEnd_reachable
      (exampleEnd_dispatched ▸ (by decide : (3 : Nat) < 2 ^ 64))).2.2.1⟩

/-! ### C9: the canonical form -/

namespace url

theorem getLast?_cons_of_some {a x : Char} {l : List Char} (h : l.getLast? = some x) :
    (a :: l).getLast? = some x := by
  cases l with
  | nil => simp at h
  | cons b l => rw [List.getLast?_cons_cons]; exact h

theorem getLast?_tail_of_ne_nil {a x : Char} {l : List Char} (h : (a :: l).getLast? = some x)
    (hl : l ≠ []) : l.getLast? = some x := by
  cases l with
  | nil => exact absurd rfl hl
  | cons b l => rw [List.getLast?_cons_cons] at h; exact h

theorem check_cons (c : Char) (rest : List Char) :
    unescapeCheck .encodePath (c :: rest)
      = if c = '%' then
          (match rest with
            | h1 :: h2 :: r => ishex h1 && ishex h2 && unescapeCheck .encodePath r
            | _ => false)
        else unescapeCheck .encodePath rest := by
  have m1 : (encoding.encodePath == encoding.encodeHost) = false := by decide
  have m2 : (encoding.encodePath == encoding.encodeZone) = false := by decide
  cases rest with
  | nil =>
    simp only [unescapeCheck]
    by_cases hc : c = '%'
    · simp [hc]
    · by_cases hp : c = '+'
      · simp [hc, hp]
      · simp [hc, hp, m1, m2]
  | cons h1 t =>
    cases t with
    | nil =>
      simp only [unescapeCheck]
      by_cases hc : c = '%'
      · simp [hc]
      · by_cases hp : c = '+'
        · simp [hc, hp]
        · simp [hc, hp, m1, m2]
    | cons h2 r =>
      simp only [unescapeCheck]
      by_cases hc : c = '%'
      · by_cases e1 : ishex h1 = true <;> by_cases e2 : ishex h2 = true <;>
          simp [hc, e1, e2, m1, m2]
      · by_cases hp : c = '+'
        · simp [hc, hp]
        · simp [hc, hp, m1, m2]

theorem check_append {a b : List Char} (ha : unescapeCheck .encodePath a = true)
    (hb : unescapeCheck .encodePath b = true) : unescapeCheck .encodePath (a ++ b) = true := by
  have key : ∀ n (a : List Char), a.length ≤ n → unescapeCheck .encodePath a = true →
      unescapeCheck .encodePath (a ++ b) = true := by
    intro n
    induction n with
    | zero =>
      intro a hl _
      have : a = [] := List.length_eq_zero.1 (Nat.le_zero.1 hl)
      subst this
      simpa using hb
    | succ n ih =>
      intro a hl ha
      cases a with
      | nil => simpa using hb
      | cons c rest =>
        rw [check_cons] at ha
        rw [List.cons_append, check_cons]
        by_cases hc : c = '%'
        · simp only [hc, if_true] at ha ⊢
          cases rest with
          | nil => simp at ha
          | cons h1 t =>
            cases t with
            | nil => simp at ha
            | cons h2 r =>
              simp only [Bool.and_eq_true] at ha
              simp only [List.cons_append, Bool.and_eq_true]
              refine ⟨ha.1, ih r ?_ ha.2⟩
              simp only [List.length_cons] at hl
              omega
        · simp only [hc, if_false] at ha ⊢
          refine ih rest ?_ ha
          simp only [List.length_cons] at hl
          omega
  exact key a.length a (Nat.le_refl _) ha

theorem ishex_slash : ishex '/' = false := by decide

theorem check_split {a b : List Char} (h : unescapeCheck .encodePath (a ++ '/' :: b) = true) :
    unescapeCheck .encodePath a = true ∧ unescapeCheck .encodePath b = true := by
  have key : ∀ n (a : List Char), a.length ≤ n →
      unescapeCheck .encodePath (a ++ '/' :: b) = true →
      unescapeCheck .encodePath a = true ∧ unescapeCheck .encodePath b = true := by
    intro n
    induction n with
    | zero =>
      intro a hl h
      have : a = [] := List.length_eq_zero.1 (Nat.le_zero.1 hl)
      subst this
      rw [List.nil_append, check_cons] at h
      simp only [show ('/' : Char) ≠ '%' by decide, if_false] at h
      exact ⟨rfl, h⟩
    | succ n ih =>
      intro a hl h
      cases a with
      | nil =>
        rw [List.nil_append, check_cons] at h
        simp only [show ('/' : Char) ≠ '%' by decide, if_false] at h
        exact ⟨rfl, h⟩
      | cons c rest =>
        rw [List.cons_append, check_cons] at h
        rw [check_cons]
        by_cases hc : c = '%'
        · simp only [hc, if_true] at h ⊢
          cases rest with
          | nil =>
            cases b with
            | nil => simp at h
            | cons b1 b2 => simp [ishex_slash] at h
          | cons h1 t =>
            cases t with
            | nil => simp [ishex_slash] at h
            | cons h2 r =>
              simp only [List.cons_append, Bool.and_eq_true] at h
              simp only [Bool.and_eq_true]
              have := ih r (by simp only [List.length_cons] at hl; omega) h.2
              exact ⟨⟨h.1, this.1⟩, this.2⟩
        · simp only [hc, if_false] at h ⊢
          exact ih rest (by simp only [List.length_cons] at hl; omega) h
  exact key a.length a (Nat.le_refl _) h

theorem check_tail {c : Char} {l : List Char} (hc : c ≠ '%')
    (h : unescapeCheck .encodePath (c :: l) = true) : unescapeCheck .encodePath l = true := by
  rw [check_cons] at h
  simpa [hc] using h

theorem check_cons_of {c : Char} {l : List Char} (hc : c ≠ '%')
    (h : unescapeCheck .encodePath l = true) : unescapeCheck .encodePath (c :: l) = true := by
  rw [check_cons]
  simpa [hc] using h

theorem decode_cons (c : Char) (rest : List Char) :
    unescapeDecode .encodePath (c :: rest)
      = if c = '%' then
          (match rest with
            | h1 :: h2 :: r => Char.ofNat (unhex h1 * 16 + unhex h2) :: unescapeDecode .encodePath r
            | _ => [])
        else c :: unescapeDecode .encodePath rest := by
  have m1 : (encoding.encodePath == encoding.encodeQueryComponent) = false := by decide
  cases rest with
  | nil =>
    simp only [unescapeDecode]
    by_cases hc : c = '%'
    · simp [hc]
    · by_cases hp : c = '+'
      · simp [hp, m1]
      · simp [hc, hp]
  | cons h1 t =>
    cases t with
    | nil =>
      simp only [unescapeDecode]
      by_cases hc : c = '%'
      · simp [hc]
      · by_cases hp : c = '+'
        · simp [hp, m1]
        · simp [hc, hp]
    | cons h2 r =>
      simp only [unescapeDecode]
      by_cases hc : c = '%'
      · simp [hc]
      · by_cases hp : c = '+'
        · simp [hp, m1]
        · simp [hc, hp]

/-- Decoding a valid string that ends in `/` gives a string that ends in `/`. -/
theorem decode_getLast_slash (s : List Char) (hc : unescapeCheck .encodePath s = true)
    (h : s.getLast? = some '/') : (unescapeDecode .encodePath s).getLast? = some '/' := by
  have key : ∀ n (s : List Char), s.length ≤ n → unescapeCheck .encodePath s = true →
      s.getLast? = some '/' → (unescapeDecode .encodePath s).getLast? = some '/' := by
    intro n
    induction n with
    | zero =>
      intro s hl _ h
      have : s = [] := List.length_eq_zero.1 (Nat.le_zero.1 hl)
      subst this
      simp at h
    | succ n ih =>
      intro s hl hc h
      cases s with
      | nil => simp at h
      | cons c rest =>
        rw [check_cons] at hc
        rw [decode_cons]
        by_cases hp : c = '%'
        · simp only [hp, if_true] at hc ⊢
          cases rest with
          | nil => simp at hc
          | cons h1 t =>
            cases t with
            | nil => simp at hc
            | cons h2 r =>
              simp only [Bool.and_eq_true] at hc
              simp only
              cases r with
              | nil =>
                simp only [List.getLast?_cons_cons, List.getLast?_singleton,
                  Option.some.injEq] at h
                rw [h, ishex_slash] at hc
                simp at hc
              | cons r1 r2 =>
                simp only [List.getLast?_cons_cons] at h
                refine getLast?_cons_of_some (ih (r1 :: r2) ?_ hc.2 h)
                simp only [List.length_cons] at hl ⊢
                omega
        · simp only [hp, if_false] at hc ⊢
          cases rest with
          | nil =>
            simp only [List.getLast?_singleton, Option.some.injEq] at h
            subst h
            rfl
          | cons r1 r2 =>
            rw [List.getLast?_cons_cons] at h
            refine getLast?_cons_of_some (ih (r1 :: r2) ?_ hc h)
            simp only [List.length_cons] at hl ⊢
            omega
  exact key s.length s (Nat.le_refl _) hc h

theorem decode_ne_nil (s : List Char) (hc : unescapeCheck .encodePath s = true) (h : s ≠ []) :
    unescapeDecode .encodePath s ≠ [] := by
  cases s with
  | nil => exact absurd rfl h
  | cons c rest =>
    rw [check_cons] at hc
    rw [decode_cons]
    by_cases hp : c = '%'
    · simp only [hp, if_true] at hc ⊢
      cases rest with
      | nil => simp at hc
      | cons h1 t =>
        cases t with
        | nil => simp at hc
        | cons h2 r => simp
    · simp [hp]

theorem escape_cons_path (c : Char) (rest : List Char) :
    escape (c :: rest) .encodePath
      = if shouldEscape c .encodePath then
          '%' :: upperhex (c.toNat / 16 % 16) :: upperhex (c.toNat % 16) :: escape rest .encodePath
        else c :: escape rest .encodePath := by
  have m1 : (encoding.encodePath == encoding.encodeQueryComponent) = false := by decide
  rw [escape]
  simp [m1]

theorem escape_append_path (a b : List Char) :
    escape (a ++ b) .encodePath = escape a .encodePath ++ escape b .encodePath := by
  induction a with
  | nil => simp [escape]
  | cons c rest ih =>
    rw [List.cons_append, escape_cons_path, escape_cons_path, ih]
    split <;> simp

theorem escape_getLast_slash (s : List Char) (h : s.getLast? = some '/') :
    (escape s .encodePath).getLast? = some '/' := by
  obtain ⟨ys, rfl⟩ := List.getLast?_eq_some_iff.1 h
  rw [escape_append_path]
  have : escape ['/'] .encodePath = ['/'] := by decide
  rw [this]
  simp

theorem ishex_upperhex (n : Nat) (h : n < 16) : ishex (upperhex n) = true := by
  interval_cases n <;> decide

theorem check_escape (s : List Char) : unescapeCheck .encodePath (escape s .encodePath) = true := by
  induction s with
  | nil => simp [escape, unescapeCheck]
  | cons c rest ih =>
    rw [escape_cons_path]
    split
    · rw [check_cons]
      simp only [if_true, Bool.and_eq_true]
      exact ⟨⟨ishex_upperhex _ (Nat.mod_lt _ (by decide)), ishex_upperhex _ (Nat.mod_lt _ (by decide))⟩,
        ih⟩
    · rename_i hs
      have hc : c ≠ '%' := by
        intro hc
        subst hc
        exact hs (by decide)
      exact check_cons_of hc ih

theorem unescape_eq_some {p q : List Char} (h : unescape p .encodePath = some q) :
    unescapeCheck .encodePath p = true ∧ q = unescapeDecode .encodePath p := by
  unfold unescape at h
  split at h
  · rename_i hc
    simp only [Option.some.injEq] at h
    exact ⟨hc, h.symm⟩
  · cases h

theorem check_EscapedPath (u : URL) : unescapeCheck .encodePath u.EscapedPath = true := by
  unfold URL.EscapedPath
  split
  · rename_i h
    simp only [Bool.and_eq_true, beq_iff_eq] at h
    exact (unescape_eq_some h.2).1
  · split
    · decide
    · exact check_escape _

theorem EscapedPath_cases (w : URL) :
    (w.EscapedPath = w.RawPath ∧ w.RawPath ≠ [])
    ∨ (w.EscapedPath = ['*'] ∧ w.Path = ['*'])
    ∨ w.EscapedPath = escape w.Path .encodePath := by
  unfold URL.EscapedPath
  split
  · rename_i h
    simp only [Bool.and_eq_true, decide_eq_true_eq] at h
    exact Or.inl ⟨rfl, h.1.1⟩
  · split
    · rename_i h
      exact Or.inr (Or.inl ⟨rfl, h⟩)
    · exact Or.inr (Or.inr rfl)

/-- After `setPath(p)` with a `p` that ends in `/`, `EscapedPath()` ends in `/`. -/
theorem setPath_EscapedPath_slash {u v : URL} {p : List Char} (h : u.setPath p = some v)
    (hp : p.getLast? = some '/') : v.EscapedPath.getLast? = some '/' := by
  unfold URL.setPath at h
  split at h
  · cases h
  · rename_i path hun
    obtain ⟨hc, hq⟩ := unescape_eq_some hun
    have hpath : path.getLast? = some '/' := by
      rw [hq]; exact decode_getLast_slash p hc hp
    simp only [Option.some.injEq] at h
    have hP : v.Path = path := by rw [← h]
    have hR : v.RawPath = [] ∨ v.RawPath = p := by
      rw [← h]
      by_cases heq : p = escape path .encodePath
      · exact Or.inl (if_pos heq)
      · exact Or.inr (if_neg heq)
    rcases EscapedPath_cases v with ⟨he, hne⟩ | ⟨_, hstar⟩ | he
    · rcases hR with hR | hR
      · exact absurd hR hne
      · rw [he, hR]; exact hp
    · rw [hP] at hstar
      rw [hstar] at hpath
      simp at hpath
    · rw [he, hP]
      exact escape_getLast_slash _ hpath

theorem setPath_fields {u v : URL} {p : List Char} (h : u.setPath p = some v) :
    v.Scheme = u.Scheme ∧ v.Opaque = u.Opaque ∧ v.User = u.User ∧ v.Host = u.Host
    ∧ v.OmitHost = u.OmitHost ∧ v.ForceQuery = u.ForceQuery ∧ v.RawQuery = u.RawQuery
    ∧ v.Fragment = u.Fragment ∧ v.RawFragment = u.RawFragment
    ∧ unescapeCheck .encodePath p = true ∧ v.Path = unescapeDecode .encodePath p := by
  unfold URL.setPath at h
  split at h
  · cases h
  · rename_i path hun
    obtain ⟨hc, hq⟩ := unescape_eq_some hun
    simp only [Option.some.injEq] at h
    subst h
    exact ⟨rfl, rfl, rfl, rfl, rfl, rfl, rfl, rfl, rfl, hc, hq⟩

theorem setPath_isSome (u : URL) {p : List Char} (h : unescapeCheck .encodePath p = true) :
    ∃ v, u.setPath p = some v := by
  unfold URL.setPath unescape
  simp [h]

/-- A URL without opaque part, query and fragment whose escaped path ends in
`/` prints as a string that ends in `/`. -/
theorem UrlString_getLast_slash (u : URL) (hop : u.Opaque = []) (hq : u.RawQuery = [])
    (hfq : u.ForceQuery = false) (hfrag : u.Fragment = [])
    (hpath : u.EscapedPath.getLast? = some '/') : u.UrlString.getLast? = some '/' := by
  unfold URL.UrlString
  simp [hop, hq, hfq, hfrag, List.getLast?_append, hpath]

theorem dropWhile_slash (l : List Char) :
    l.dropWhile (· != '/') = [] ∨ ∃ ds, l.dropWhile (· != '/') = '/' :: ds := by
  induction l with
  | nil => exact Or.inl rfl
  | cons a l ih =>
    by_cases ha : a = '/'
    · subst ha
      exact Or.inr ⟨l, by simp [List.dropWhile]⟩
    · have : (a != '/') = true := by simpa using ha
      simp only [List.dropWhile_cons, this, if_true]
      exact ih

theorem check_takeWhile_dropWhile (l : List Char) (h : unescapeCheck .encodePath l = true) :
    unescapeCheck .encodePath (l.takeWhile (· != '/')) = true
    ∧ unescapeCheck .encodePath (l.dropWhile (· != '/')) = true := by
  have hsplit := List.takeWhile_append_dropWhile (· != '/') l
  rcases dropWhile_slash l with hd | ⟨ds, hd⟩
  · rw [hd] at hsplit ⊢
    rw [List.append_nil] at hsplit
    rw [hsplit]
    exact ⟨h, rfl⟩
  · rw [hd] at hsplit ⊢
    rw [← hsplit] at h
    obtain ⟨h1, h2⟩ := check_split h
    exact ⟨h1, check_cons_of (by decide) h2⟩

theorem backtrackIdx_spec (out : List Char) (w : Nat) (hw : 1 ≤ w) :
    1 ≤ backtrackIdx out 1 w ∧ backtrackIdx out 1 w ≤ w
    ∧ (backtrackIdx out 1 w = 1 ∨ out.getD (backtrackIdx out 1 w) ' ' = '/') := by
  induction w with
  | zero => omega
  | succ w ih =>
    rw [backtrackIdx]
    split
    · rename_i hcond
      simp only [Bool.and_eq_true, decide_eq_true_eq] at hcond
      obtain ⟨a, b, c⟩ := ih (by omega)
      exact ⟨a, by omega, c⟩
    · rename_i hcond
      refine ⟨by omega, Nat.le_refl _, ?_⟩
      simp only [Bool.and_eq_true, decide_eq_true_eq, not_and, bne_iff_ne, ne_eq,
        Decidable.not_not] at hcond
      by_cases h1 : w + 1 > 1
      · exact Or.inr (hcond h1)
      · exact Or.inl (by omega)

theorem check_take (out : List Char) (k : Nat) (hh : out.head? = some '/')
    (hc : unescapeCheck .encodePath out = true) (hk1 : 1 ≤ k) (hk2 : k < out.length)
    (hk : k = 1 ∨ out.getD k ' ' = '/') :
    unescapeCheck .encodePath (out.take k) = true ∧ (out.take k).head? = some '/' := by
  cases out with
  | nil => simp at hh
  | cons a o =>
    simp only [List.head?_cons, Option.some.injEq] at hh
    subst hh
    obtain ⟨k', rfl⟩ : ∃ k', k = k' + 1 := ⟨k - 1, by omega⟩
    refine ⟨?_, by simp⟩
    rcases hk with hk | hk
    · have : k' = 0 := by omega
      subst this
      simp only [Nat.zero_add, List.take_succ_cons, List.take_zero]
      exact check_cons_of (by decide) rfl
    · have hsplit : ('/' :: o) = ('/' :: o).take (k' + 1) ++ '/' :: ('/' :: o).drop (k' + 2) := by
        have h1 := (List.take_append_drop (k' + 1) ('/' :: o)).symm
        have h2 : ('/' :: o).drop (k' + 1) = '/' :: ('/' :: o).drop (k' + 2) := by
          rw [List.drop_eq_getElem_cons hk2]
          congr 1
          rw [List.getD_eq_getElem _ _ hk2] at hk
          exact hk
        rw [h2] at h1
        exact h1
      rw [hsplit] at hc
      exact (check_split hc).1

/-- The loop of `path.Clean` on a rooted path keeps the output rooted and
free of broken `%` escapes. -/
theorem cleanLoop_check (fuel : Nat) : ∀ (rest out : List Char), out.head? = some '/' →
    unescapeCheck .encodePath out = true → unescapeCheck .encodePath rest = true →
    unescapeCheck .encodePath (cleanLoop true fuel rest out 1) = true
    ∧ (cleanLoop true fuel rest out 1).head? = some '/' := by
  induction fuel with
  | zero =>
    intro rest out hh hc _
    rw [cleanLoop]
    exact ⟨hc, hh⟩
  | succ fuel ih =>
    intro rest out hh hc hr
    cases rest with
    | nil =>
      rw [cleanLoop]
      exact ⟨hc, hh⟩
    | cons c t =>
      rw [cleanLoop]
      split
      · rename_i h1
        subst h1
        exact ih t out hh hc (check_tail (by decide) hr)
      · split
        · rename_i h1 h2
          simp only [Bool.and_eq_true, decide_eq_true_eq] at h2
          have hc' : c ≠ '%' := by rw [h2.1]; decide
          exact ih t out hh hc (check_tail hc' hr)
        · split
          · rename_i h1 h2 h3
            simp only [Bool.and_eq_true, decide_eq_true_eq] at h3
            have hc' : c ≠ '%' := by rw [h3.1.1]; decide
            have ht : unescapeCheck .encodePath t = true := check_tail hc' hr
            have htt : unescapeCheck .encodePath t.tail = true := by
              cases t with
              | nil => exact ht
              | cons d t' =>
                have hd : d = '.' := by simpa using h3.1.2
                exact check_tail (by rw [hd]; decide) ht
            split
            · rename_i hlen
              obtain ⟨b1, b2, b3⟩ := backtrackIdx_spec out (out.length - 1) (by omega)
              obtain ⟨k1, k2⟩ := check_take out _ hh hc b1 (by omega) b3
              exact ih t.tail _ k2 k1 htt
            · simp only [Bool.not_true, Bool.false_eq_true, if_false]
              exact ih t.tail out hh hc htt
          · obtain ⟨w1, w2⟩ := check_takeWhile_dropWhile (c :: t) hr
            refine ih _ _ ?_ ?_ w2
            · cases out with
              | nil => simp at hh
              | cons a o =>
                simp only [List.head?_cons] at hh
                split <;> simp [hh]
            · refine check_append ?_ w1
              split
              · exact check_append hc (by decide)
              · exact hc

theorem Clean_check (path : List Char) (hh : path.head? = some '/')
    (hc : unescapeCheck .encodePath path = true) :
    unescapeCheck .encodePath (Clean path) = true ∧ (Clean path).head? = some '/' := by
  cases path with
  | nil => simp at hh
  | cons a t =>
    simp only [List.head?_cons, Option.some.injEq] at hh
    subst hh
    obtain ⟨h1, h2⟩ := cleanLoop_check ('/' :: t).length t ['/'] rfl (by decide)
      (check_tail (by decide) hc)
    have hne : cleanLoop true ('/' :: t).length t ['/'] 1 ≠ [] := by
      intro h
      rw [h] at h2
      simp at h2
    unfold Clean
    simp only [List.head?_cons, List.tail_cons, reduceCtorEq, if_false, if_true, decide_True]
    rw [if_neg hne]
    exact ⟨h1, h2⟩

theorem Join_check (x : List Char) (hh : x.head? = some '/')
    (hc : unescapeCheck .encodePath x = true) :
    unescapeCheck .encodePath (Join [x, ['/']]) = true ∧ (Join [x, ['/']]).head? = some '/' := by
  cases x with
  | nil => simp at hh
  | cons a t =>
    have hsum : ¬ (List.map List.length [a :: t, ['/']]).sum = 0 := by simp
    unfold Join
    rw [if_neg hsum]
    have hj : joinLoop [a :: t, ['/']] [] = (a :: t) ++ ['/'] ++ ['/'] := by
      simp [joinLoop]
    rw [hj]
    refine Clean_check _ ?_ ?_
    · simpa using hh
    · exact check_append (check_append hc (by decide)) (by decide)

/-- The path that `JoinPath("/")` sets has no broken escape and ends in `/`. -/
theorem joinedPath_spec (u : URL) :
    unescapeCheck .encodePath (u.joinedPath [['/']]) = true
    ∧ (u.joinedPath [['/']]).getLast? = some '/' := by
  have hE := check_EscapedPath u
  have hp : ∃ p, unescapeCheck .encodePath p = true ∧
      u.joinedPath [['/']] = if p.getLast? ≠ some '/' then p ++ ['/'] else p := by
    unfold URL.joinedPath
    by_cases h0 : u.EscapedPath.head? = some '/'
    · refine ⟨Join [u.EscapedPath, ['/']], (Join_check _ h0 hE).1, ?_⟩
      simp [h0]
    · obtain ⟨j1, j2⟩ := Join_check ('/' :: u.EscapedPath) rfl (check_cons_of (by decide) hE)
      refine ⟨(Join [('/' :: u.EscapedPath), ['/']]).tail, ?_, ?_⟩
      · cases hj : Join [('/' :: u.EscapedPath), ['/']] with
        | nil => rfl
        | cons a t =>
          rw [hj] at j1 j2
          simp only [List.head?_cons, Option.some.injEq] at j2
          subst j2
          exact check_tail (by decide) j1
      · simp [h0]
  obtain ⟨p, hc, he⟩ := hp
  rw [he]
  by_cases hl : p.getLast? = some '/'
  · simp only [hl, ne_eq, not_true_eq_false, if_false]
    exact ⟨hc, trivial⟩
  · simp only [ne_eq, hl, not_false_eq_true, if_true]
    exact ⟨check_append hc (by decide), List.getLast?_concat _⟩

/-- The method `JoinPath("/")` on a URL without opaque part, query and
fragment gives a URL whose string ends in `/`. -/
theorem URL_JoinPath_slash (u : URL) (hop : u.Opaque = []) (hq : u.RawQuery = [])
    (hfq : u.ForceQuery = false) (hfrag : u.Fragment = []) :
    (u.JoinPath [['/']]).UrlString.getLast? = some '/' := by
  obtain ⟨hc, hl⟩ := joinedPath_spec u
  obtain ⟨v, hv⟩ := setPath_isSome u hc
  have hJ : u.JoinPath [['/']] = v := by
    unfold URL.JoinPath
    rw [hv]
    rfl
  rw [hJ]
  obtain ⟨_, f2, _, _, _, f6, f7, f8, _, _, _⟩ := setPath_fields hv
  exact UrlString_getLast_slash v (f2.trans hop) (f7.trans hq) (f6.trans hfq) (f8.trans hfrag)
    (setPath_EscapedPath_slash hv hl)

end url

namespace url

theorem cut_spec (sep : Char) (s : List Char) :
    ((cut sep s).2.2 = true ∧ s = (cut sep s).1 ++ sep :: (cut sep s).2.1)
    ∨ ((cut sep s).2.2 = false ∧ (cut sep s).1 = s ∧ (cut sep s).2.1 = []) := by
  induction s with
  | nil => exact Or.inr ⟨rfl, rfl, rfl⟩
  | cons c rest ih =>
    by_cases hc : c = sep
    · subst hc
      left
      simp [cut]
    · rcases ih with ⟨h1, h2⟩ | ⟨h1, h2, h3⟩
      · left
        simp only [cut, hc, if_false]
        exact ⟨h1, by rw [List.cons_append, ← h2]⟩
      · right
        simp only [cut, hc, if_false]
        exact ⟨h1, by rw [h2], h3⟩

/-- When the part after the separator is empty and the string ends in `/`,
the separator does not occur and the part before it is the whole string. -/
theorem cut_of_slash {sep : Char} (hsep : sep ≠ '/') {s : List Char}
    (hs : s.getLast? = some '/') (h : (cut sep s).2.1 = []) : (cut sep s).1 = s := by
  rcases cut_spec sep s with ⟨_, h2⟩ | ⟨_, h2, _⟩
  · rw [h] at h2
    rw [h2, List.getLast?_concat] at hs
    simp only [Option.some.injEq] at hs
    exact absurd hs hsep
  · exact h2

theorem getSchemeLoop_spec (rawURL : List Char) (i : Nat) (l sch rest : List Char)
    (h : getSchemeLoop rawURL i l = some (sch, rest)) :
    rest = rawURL ∨ ∃ hd, l = hd ++ ':' :: rest := by
  induction l generalizing i with
  | nil =>
    simp only [getSchemeLoop, Option.some.injEq, Prod.mk.injEq] at h
    exact Or.inl h.2.symm
  | cons c t ih =>
    rw [getSchemeLoop] at h
    split at h
    · rcases ih _ h with h1 | ⟨hd, h1⟩
      · exact Or.inl h1
      · exact Or.inr ⟨c :: hd, by rw [h1]; rfl⟩
    · split at h
      · split at h
        · simp only [Option.some.injEq, Prod.mk.injEq] at h
          exact Or.inl h.2.symm
        · rcases ih _ h with h1 | ⟨hd, h1⟩
          · exact Or.inl h1
          · exact Or.inr ⟨c :: hd, by rw [h1]; rfl⟩
      · split at h
        · rename_i hcolon
          split at h
          · cases h
          · simp only [Option.some.injEq, Prod.mk.injEq] at h
            exact Or.inr ⟨[], by rw [hcolon, h.2]; rfl⟩
        · simp only [Option.some.injEq, Prod.mk.injEq] at h
          exact Or.inl h.2.symm

theorem getScheme_slash {s sch rest : List Char} (h : getScheme s = some (sch, rest))
    (hs : s.getLast? = some '/') : rest.getLast? = some '/' := by
  rcases getSchemeLoop_spec s 0 s sch rest h with h1 | ⟨hd, h1⟩
  · rw [h1]; exact hs
  · rw [h1] at hs
    cases rest with
    | nil =>
      rw [List.getLast?_concat] at hs
      simp at hs
    | cons r rs =>
      rw [List.getLast?_append] at hs
      simpa using hs

theorem getLast?_drop_of_ne_nil (l : List Char) (n : Nat) (h : l.drop n ≠ []) :
    (l.drop n).getLast? = l.getLast? := by
  induction n generalizing l with
  | zero => rfl
  | succ n ih =>
    cases l with
    | nil => simp at h
    | cons a t =>
      simp only [List.drop_succ_cons] at h ⊢
      rw [ih t h]
      cases t with
      | nil => simp at h
      | cons b t' => rw [List.getLast?_cons_cons]

theorem decodeAny_ne_nil (mode : encoding) (s : List Char) (hc : unescapeCheck mode s = true)
    (h : s ≠ []) : unescapeDecode mode s ≠ [] := by
  cases s with
  | nil => exact absurd rfl h
  | cons c rest =>
    cases rest with
    | nil =>
      simp only [unescapeDecode]
      simp only [unescapeCheck] at hc
      by_cases hp : c = '%'
      · simp [hp] at hc
      · by_cases hq : c = '+'
        · simp [hq]
        · simp [hp, hq]
    | cons h1 t =>
      cases t with
      | nil =>
        simp only [unescapeDecode]
        simp only [unescapeCheck] at hc
        by_cases hp : c = '%'
        · simp [hp] at hc
        · by_cases hq : c = '+'
          · simp [hq]
          · simp [hp, hq]
      | cons h2 r =>
        simp only [unescapeDecode]
        by_cases hp : c = '%'
        · simp [hp]
        · by_cases hq : c = '+'
          · simp [hq]
          · simp [hp, hq]

end url

namespace url

/-- What `parse` does on a string that ends in `/` when the result has no
opaque part, no query and a non-empty path: it ends in a `setPath` of a string
that ends in `/`. -/
theorem parse_slash {s : List Char} {v : URL} (h : parse s = some v)
    (hs : s.getLast? = some '/') (hop : v.Opaque = []) (hq : v.RawQuery = [])
    (hpath : v.Path ≠ []) :
    ∃ (u : URL) (rest : List Char), u.setPath rest = some v ∧ rest.getLast? = some '/' := by
  unfold parse at h
  split at h
  · cases h
  · split at h
    · rename_i hstar
      rw [hstar] at hs
      simp at hs
    · split at h
      · cases h
      · rename_i scheme rest0 hsch
        have hr0 : rest0.getLast? = some '/' := getScheme_slash hsch hs
        have hforced : (decide (rest0.getLast? = some '?') && decide (rest0.count '?' = 1))
            = false := by
          rw [hr0]; simp
        simp only [hforced, Bool.false_eq_true, if_false] at h
        split at h
        · simp only [Option.some.injEq] at h
          subst h
          simp only at hop hq
          have := cut_of_slash (by decide) hr0 hq
          rw [hop] at this
          rw [← this] at hr0
          simp at hr0
        · split at h
          · cases h
          · split at h
            · split at h
              · cases h
              · rename_i user host _
                obtain ⟨_, _, _, _, _, _, f7, _, _, _, fp⟩ := setPath_fields h
                simp only at f7
                have hq' := f7.symm.trans hq
                have hr1 := cut_of_slash (by decide) hr0 hq'
                rw [hr1] at h fp
                refine ⟨_, _, h, ?_⟩
                have hne : List.drop (cut '/' (List.drop 2 rest0)).1.length (List.drop 2 rest0) ≠ [] := by
                  intro he
                  rw [he] at fp
                  exact hpath (by rw [fp]; rfl)
                have hne2 : List.drop 2 rest0 ≠ [] := by
                  intro he
                  rw [he] at hne
                  simp at hne
                rw [getLast?_drop_of_ne_nil _ _ hne, getLast?_drop_of_ne_nil _ _ hne2]
                exact hr0
            · split at h
              · obtain ⟨_, _, _, _, _, _, f7, _, _, _, _⟩ := setPath_fields h
                simp only at f7
                have hr1 := cut_of_slash (by decide) hr0 (f7.symm.trans hq)
                rw [hr1] at h
                exact ⟨_, _, h, hr0⟩
              · obtain ⟨_, _, _, _, _, _, f7, _, _, _, _⟩ := setPath_fields h
                simp only at f7
                have hr1 := cut_of_slash (by decide) hr0 (f7.symm.trans hq)
                rw [hr1] at h
                exact ⟨_, _, h, hr0⟩

/-- `Parse` of a string that ends in `/`: when the result has no opaque part,
no query, no fragment and a non-empty path, it prints as a string that ends
in `/`. -/
theorem Parse_slash {s : List Char} {v : URL} (h : Parse s = some v)
    (hs : s.getLast? = some '/') (hop : v.Opaque = []) (hq : v.RawQuery = [])
    (hfq : v.ForceQuery = false) (hfrag : v.Fragment = []) (hpath : v.Path ≠ []) :
    v.UrlString.getLast? = some '/' := by
  unfold Parse at h
  split at h
  · cases h
  · rename_i u hu
    split at h
    · rename_i hf
      simp only [Option.some.injEq] at h
      subst h
      have hcut := cut_of_slash (by decide) hs hf
      rw [hcut] at hu
      obtain ⟨u', rest, h1, h2⟩ := parse_slash hu hs hop hq hpath
      exact UrlString_getLast_slash u hop hq hfq hfrag (setPath_EscapedPath_slash h1 h2)
    · rename_i hf
      unfold URL.setFragment at h
      split at h
      · cases h
      · rename_i frag hun
        simp only [Option.some.injEq] at h
        subst h
        simp only at hfrag
        unfold unescape at hun
        split at hun
        · rename_i hc
          simp only [Option.some.injEq] at hun
          rw [← hun] at hfrag
          exact absurd hfrag (decodeAny_ne_nil _ _ hc hf)
        · cases hun

end url

namespace url

theorem length_dropWhile_le (p : Char → Bool) (l : List Char) :
    (l.dropWhile p).length ≤ l.length := by
  induction l with
  | nil => simp
  | cons a t ih =>
    simp only [List.dropWhile_cons]
    split
    · simp only [List.length_cons]; omega
    · exact Nat.le_refl _

/-- The loop of `path.Clean` ends before its bound on the number of rounds is
reached: with at least one round per byte left, more rounds change nothing. -/
theorem cleanLoop_fuel (rooted : Bool) (n : Nat) : ∀ (rest out : List Char) (dotdot f1 f2 : Nat),
    rest.length ≤ n → rest.length ≤ f1 → rest.length ≤ f2 →
    cleanLoop rooted f1 rest out dotdot = cleanLoop rooted f2 rest out dotdot := by
  induction n with
  | zero =>
    intro rest out dotdot f1 f2 hn _ _
    have : rest = [] := List.length_eq_zero.1 (Nat.le_zero.1 hn)
    subst this
    cases f1 <;> cases f2 <;> simp [cleanLoop]
  | succ n ih =>
    intro rest out dotdot f1 f2 hn h1 h2
    cases rest with
    | nil => cases f1 <;> cases f2 <;> simp [cleanLoop]
    | cons c t =>
      simp only [List.length_cons] at hn h1 h2
      obtain ⟨g1, rfl⟩ : ∃ g, f1 = g + 1 := ⟨f1 - 1, by omega⟩
      obtain ⟨g2, rfl⟩ : ∃ g, f2 = g + 1 := ⟨f2 - 1, by omega⟩
      have ht : t.tail.length ≤ t.length := by cases t <;> simp
      have hd : ((c :: t).dropWhile (· != '/')).length ≤ t.length ∨ c = '/' := by
        by_cases hc : c = '/'
        · exact Or.inr hc
        · left
          have : (c != '/') = true := by simpa using hc
          simp only [List.dropWhile_cons, this, if_true]
          have := length_dropWhile_le (· != '/') t
          omega
      rw [cleanLoop, cleanLoop]
      split
      · exact ih t out dotdot g1 g2 (by omega) (by omega) (by omega)
      · rename_i hc
        rcases hd with hd | hd
        · split
          · exact ih t out dotdot g1 g2 (by omega) (by omega) (by omega)
          · split
            · split
              · exact ih _ _ _ g1 g2 (by omega) (by omega) (by omega)
              · split
                · exact ih _ _ _ g1 g2 (by omega) (by omega) (by omega)
                · exact ih _ _ _ g1 g2 (by omega) (by omega) (by omega)
            · exact ih _ _ _ g1 g2 (by omega) (by omega) (by omega)
        · exact absurd hd hc

end url

namespace url

/-! ### What `String()` prints and how `Parse` reads it back -/

theorem upperhex_ne (n : Nat) (h : n < 16) : upperhex n ≠ '?' ∧ upperhex n ≠ '#' := by
  interval_cases n <;> decide

/-- The output of `escape` has no `?` and no `#` in a mode that escapes both. -/
theorem escape_noQF (m : encoding) (h1 : shouldEscape '?' m = true)
    (h2 : shouldEscape '#' m = true) (s : List Char) :
    ∀ c ∈ escape s m, c ≠ '?' ∧ c ≠ '#' := by
  induction s with
  | nil => intro c hc; simp [escape] at hc
  | cons a rest ih =>
    intro c hc
    rw [escape] at hc
    split at hc
    · rcases List.mem_cons.1 hc with h | h
      · rw [h]; exact ⟨by decide, by decide⟩
      · exact ih c h
    · split at hc
      · rcases List.mem_cons.1 hc with h | h
        · rw [h]; exact ⟨by decide, by decide⟩
        · rcases List.mem_cons.1 h with h | h
          · rw [h]; exact upperhex_ne _ (Nat.mod_lt _ (by decide))
          · rcases List.mem_cons.1 h with h | h
            · rw [h]; exact upperhex_ne _ (Nat.mod_lt _ (by decide))
            · exact ih c h
      · rename_i hne
        rcases List.mem_cons.1 hc with h | h
        · rw [h]
          constructor
          · intro ha; rw [ha] at hne; exact hne h1
          · intro ha; rw [ha] at hne; exact hne h2
        · exact ih c h

theorem validEncoded_noQF (s : List Char) (h : validEncoded s .encodePath = true) :
    ∀ c ∈ s, c ≠ '?' ∧ c ≠ '#' := by
  intro c hc
  unfold validEncoded at h
  have := List.all_eq_true.1 h c hc
  constructor
  · intro ha; rw [ha] at this; revert this; decide
  · intro ha; rw [ha] at this; revert this; decide

theorem EscapedPath_noQF (u : URL) : ∀ c ∈ u.EscapedPath, c ≠ '?' ∧ c ≠ '#' := by
  unfold URL.EscapedPath
  split
  · rename_i h
    simp only [Bool.and_eq_true] at h
    exact validEncoded_noQF _ h.1.2
  · split
    · intro c hc
      simp only [List.mem_singleton] at hc
      rw [hc]; exact ⟨by decide, by decide⟩
    · exact escape_noQF _ (by decide) (by decide) _

theorem UserString_noQF (ui : Userinfo) : ∀ c ∈ ui.UserString, c ≠ '?' ∧ c ≠ '#' := by
  intro c hc
  unfold Userinfo.UserString at hc
  rcases List.mem_append.1 hc with h | h
  · exact escape_noQF _ (by decide) (by decide) _ c h
  · split at h
    · rcases List.mem_cons.1 h with h | h
      · rw [h]; exact ⟨by decide, by decide⟩
      · exact escape_noQF _ (by decide) (by decide) _ c h
    · simp at h

/-- The three shapes of the string of a URL without opaque part, query and
fragment and with a non-empty path: the escaped path alone (after `./` when its
first segment has a colon), the scheme and the escaped path, or the scheme,
`//`, the authority and the escaped path. -/
theorem UrlString_shape (u : URL) (hop : u.Opaque = []) (hq : u.RawQuery = [])
    (hfq : u.ForceQuery = false) (hfrag : u.Fragment = []) (hpath : u.Path ≠ []) :
    (u.Scheme = [] ∧ u.UrlString
        = (if (cut '/' u.EscapedPath).1.contains ':' then ['.', '/'] else []) ++ u.EscapedPath)
    ∨ (u.Scheme ≠ [] ∧ u.UrlString = u.Scheme ++ ':' :: u.EscapedPath)
    ∨ (∃ X : List Char, (∀ c ∈ X, c ≠ '?' ∧ c ≠ '#')
        ∧ u.UrlString = (if u.Scheme ≠ [] then u.Scheme ++ [':'] else [])
            ++ '/' :: '/' :: (X ++ u.EscapedPath)) := by
  have hat : ∀ c : Char, c = '@' → c ≠ '?' ∧ c ≠ '#' := by
    intro c h; rw [h]; exact ⟨by decide, by decide⟩
  have hslash : ∀ c : Char, c = '/' → c ≠ '?' ∧ c ≠ '#' := by
    intro c h; rw [h]; exact ⟨by decide, by decide⟩
  have hHost := escape_noQF .encodeHost (by decide) (by decide) u.Host
  have hUser : ∀ c ∈ (match u.User with
      | some ui => ui.UserString ++ ['@']
      | none => []), c ≠ '?' ∧ c ≠ '#' := by
    intro c hc
    split at hc
    · rcases List.mem_append.1 hc with h | h
      · exact UserString_noQF _ c h
      · exact hat c (List.mem_singleton.1 h)
    · simp at hc
  have hX : ∀ c ∈ (match u.User with
        | some ui => ui.UserString ++ ['@']
        | none => [])
      ++ (if u.Host ≠ [] then escape u.Host .encodeHost else [])
      ++ (if u.EscapedPath ≠ [] && u.EscapedPath.head? ≠ some '/' && u.Host ≠ [] then ['/']
          else []), c ≠ '?' ∧ c ≠ '#' := by
    intro c hc
    rcases List.mem_append.1 hc with h | h
    · rcases List.mem_append.1 h with h | h
      · exact hUser c h
      · split at h
        · exact hHost c h
        · simp at h
    · split at h
      · exact hslash c (List.mem_singleton.1 h)
      · simp at h
  by_cases hE : ¬ u.EscapedPath = [] ∧ ¬ u.EscapedPath.head? = some '/'
  · by_cases hS : u.Scheme = []
    · by_cases hH : u.Host = []
      · cases hU : u.User with
        | none =>
          left
          refine ⟨hS, ?_⟩
          simp [URL.UrlString, hop, hq, hfq, hfrag, hS, hH, hU]
        | some ui =>
          right; right
          refine ⟨_, hX, ?_⟩
          simp [URL.UrlString, hop, hq, hfq, hfrag, hS, hH, hU]
      · right; right
        refine ⟨_, hX, ?_⟩
        cases hU : u.User with
        | none => simp [URL.UrlString, hop, hq, hfq, hfrag, hS, hH, hU, hE]
        | some ui => simp [URL.UrlString, hop, hq, hfq, hfrag, hS, hH, hU, hE]
    · by_cases hH : u.Host = []
      · cases hU : u.User with
        | none =>
          cases hO : u.OmitHost with
          | true =>
            right; left
            refine ⟨hS, ?_⟩
            simp [URL.UrlString, hop, hq, hfq, hfrag, hS, hH, hU, hO]
          | false =>
            right; right
            refine ⟨_, hX, ?_⟩
            simp [URL.UrlString, hop, hq, hfq, hfrag, hS, hH, hU, hO, hpath]
        | some ui =>
          right; right
          refine ⟨_, hX, ?_⟩
          simp [URL.UrlString, hop, hq, hfq, hfrag, hS, hH, hU]
      · right; right
        refine ⟨_, hX, ?_⟩
        cases hU : u.User with
        | none => simp [URL.UrlString, hop, hq, hfq, hfrag, hS, hH, hU, hE]
        | some ui => simp [URL.UrlString, hop, hq, hfq, hfrag, hS, hH, hU, hE]
  · by_cases hS : u.Scheme = []
    · by_cases hH : u.Host = []
      · cases hU : u.User with
        | none =>
          left
          refine ⟨hS, ?_⟩
          simp [URL.UrlString, hop, hq, hfq, hfrag, hS, hH, hU]
        | some ui =>
          right; right
          refine ⟨_, hX, ?_⟩
          simp [URL.UrlString, hop, hq, hfq, hfrag, hS, hH, hU]
      · right; right
        refine ⟨_, hX, ?_⟩
        cases hU : u.User with
        | none => simp [URL.UrlString, hop, hq, hfq, hfrag, hS, hH, hU, hE]
        | some ui => simp [URL.UrlString, hop, hq, hfq, hfrag, hS, hH, hU, hE]
    · by_cases hH : u.Host = []
      · cases hU : u.User with
        | none =>
          cases hO : u.OmitHost with
          | true =>
            right; left
            refine ⟨hS, ?_⟩
            simp [URL.UrlString, hop, hq, hfq, hfrag, hS, hH, hU, hO]
          | false =>
            right; right
            refine ⟨_, hX, ?_⟩
            simp [URL.UrlString, hop, hq, hfq, hfrag, hS, hH, hU, hO, hpath]
        | some ui =>
          right; right
          refine ⟨_, hX, ?_⟩
          simp [URL.UrlString, hop, hq, hfq, hfrag, hS, hH, hU]
      · right; right
        refine ⟨_, hX, ?_⟩
        cases hU : u.User with
        | none => simp [URL.UrlString, hop, hq, hfq, hfrag, hS, hH, hU, hE]
        | some ui => simp [URL.UrlString, hop, hq, hfq, hfrag, hS, hH, hU, hE]

end url

namespace url

theorem schemeByte_ne {c : Char} (h : schemeByte c = true) :
    c ≠ '/' ∧ c ≠ ':' ∧ c ≠ '?' ∧ c ≠ '#' := by
  refine ⟨?_, ?_, ?_, ?_⟩ <;>
  · intro hc
    rw [hc] at h
    revert h
    decide

theorem upper_add_ne (n : Nat) (h1 : 65 ≤ n) (h2 : n ≤ 90) :
    Char.ofNat (n + 32) ≠ '/' ∧ Char.ofNat (n + 32) ≠ ':' ∧ Char.ofNat (n + 32) ≠ '?'
    ∧ Char.ofNat (n + 32) ≠ '#' := by
  interval_cases n <;> decide

theorem toLower_ne (s : List Char) (h : ∀ c ∈ s, schemeByte c = true) :
    ∀ c ∈ toLower s, c ≠ '/' ∧ c ≠ ':' ∧ c ≠ '?' ∧ c ≠ '#' := by
  intro c hc
  unfold toLower at hc
  obtain ⟨a, ha, rfl⟩ := List.mem_map.1 hc
  split
  · rename_i hup
    simp only [Bool.and_eq_true, decide_eq_true_eq] at hup
    have a1 : 'A'.toNat ≤ a.toNat := hup.1
    have a2 : a.toNat ≤ 'Z'.toNat := hup.2
    exact upper_add_ne a.toNat a1 a2
  · exact schemeByte_ne (h a ha)

theorem cut_of_not_mem (sep : Char) (s : List Char) (h : sep ∉ s) : cut sep s = (s, [], false) := by
  induction s with
  | nil => rfl
  | cons c rest ih =>
    have hc : c ≠ sep := fun e => h (by rw [e]; exact List.mem_cons_self _ _)
    have hr : sep ∉ rest := fun e => h (List.mem_cons_of_mem _ e)
    simp [cut, hc, ih hr]

theorem cut_append_sep (sep : Char) (a b : List Char) (h : sep ∉ a) :
    cut sep (a ++ sep :: b) = (a, b, true) := by
  induction a with
  | nil => simp [cut]
  | cons c rest ih =>
    have hc : c ≠ sep := fun e => h (by rw [e]; exact List.mem_cons_self _ _)
    have hr : sep ∉ rest := fun e => h (List.mem_cons_of_mem _ e)
    simp [cut, hc, ih hr]

/-- The loop of `getScheme`: the scheme it returns is made of scheme bytes,
and the rest is the whole string or what follows the first `:`, which only
scheme bytes precede. -/
theorem getSchemeLoop_ok (raw : List Char) : ∀ (l pre sch rest : List Char),
    raw = pre ++ l → (∀ c ∈ pre, schemeByte c = true) →
    getSchemeLoop raw pre.length l = some (sch, rest) →
    (∀ c ∈ sch, schemeByte c = true)
    ∧ (rest = raw ∨ ∃ hd, raw = hd ++ ':' :: rest ∧ ∀ c ∈ hd, schemeByte c = true) := by
  intro l
  induction l with
  | nil =>
    intro pre sch rest _ _ h
    simp only [getSchemeLoop, Option.some.injEq, Prod.mk.injEq] at h
    refine ⟨?_, Or.inl h.2.symm⟩
    rw [← h.1]
    simp
  | cons c t ih =>
    intro pre sch rest h0 hpre h
    have hlen : (pre ++ [c]).length = pre.length + 1 := by simp
    have h0' : raw = (pre ++ [c]) ++ t := by rw [h0]; simp
    rw [getSchemeLoop] at h
    split at h
    · rename_i hl
      rw [← hlen] at h
      refine ih (pre ++ [c]) sch rest h0' ?_ h
      intro x hx
      rcases List.mem_append.1 hx with hx | hx
      · exact hpre x hx
      · rw [List.mem_singleton.1 hx]
        simp [schemeByte, hl]
    · split at h
      · rename_i hl hd
        split at h
        · simp only [Option.some.injEq, Prod.mk.injEq] at h
          refine ⟨?_, Or.inl h.2.symm⟩
          rw [← h.1]
          simp
        · rw [← hlen] at h
          refine ih (pre ++ [c]) sch rest h0' ?_ h
          intro x hx
          rcases List.mem_append.1 hx with hx | hx
          · exact hpre x hx
          · rw [List.mem_singleton.1 hx]
            simp only [schemeByte, Bool.or_eq_true]
            exact Or.inr (by simpa using hd)
      · split at h
        · rename_i hcolon
          split at h
          · cases h
          · simp only [Option.some.injEq, Prod.mk.injEq] at h
            have ht : raw.take pre.length = pre := by rw [h0]; simp
            refine ⟨?_, Or.inr ⟨pre, ?_, hpre⟩⟩
            · rw [← h.1, ht]; exact hpre
            · rw [h0, hcolon, h.2]
        · simp only [Option.some.injEq, Prod.mk.injEq] at h
          refine ⟨?_, Or.inl h.2.symm⟩
          rw [← h.1]
          simp

theorem getScheme_ok {s sch rest : List Char} (h : getScheme s = some (sch, rest)) :
    (∀ c ∈ sch, schemeByte c = true)
    ∧ (rest = s ∨ ∃ hd, s = hd ++ ':' :: rest ∧ ∀ c ∈ hd, schemeByte c = true) :=
  getSchemeLoop_ok s s [] sch rest rfl (by simp) h

end url

namespace url

/-- The scheme of a parsed URL has no `/`, `:`, `?` or `#`. -/
theorem parse_scheme {s : List Char} {v : URL} (h : parse s = some v) :
    ∀ c ∈ v.Scheme, c ≠ '/' ∧ c ≠ ':' ∧ c ≠ '?' ∧ c ≠ '#' := by
  unfold parse at h
  split at h
  · cases h
  · split at h
    · simp only [Option.some.injEq] at h
      subst h
      intro c hc
      simp [URL.zero] at hc
    · split at h
      · cases h
      · rename_i scheme rest0 hsch
        have hl := toLower_ne scheme (getScheme_ok hsch).1
        generalize (decide (rest0.getLast? = some '?') && decide (rest0.count '?' = 1)) = forced
          at h
        cases forced
        · simp only [Bool.false_eq_true, if_false] at h
          split at h
          · simp only [Option.some.injEq] at h
            subst h
            exact hl
          · split at h
            · cases h
            · split at h
              · split at h
                · cases h
                · rw [(setPath_fields h).1]
                  exact hl
              · split at h
                · rw [(setPath_fields h).1]
                  exact hl
                · rw [(setPath_fields h).1]
                  exact hl
        · simp only [if_true] at h
          split at h
          · simp only [Option.some.injEq] at h
            subst h
            exact hl
          · split at h
            · cases h
            · split at h
              · split at h
                · cases h
                · rw [(setPath_fields h).1]
                  exact hl
              · split at h
                · rw [(setPath_fields h).1]
                  exact hl
                · rw [(setPath_fields h).1]
                  exact hl

theorem Parse_scheme {s : List Char} {v : URL} (h : Parse s = some v) :
    ∀ c ∈ v.Scheme, c ≠ '/' ∧ c ≠ ':' ∧ c ≠ '?' ∧ c ≠ '#' := by
  unfold Parse at h
  split at h
  · cases h
  · rename_i u hu
    split at h
    · simp only [Option.some.injEq] at h
      subst h
      exact parse_scheme hu
    · unfold URL.setFragment at h
      split at h
      · cases h
      · simp only [Option.some.injEq] at h
        have hS : v.Scheme = u.Scheme := by rw [← h]
        rw [hS]
        exact parse_scheme hu

end url

namespace url

theorem cut_found_of_mem (sep : Char) (s : List Char) (h : sep ∈ s) : (cut sep s).2.2 = true := by
  induction s with
  | nil => simp at h
  | cons c rest ih =>
    by_cases hc : c = sep
    · simp [cut, hc]
    · simp only [cut, hc, if_false]
      rcases List.mem_cons.1 h with h1 | h1
      · exact absurd h1.symm hc
      · exact ih h1

/-- What `parse` does on a string that ends in `/` and has no `?`: the result
prints as a string that ends in `/`, unless what follows the scheme is just
`//`. -/
theorem parse_slash2 {s : List Char} {v : URL} (h : parse s = some v)
    (hs : s.getLast? = some '/') (hq : '?' ∉ s) :
    v.UrlString.getLast? = some '/' ∨ ∃ sch, getScheme s = some (sch, ['/', '/']) := by
  unfold parse at h
  split at h
  · cases h
  · split at h
    · rename_i hstar
      rw [hstar] at hs
      simp at hs
    · split at h
      · cases h
      · rename_i scheme rest0 hsch
        have hr0 : rest0.getLast? = some '/' := getScheme_slash hsch hs
        have hne0 : rest0 ≠ [] := by
          intro he; rw [he] at hr0; simp at hr0
        have hq0 : '?' ∉ rest0 := by
          rcases (getScheme_ok hsch).2 with h1 | ⟨hd, h1, _⟩
          · rw [h1]; exact hq
          · intro hm
            apply hq
            rw [h1]
            exact List.mem_append_right _ (List.mem_cons_of_mem _ hm)
        have hcut := cut_of_not_mem '?' rest0 hq0
        have hforced : (decide (rest0.getLast? = some '?') && decide (rest0.count '?' = 1))
            = false := by
          rw [hr0]; simp
        simp only [hforced, Bool.false_eq_true, if_false, hcut] at h
        split at h
        · rename_i hopq
          simp only [Option.some.injEq] at h
          subst h
          left
          have hS : toLower scheme ≠ [] := by
            simp only [Bool.and_eq_true, decide_eq_true_eq] at hopq
            simpa [URL.zero] using hopq.2
          simp [URL.UrlString, URL.zero, hS, hne0, List.getLast?_append, hr0]
          exact getLast?_cons_of_some hr0
        · split at h
          · cases h
          · split at h
            · rename_i hauth
              split at h
              · cases h
              · rename_i user host _
                obtain ⟨_, f2, _, _, _, f6, f7, f8, _, _, fp⟩ := setPath_fields h
                by_cases hne : List.drop (cut '/' (List.drop 2 rest0)).1.length (List.drop 2 rest0) = []
                · right
                  refine ⟨scheme, ?_⟩
                  rw [hsch]
                  simp only [Bool.and_eq_true] at hauth
                  have hpre := hauth.2
                  cases rest0 with
                  | nil => simp at hpre
                  | cons a r1 =>
                    cases r1 with
                    | nil => simp at hpre
                    | cons b r =>
                      simp only [List.isPrefixOf, Bool.and_eq_true, beq_iff_eq, Bool.and_true]
                        at hpre
                      obtain ⟨ha, hb⟩ := hpre
                      subst ha hb
                      simp only [List.drop_succ_cons, List.drop_zero] at hne
                      cases r with
                      | nil => rfl
                      | cons c r' =>
                        exfalso
                        have hrl : (c :: r').getLast? = some '/' := by
                          have := hr0
                          rw [List.getLast?_cons_cons, List.getLast?_cons_cons] at this
                          exact this
                        rcases cut_spec '/' (c :: r') with ⟨_, h2⟩ | ⟨hnf, h2, _⟩
                        · have h3 := congrArg (List.drop (cut '/' (c :: r')).1.length) h2
                          rw [hne, List.drop_left] at h3
                          cases h3
                        · have hmem : '/' ∈ c :: r' := List.mem_of_getLast?_eq_some hrl
                          rw [cut_found_of_mem _ _ hmem] at hnf
                          cases hnf
                · left
                  have hne2 : List.drop 2 rest0 ≠ [] := by
                    intro he
                    rw [he] at hne
                    simp at hne
                  refine UrlString_getLast_slash v f2 f7 f6 f8 (setPath_EscapedPath_slash h ?_)
                  rw [getLast?_drop_of_ne_nil _ _ hne, getLast?_drop_of_ne_nil _ _ hne2]
                  exact hr0
            · split at h
              · obtain ⟨_, f2, _, _, _, f6, f7, f8, _, _, _⟩ := setPath_fields h
                left
                exact UrlString_getLast_slash v f2 f7 f6 f8 (setPath_EscapedPath_slash h hr0)
              · obtain ⟨_, f2, _, _, _, f6, f7, f8, _, _, _⟩ := setPath_fields h
                left
                exact UrlString_getLast_slash v f2 f7 f6 f8 (setPath_EscapedPath_slash h hr0)

/-- `Parse` of a string that ends in `/` and has no `?` and no `#`: the
result prints as a string that ends in `/`, unless what follows the scheme is
just `//`. -/
theorem Parse_slash2 {s : List Char} {v : URL} (h : Parse s = some v)
    (hs : s.getLast? = some '/') (hq : ∀ c ∈ s, c ≠ '?' ∧ c ≠ '#') :
    v.UrlString.getLast? = some '/' ∨ ∃ sch, getScheme s = some (sch, ['/', '/']) := by
  have h1 : '?' ∉ s := fun hm => (hq _ hm).1 rfl
  have h2 : '#' ∉ s := fun hm => (hq _ hm).2 rfl
  unfold Parse at h
  rw [cut_of_not_mem '#' s h2] at h
  simp only [if_true] at h
  split at h
  · cases h
  · rename_i u hu
    simp only [Option.some.injEq] at h
    subst h
    exact parse_slash2 hu hs h1

end url

namespace url

/-- The loop of `path.Clean` on a rooted path never writes a second `/`
right after the first. -/
theorem cleanLoop_second (fuel : Nat) : ∀ (rest out : List Char), out.head? = some '/' →
    out.tail.head? ≠ some '/' →
    (cleanLoop true fuel rest out 1).head? = some '/'
    ∧ (cleanLoop true fuel rest out 1).tail.head? ≠ some '/' := by
  induction fuel with
  | zero =>
    intro rest out hh h2
    rw [cleanLoop]
    exact ⟨hh, h2⟩
  | succ fuel ih =>
    intro rest out hh h2
    cases rest with
    | nil =>
      rw [cleanLoop]
      exact ⟨hh, h2⟩
    | cons c t =>
      rw [cleanLoop]
      split
      · exact ih t out hh h2
      · split
        · exact ih t out hh h2
        · split
          · split
            · obtain ⟨b1, _, _⟩ := backtrackIdx_spec out (out.length - 1) (by omega)
              refine ih t.tail _ ?_ ?_
              · cases out with
                | nil => simp at hh
                | cons a o =>
                  obtain ⟨k, hk⟩ : ∃ k, backtrackIdx (a :: o) 1 ((a :: o).length - 1) = k + 1 :=
                    ⟨_, (Nat.sub_add_cancel b1).symm⟩
                  rw [hk]
                  simpa using hh
              · cases out with
                | nil => simp at hh
                | cons a o =>
                  obtain ⟨k, hk⟩ : ∃ k, backtrackIdx (a :: o) 1 ((a :: o).length - 1) = k + 1 :=
                    ⟨_, (Nat.sub_add_cancel b1).symm⟩
                  rw [hk]
                  simp only [List.take_succ_cons, List.tail_cons]
                  simp only [List.tail_cons] at h2
                  cases o with
                  | nil => simp
                  | cons b o' =>
                    cases k with
                    | zero => simp
                    | succ k => simpa using h2
            · simp only [Bool.not_true, Bool.false_eq_true, if_false]
              exact ih t.tail out hh h2
          · rename_i hc _ _
            refine ih _ _ ?_ ?_
            · cases out with
              | nil => simp at hh
              | cons a o =>
                simp only [List.head?_cons] at hh
                split <;> simp [hh]
            · cases out with
              | nil => simp at hh
              | cons a o =>
                cases o with
                | nil =>
                  have hcb : (c != '/') = true := by simpa using hc
                  simp [List.takeWhile_cons, hcb, hc]
                | cons b o' =>
                  simp only [List.tail_cons, List.head?_cons] at h2
                  simpa using h2

theorem Clean_second (path : List Char) (hh : path.head? = some '/') :
    (Clean path).head? = some '/' ∧ (Clean path).tail.head? ≠ some '/' := by
  cases path with
  | nil => simp at hh
  | cons a t =>
    simp only [List.head?_cons, Option.some.injEq] at hh
    subst hh
    obtain ⟨h1, h2⟩ := cleanLoop_second ('/' :: t).length t ['/'] rfl (by simp)
    have hne : cleanLoop true ('/' :: t).length t ['/'] 1 ≠ [] := by
      intro h
      rw [h] at h1
      simp at h1
    unfold Clean
    simp only [List.head?_cons, List.tail_cons, reduceCtorEq, if_false, if_true, decide_True]
    rw [if_neg hne]
    exact ⟨h1, h2⟩

theorem Join_second (x : List Char) (hh : x.head? = some '/') :
    (Join [x, ['/']]).head? = some '/' ∧ (Join [x, ['/']]).tail.head? ≠ some '/' := by
  cases x with
  | nil => simp at hh
  | cons a t =>
    have hsum : ¬ (List.map List.length [a :: t, ['/']]).sum = 0 := by simp
    unfold Join
    rw [if_neg hsum]
    have hj : joinLoop [a :: t, ['/']] [] = (a :: t) ++ ['/'] ++ ['/'] := by
      simp [joinLoop]
    rw [hj]
    refine Clean_second _ ?_
    simpa using hh

/-- The path that `JoinPath("/")` sets is not `//`. -/
theorem joinedPath_ne (u : URL) : u.joinedPath [['/']] ≠ ['/', '/'] := by
  unfold URL.joinedPath
  by_cases h0 : u.EscapedPath.head? = some '/'
  · obtain ⟨j1, j2⟩ := Join_second _ h0
    simp only [h0, ne_eq, not_true_eq_false, if_false]
    cases hJ : Join [u.EscapedPath, ['/']] with
    | nil => rw [hJ] at j1; simp at j1
    | cons a r =>
      rw [hJ] at j1 j2
      simp only [List.head?_cons, Option.some.injEq] at j1
      subst j1
      cases r with
      | nil => simp
      | cons b r' =>
        simp only [List.tail_cons, List.head?_cons, ne_eq, Option.some.injEq] at j2
        split
        · simp [j2]
        · simp [j2]
  · obtain ⟨j1, j2⟩ := Join_second ('/' :: u.EscapedPath) rfl
    simp only [h0, ne_eq, not_false_eq_true, if_true]
    cases hJ : Join ['/' :: u.EscapedPath, ['/']] with
    | nil => rw [hJ] at j1; simp at j1
    | cons a r =>
      rw [hJ] at j1 j2
      simp only [List.tail_cons] at j2 ⊢
      cases r with
      | nil => simp
      | cons b r' =>
        simp only [List.head?_cons, ne_eq, Option.some.injEq] at j2
        split
        · simp [j2]
        · simp [j2]

end url

namespace url

theorem escape_ne_nil (c : Char) (r : List Char) : escape (c :: r) .encodePath ≠ [] := by
  rw [escape_cons_path]
  split <;> simp

theorem escape_eq_slashes {p : List Char} (h : escape p .encodePath = ['/', '/']) :
    p = ['/', '/'] := by
  cases p with
  | nil => simp [escape] at h
  | cons c r =>
    rw [escape_cons_path] at h
    split at h
    · simp at h
    · simp only [List.cons.injEq] at h
      obtain ⟨hc, hr⟩ := h
      subst hc
      cases r with
      | nil => simp [escape] at hr
      | cons d r2 =>
        rw [escape_cons_path] at hr
        split at hr
        · simp at hr
        · simp only [List.cons.injEq] at hr
          obtain ⟨hd, hr2⟩ := hr
          subst hd
          cases r2 with
          | nil => rfl
          | cons e r3 => exact absurd hr2 (escape_ne_nil e r3)

theorem ishex_alnum {h : Char} (hh : ishex h = true) : (isLetter h || isDigit h) = true := by
  unfold ishex at hh
  unfold isLetter
  simp only [Bool.or_eq_true, Bool.and_eq_true, decide_eq_true_eq] at hh ⊢
  rcases hh with (hd | ⟨a, b⟩) | ⟨a, b⟩
  · exact Or.inr hd
  · exact Or.inl (Or.inl ⟨a, le_trans b (by decide)⟩)
  · exact Or.inl (Or.inr ⟨a, le_trans b (by decide)⟩)

theorem validEncoded_cons (c : Char) (rest : List Char) :
    validEncoded (c :: rest) .encodePath
      = ((if ['!', '$', '&', Char.ofNat 39, '(', ')', '*', '+', ',', ';', '=', ':', '@'].contains c
            then true
          else if c = '[' || c = ']' then true
          else if c = '%' then true
          else !(shouldEscape c .encodePath)) && validEncoded rest .encodePath) := rfl

theorem validEncoded_hex {h : Char} (hh : ishex h = true) (rest : List Char) :
    validEncoded (h :: rest) .encodePath = validEncoded rest .encodePath := by
  rw [validEncoded_cons]
  have hs : shouldEscape h .encodePath = false := by
    unfold shouldEscape
    rw [if_pos (ishex_alnum hh)]
  rw [hs]
  split
  · simp
  · split
    · simp
    · split <;> simp

/-- A string without broken escapes that decodes to slashes only is a valid
encoding of a path. -/
theorem validEncoded_of_decode (n : Nat) : ∀ p : List Char, p.length ≤ n →
    unescapeCheck .encodePath p = true → (∀ c ∈ unescapeDecode .encodePath p, c = '/') →
    validEncoded p .encodePath = true := by
  induction n with
  | zero =>
    intro p hp _ _
    cases p with
    | nil => rfl
    | cons c r => simp at hp
  | succ n ih =>
    intro p hp hc hd
    cases p with
    | nil => rfl
    | cons c rest =>
      by_cases hpc : c = '%'
      · subst hpc
        rw [check_cons] at hc
        rw [decode_cons] at hd
        simp only [if_true] at hc hd
        cases rest with
        | nil => simp at hc
        | cons h1 t =>
          cases t with
          | nil => simp at hc
          | cons h2 r =>
            simp only [Bool.and_eq_true] at hc
            have hr : validEncoded r .encodePath = true :=
              ih r (by simp at hp; omega) hc.2 (fun x hx => hd x (List.mem_cons_of_mem _ hx))
            rw [validEncoded_cons, validEncoded_hex hc.1.1, validEncoded_hex hc.1.2, hr]
            decide
      · have hr := check_tail hpc hc
        rw [decode_cons] at hd
        simp only [hpc, if_false] at hd
        have hcs : c = '/' := hd c (List.mem_cons_self _ _)
        subst hcs
        have := ih rest (by simp at hp; omega) hr (fun x hx => hd x (List.mem_cons_of_mem _ hx))
        rw [validEncoded_cons, this]
        decide

/-- The escaped path of the URL that `JoinPath("/")` returns is not `//`. -/
theorem JoinPath_EscapedPath_ne (u : URL) : (u.JoinPath [['/']]).EscapedPath ≠ ['/', '/'] := by
  obtain ⟨hc, _⟩ := joinedPath_spec u
  obtain ⟨v, hv⟩ := setPath_isSome u hc
  have hJ : u.JoinPath [['/']] = v := by
    unfold URL.JoinPath
    rw [hv]
    rfl
  rw [hJ]
  have hjp := joinedPath_ne u
  obtain ⟨_, _, _, _, _, _, _, _, _, _, fp⟩ := setPath_fields hv
  have hR : v.RawPath = [] ∨ v.RawPath = u.joinedPath [['/']] := by
    unfold URL.setPath at hv
    split at hv
    · cases hv
    · simp only [Option.some.injEq] at hv
      rw [← hv]
      simp only
      split
      · exact Or.inl rfl
      · exact Or.inr rfl
  intro hE
  unfold URL.EscapedPath at hE
  split at hE
  · rename_i hcond
    simp only [Bool.and_eq_true, decide_eq_true_eq] at hcond
    rcases hR with hR | hR
    · exact hcond.1.1 hR
    · rw [hR] at hE
      exact hjp hE
  · rename_i hcond
    split at hE
    · simp at hE
    · have hP := escape_eq_slashes hE
      have hdec : ∀ c ∈ unescapeDecode .encodePath (u.joinedPath [['/']]), c = '/' := by
        rw [← fp, hP]
        intro c hc
        simp only [List.mem_cons, List.mem_singleton, List.not_mem_nil, or_false, or_self] at hc
        exact hc
      have hval := validEncoded_of_decode _ _ (Nat.le_refl _) hc hdec
      have hun : unescape (u.joinedPath [['/']]) .encodePath = some v.Path := by
        unfold unescape
        rw [if_pos hc, fp]
      rcases hR with hR | hR
      · unfold URL.setPath at hv
        rw [hun] at hv
        simp only [Option.some.injEq] at hv
        have hR2 : v.RawPath = if u.joinedPath [['/']] = escape v.Path .encodePath then []
            else u.joinedPath [['/']] := by
          rw [← hv]
        rw [hP] at hR2
        have he : escape ['/', '/'] .encodePath = ['/', '/'] := by decide
        rw [he, if_neg hjp] at hR2
        rw [hR2] at hR
        rw [hR, hP] at fp
        simp [unescapeDecode] at fp
      · apply hcond
        simp only [Bool.and_eq_true, decide_eq_true_eq, beq_iff_eq]
        refine ⟨⟨?_, ?_⟩, ?_⟩
        · rw [hR]
          intro he
          rw [he] at hdec fp
          rw [hP] at fp
          simp [unescapeDecode] at fp
        · rw [hR]; exact hval
        · rw [hR]; exact hun

end url

namespace url

theorem deg_cases {s : List Char} (h : ∃ sch, getScheme s = some (sch, ['/', '/'])) :
    s = ['/', '/'] ∨ ∃ hd, s = hd ++ [':', '/', '/'] ∧ ∀ c ∈ hd, schemeByte c = true := by
  obtain ⟨sch, h⟩ := h
  rcases (getScheme_ok h).2 with h1 | ⟨hd, h1, h2⟩
  · exact Or.inl h1.symm
  · exact Or.inr ⟨hd, h1, h2⟩

theorem not_deg_slashes {s Y : List Char} (hs : s = '/' :: '/' :: Y) (hY : Y ≠ []) :
    ¬ (s = ['/', '/'] ∨ ∃ hd, s = hd ++ [':', '/', '/'] ∧ ∀ c ∈ hd, schemeByte c = true) := by
  rintro (h | ⟨hd, h, hok⟩)
  · rw [hs] at h
    simp only [List.cons.injEq, true_and] at h
    exact hY h
  · rw [hs] at h
    cases hd with
    | nil => simp at h
    | cons a t =>
      simp only [List.cons_append, List.cons.injEq] at h
      have := hok a (List.mem_cons_self _ _)
      rw [← h.1] at this
      revert this
      decide

theorem not_deg_scheme {s S T : List Char} (hs : s = S ++ ':' :: T) (hS : S ≠ [])
    (hok : ∀ c ∈ S, c ≠ '/' ∧ c ≠ ':') (hT : T ≠ ['/', '/']) :
    ¬ (s = ['/', '/'] ∨ ∃ hd, s = hd ++ [':', '/', '/'] ∧ ∀ c ∈ hd, schemeByte c = true) := by
  rintro (h | ⟨hd, h, hok2⟩)
  · rw [hs] at h
    cases S with
    | nil => exact hS rfl
    | cons a t =>
      simp only [List.cons_append, List.cons.injEq] at h
      exact (hok a (List.mem_cons_self _ _)).1 h.1
  · have h1 : cut ':' s = (S, T, true) := by
      rw [hs]
      exact cut_append_sep ':' S T (fun hm => (hok _ hm).2 rfl)
    have h2 : cut ':' s = (hd, ['/', '/'], true) := by
      rw [h]
      exact cut_append_sep ':' hd ['/', '/'] (fun hm => (schemeByte_ne (hok2 _ hm)).2.1 rfl)
    rw [h1] at h2
    simp only [Prod.mk.injEq, and_true] at h2
    exact hT h2.2

theorem not_deg_dot {s E : List Char} (hs : s = '.' :: '/' :: E) :
    ¬ (s = ['/', '/'] ∨ ∃ hd, s = hd ++ [':', '/', '/'] ∧ ∀ c ∈ hd, schemeByte c = true) := by
  rintro (h | ⟨hd, h, hok⟩)
  · rw [hs] at h
    simp at h
  · rw [hs] at h
    cases hd with
    | nil => simp at h
    | cons a t =>
      cases t with
      | nil => simp at h
      | cons b t' =>
        simp only [List.cons_append, List.cons.injEq] at h
        have := hok b (List.mem_cons_of_mem _ (List.mem_cons_self _ _))
        rw [← h.2.1] at this
        revert this
        decide

theorem not_deg_path {E : List Char} (hE : E ≠ ['/', '/'])
    (hcolon : (cut '/' E).1.contains ':' = false) :
    ¬ (E = ['/', '/'] ∨ ∃ hd, E = hd ++ [':', '/', '/'] ∧ ∀ c ∈ hd, schemeByte c = true) := by
  rintro (h | ⟨hd, h, hok⟩)
  · exact hE h
  · have h1 : cut '/' E = (hd ++ [':'], ['/'], true) := by
      have : E = (hd ++ [':']) ++ '/' :: ['/'] := by rw [h]; simp
      rw [this]
      refine cut_append_sep '/' _ _ ?_
      intro hm
      rcases List.mem_append.1 hm with hm | hm
      · exact (schemeByte_ne (hok _ hm)).1 rfl
      · simp at hm
    rw [h1] at hcolon
    simp at hcolon

/-- The string of a URL without opaque part, query and fragment, with a
scheme free of `/` and `:` and with a path that is neither empty nor `//`, is
not a scheme followed by just `//`. -/
theorem UrlString_not_deg (v : URL) (hop : v.Opaque = []) (hq : v.RawQuery = [])
    (hfq : v.ForceQuery = false) (hfrag : v.Fragment = []) (hpath : v.Path ≠ [])
    (hsch : ∀ c ∈ v.Scheme, c ≠ '/' ∧ c ≠ ':') (hE : v.EscapedPath ≠ ['/', '/'])
    (hEn : v.EscapedPath ≠ []) :
    ¬ ∃ sch, getScheme v.UrlString = some (sch, ['/', '/']) := by
  intro hdeg
  have hd := deg_cases hdeg
  rcases UrlString_shape v hop hq hfq hfrag hpath with ⟨hS, hs⟩ | ⟨hS, hs⟩ | ⟨X, _, hs⟩
  · by_cases hc : (cut '/' v.EscapedPath).1.contains ':' = true
    · rw [if_pos hc] at hs
      exact not_deg_dot hs hd
    · rw [if_neg hc, List.nil_append] at hs
      rw [hs] at hd
      exact not_deg_path hE (by simpa using hc) hd
  · exact not_deg_scheme hs hS hsch hE hd
  · by_cases hS : v.Scheme = []
    · rw [if_neg (by simpa using hS), List.nil_append] at hs
      exact not_deg_slashes hs (by simp [hEn]) hd
    · rw [if_pos hS] at hs
      refine not_deg_scheme (T := '/' :: '/' :: (X ++ v.EscapedPath)) ?_ hS hsch ?_ hd
      · rw [hs]; simp
      · simp [hEn]

/-- A URL without opaque part, query and fragment, with a non-empty path and
a scheme free of `?` and `#`, prints as a string without `?` and `#`. -/
theorem UrlString_noQF (u : URL) (hop : u.Opaque = []) (hq : u.RawQuery = [])
    (hfq : u.ForceQuery = false) (hfrag : u.Fragment = []) (hpath : u.Path ≠ [])
    (hs : ∀ c ∈ u.Scheme, c ≠ '?' ∧ c ≠ '#') :
    ∀ c ∈ u.UrlString, c ≠ '?' ∧ c ≠ '#' := by
  have hE := EscapedPath_noQF u
  have hch : ∀ c : Char, c = ':' ∨ c = '/' ∨ c = '.' → c ≠ '?' ∧ c ≠ '#' := by
    rintro c (h | h | h) <;> rw [h] <;> exact ⟨by decide, by decide⟩
  intro c hc
  rcases UrlString_shape u hop hq hfq hfrag hpath with ⟨_, h⟩ | ⟨_, h⟩ | ⟨X, hX, h⟩
  · rw [h] at hc
    rcases List.mem_append.1 hc with h1 | h1
    · split at h1
      · simp only [List.mem_cons, List.mem_singleton, List.not_mem_nil, or_false] at h1
        rcases h1 with h1 | h1
        · exact hch c (Or.inr (Or.inr h1))
        · exact hch c (Or.inr (Or.inl h1))
      · simp at h1
    · exact hE c h1
  · rw [h] at hc
    rcases List.mem_append.1 hc with h1 | h1
    · exact hs c h1
    · rcases List.mem_cons.1 h1 with h1 | h1
      · exact hch c (Or.inl h1)
      · exact hE c h1
  · rw [h] at hc
    rcases List.mem_append.1 hc with h1 | h1
    · split at h1
      · rcases List.mem_append.1 h1 with h1 | h1
        · exact hs c h1
        · exact hch c (Or.inl (List.mem_singleton.1 h1))
      · simp at h1
    · rcases List.mem_cons.1 h1 with h1 | h1
      · exact hch c (Or.inr (Or.inl h1))
      · rcases List.mem_cons.1 h1 with h1 | h1
        · exact hch c (Or.inr (Or.inl h1))
        · rcases List.mem_append.1 h1 with h1 | h1
          · exact hX c h1
          · exact hE c h1

/-- `Crawl` on a start URL string that `url.JoinPath` parses to a URL without
opaque part, query and fragment: the string of the URL that `Crawl` parses out
of the joined string ends in `/`. -/
theorem reparse_slash {base s : List Char} {u v : URL} (hparse : Parse base = some u)
    (hop : u.Opaque = []) (hq : u.RawQuery = []) (hfq : u.ForceQuery = false)
    (hfrag : u.Fragment = []) (hs : s = (u.JoinPath [['/']]).UrlString)
    (hre : Parse s = some v) : v.UrlString.getLast? = some '/' := by
  obtain ⟨hc, hl⟩ := joinedPath_spec u
  obtain ⟨j, hj⟩ := setPath_isSome u hc
  have hJ : u.JoinPath [['/']] = j := by
    unfold URL.JoinPath
    rw [hj]
    rfl
  obtain ⟨f1, f2, _, _, _, f6, f7, f8, _, _, fp⟩ := setPath_fields hj
  have hsch := Parse_scheme hparse
  have jop := f2.trans hop
  have jq := f7.trans hq
  have jfq := f6.trans hfq
  have jfrag := f8.trans hfrag
  have hjne : u.joinedPath [['/']] ≠ [] := by
    intro he; rw [he] at hl; simp at hl
  have jpath : j.Path ≠ [] := by
    rw [fp]; exact decode_ne_nil _ hc hjne
  have jEl : j.EscapedPath.getLast? = some '/' := setPath_EscapedPath_slash hj hl
  have jEn : j.EscapedPath ≠ [] := by
    intro he; rw [he] at jEl; simp at jEl
  have jE : j.EscapedPath ≠ ['/', '/'] := by
    rw [← hJ]; exact JoinPath_EscapedPath_ne u
  have hsl : s.getLast? = some '/' := by
    rw [hs]; exact URL_JoinPath_slash u hop hq hfq hfrag
  rw [hJ] at hs
  have hnq : ∀ c ∈ s, c ≠ '?' ∧ c ≠ '#' := by
    rw [hs]
    refine UrlString_noQF j jop jq jfq jfrag jpath ?_
    intro c hc
    rw [f1] at hc
    exact ⟨(hsch c hc).2.2.1, (hsch c hc).2.2.2⟩
  rcases Parse_slash2 hre hsl hnq with h | h
  · exact h
  · exfalso
    rw [hs] at h
    refine UrlString_not_deg j jop jq jfq jfrag jpath ?_ jE jEn h
    intro c hc
    rw [f1] at hc
    exact ⟨(hsch c hc).1, (hsch c hc).2.1⟩

end url

/-- The function `url.JoinPath(base, "/")` on a string that parses to a URL
without opaque part, query and fragment succeeds, and its result ends in `/`. -/
theorem JoinPath_slash (base : String) (u : url.URL) (hparse : goUrl.Parse base = some u)
    (hop : u.Opaque = []) (hq : u.RawQuery = []) (hfq : u.ForceQuery = false)
    (hfrag : u.Fragment = []) :
    goUrl.JoinPath base ["/"] = some (String.mk (u.JoinPath [['/']]).UrlString)
    ∧ (u.JoinPath [['/']]).UrlString.getLast? = some '/' := by
  have hP : url.Parse base.toList = some u := hparse
  refine ⟨?_, url.URL_JoinPath_slash u hop hq hfq hfrag⟩
  show (url.JoinPath base.toList (["/"].map String.toList)).map String.mk = _
  unfold url.JoinPath
  rw [hP]
  rfl

set_option maxHeartbeats 1000000 in
theorem key_of_query_link :
    canonical goUrl exampleStart "https://test.com/a?x=1" = some "https://test.com/a/?x=1" := by
  decide

set_option maxHeartbeats 1000000 in
theorem key_of_fragment_link :
    canonical goUrl exampleStart "#top" = some "https://test.com/#top" := by
  decide

set_option maxHeartbeats 1000000 in
theorem key_of_query_start :
    Crawl.startKey goUrl "https://test.com?x=1" = some "https://test.com/?x=1" := by
  decide

set_option maxHeartbeats 1000000 in
theorem key_of_empty_query_link :
    canonical goUrl exampleStart "/a?" = some "https://test.com/a/?" := by
  decide

set_option maxHeartbeats 1000000 in
theorem key_of_opaque_start :
    Crawl.startKey goUrl "mailto:a@b" = some "mailto:a@b" := by
  decide

set_option maxHeartbeats 1000000 in
theorem key_of_empty_query_start :
    Crawl.startKey goUrl "https://test.com?" = some "https://test.com/?" := by
  decide

set_option maxHeartbeats 1000000 in
theorem key_of_fragment_start :
    Crawl.startKey goUrl "https://test.com#top" = some "https://test.com/#top" := by
  decide

set_option maxHeartbeats 1000000 in
theorem key_of_opaque_link :
    Crawl.startUrl goUrl "mailto:x"
      = some { url.URL.zero with Scheme := "mailto".toList, Opaque := "x".toList }
    ∧ canonical goUrl { url.URL.zero with Scheme := "mailto".toList, Opaque := "x".toList }
        "mailto:a@b" = some "mailto:a@b" := by
  decide

/-- Counterexample to C9 as stated: a link with a query string passes the
domain filter and its key ends in the query, not in `/`. The same holds for a
link with a fragment, for a link with an empty query string (a lone `?`) and,
in a crawl started on `mailto:x`, for a link with an opaque part; and for a
start URL with a query string, with an empty query string, with a fragment or
with an opaque part. -/
theorem canonical_form_with_query :
    canonical goUrl exampleStart "https://test.com/a?x=1" = some "https://test.com/a/?x=1"
    ∧ "https://test.com/a/?x=1".toList.getLast? = some '1'
    ∧ canonical goUrl exampleStart "#top" = some "https://test.com/#top"
    ∧ "https://test.com/#top".toList.getLast? = some 'p'
    ∧ canonical goUrl exampleStart "/a?" = some "https://test.com/a/?"
    ∧ (Crawl.startUrl goUrl "mailto:x"
        = some { url.URL.zero with Scheme := "mailto".toList, Opaque := "x".toList }
      ∧ canonical goUrl { url.URL.zero with Scheme := "mailto".toList, Opaque := "x".toList }
          "mailto:a@b" = some "mailto:a@b")
    ∧ Crawl.startKey goUrl "https://test.com?x=1" = some "https://test.com/?x=1"
    ∧ Crawl.startKey goUrl "https://test.com?" = some "https://test.com/?"
    ∧ Crawl.startKey goUrl "https://test.com#top" = some "https://test.com/#top"
    ∧ Crawl.startKey goUrl "mailto:a@b" = some "mailto:a@b" := by
  exact ⟨key_of_query_link, by decide, key_of_fragment_link, by decide,
    key_of_empty_query_link, key_of_opaque_link, key_of_query_start,
    key_of_empty_query_start, key_of_fragment_start, key_of_opaque_start⟩

/-- C9, amended. A raw link that parses and passes the domain filter, and
whose resolved form prints as a string that `url.JoinPath` parses to a URL
without opaque part, query string and fragment, has a key, and that key, the
one `processWorkingLinks` inserts in the store and pushes, ends in `/`. And
for a start URL string that `url.JoinPath` parses to a URL without opaque
part, query string and fragment, the start key that `Crawl` pushes, whenever
`Crawl` accepts the string, ends in `/`. -/
theorem canonical_form :
    (∀ (startingUrl link u : url.URL) (unvalidatedLink : String),
        goUrl.Parse unvalidatedLink = some link →
        goUrl.Hostname startingUrl = goUrl.Hostname
          (if goUrl.IsAbs link = true then link else goUrl.ResolveReference startingUrl link) →
        goUrl.Parse (goUrl.UrlString
          (if goUrl.IsAbs link = true then link else goUrl.ResolveReference startingUrl link))
            = some u →
        u.Opaque = [] → u.RawQuery = [] → u.ForceQuery = false → u.Fragment = [] →
        ∃ key, canonical goUrl startingUrl unvalidatedLink = some key
          ∧ key.toList.getLast? = some '/')
    ∧ (∀ (base key : String) (u : url.URL),
        goUrl.Parse base = some u →
        u.Opaque = [] → u.RawQuery = [] → u.ForceQuery = false → u.Fragment = [] →
        Crawl.startKey goUrl base = some key →
        key.toList.getLast? = some '/') := by
  constructor
  · intro startingUrl link u unvalidatedLink hparse hhost hre hop hq hfq hfrag
    obtain ⟨hJ, hslash⟩ := JoinPath_slash _ u hre hop hq hfq hfrag
    refine ⟨String.mk (u.JoinPath [['/']]).UrlString, ?_, hslash⟩
    unfold canonical
    rw [hparse]
    by_cases habs : goUrl.IsAbs link = true
    · rw [if_pos habs] at hhost hJ
      simp [habs, hhost, hJ]
    · rw [if_neg habs] at hhost hJ
      simp [habs, hhost, hJ]
  · intro base key u hparse hop hq hfq hfrag hkey
    obtain ⟨hJ, _⟩ := JoinPath_slash base u hparse hop hq hfq hfrag
    unfold Crawl.startKey Crawl.startUrl at hkey
    rw [hJ] at hkey
    simp only at hkey
    cases hre : goUrl.Parse (String.mk (u.JoinPath [['/']]).UrlString) with
    | none => rw [hre] at hkey; cases hkey
    | some v =>
      rw [hre] at hkey
      simp only [Option.map_some', Option.some.injEq] at hkey
      rw [← hkey]
      have hre2 : url.Parse (u.JoinPath [['/']]).UrlString = some v := hre
      exact url.reparse_slash hparse hop hq hfq hfrag rfl hre2

/-- Witness of C9: the link `https://test.com/link/1` and the start URL
`https://test.com` of the repository's test. -/
theorem canonical_form_witness :
    canonical goUrl exampleStart "https://test.com/link/1" = some "https://test.com/link/1/"
    ∧ (∃ key, canonical goUrl exampleStart "https://test.com/link/1" = some key
        ∧ key.toList.getLast? = some '/')
    ∧ Crawl.startKey goUrl "https://test.com" = some "https://test.com/"
    ∧ "https://test.com/".toList.getLast? = some '/' :=
  ⟨by decide,
   canonical_form.1 exampleStart
      { url.URL.zero with
        Scheme := "https".toList, Host := "test.com".toList, Path := "/link/1".toList }
      { url.URL.zero with
        Scheme := "https".toList, Host := "test.com".toList, Path := "/link/1".toList }
      "https://test.com/link/1" (by decide) (by decide) (by decide) rfl rfl rfl rfl,
   by decide,
   canonical_form.2 "https://test.com" "https://test.com/"
      { url.URL.zero with Scheme := "https".toList, Host := "test.com".toList }
      (by decide) rfl rfl rfl rfl (by decide)⟩

/-! ### The goroutine bodies and the interleaving semantics agree

A goroutine that runs one iteration of its loop without any other goroutine
moving in between does what its body of Part 1 does on the snapshot. -/

/-- The ticker goroutine, run alone from `wait` for one tick, does what `tick`
does. -/
theorem tick_alone {σ U : Type} (lib : NetUrl U) (startUrl : U) (s : System σ)
    (hw : s.ticker = .wait) :
    ∃ n, run lib startUrl (List.replicate n Action.ticker) s
      = some (match tick s.o with
          | .cancel _ => { s with ticker := .stopped }
          | .idle _ => s
          | .dispatch o' request =>
            { s with o := o', ticker := .send request, dispatched := s.dispatched ++ [request] }) := by
  unfold tick
  by_cases h1 : s.o.processedOps ≥ s.o.Config.MaxRequests
  · refine ⟨1, ?_⟩
    simp [run, step, stepTicker, hw, h1]
  · cases hq : s.o.Queue.buf with
    | nil =>
      have hlen : s.o.Queue.len = 0 := by simp [Chan.len, hq]
      by_cases h2 : s.o.sendingOps = s.o.processedOps
      · refine ⟨3, ?_⟩
        simp [run, step, stepTicker, hw, h1, hlen, h2, List.replicate]
      · refine ⟨4, ?_⟩
        simp [run, step, stepTicker, hw, h1, hlen, h2, hq, List.replicate]
        cases s
        simp_all
    | cons link rest =>
      have hlen : s.o.Queue.len ≠ 0 := by simp [Chan.len, hq]
      have hlen2 : s.o.Queue.len > 0 := Nat.pos_of_ne_zero hlen
      refine ⟨3, ?_⟩
      simp [run, step, stepTicker, hw, h1, hlen, hlen2, hq, List.replicate]

/-- A `requester` goroutine, run alone on a request it has received, does what
`requester` does: the same orchestrator and environment, a call of the client
recorded exactly when `clientDo` says so, and the body handed to a parser
exactly when `results` carries one that parses. -/
theorem requester_alone {σ U : Type} (lib : NetUrl U) (startUrl : U) (s : System σ)
    (request : Request) (l : List ReqPC) (fr : FetchResult)
    (hr : s.requesters = .recv request :: l) (hp : s.parsers.length < numWorkers) :
    ∃ n, run lib startUrl (List.replicate n (Action.requester 0 fr)) s
      = some { s with
          o := (requester s.o s.world request fr).o
          world := (requester s.o s.world request fr).world
          requesters := l
          fetched := s.fetched ++
            (if (requester s.o s.world request fr).clientDo then [request.Url] else [])
          parsers := s.parsers ++
            (match (requester s.o s.world request fr).results with
              | some (some hrefs) => [hrefs]
              | _ => []) } := by
  unfold requester
  by_cases h1 : s.o.processedOps > s.o.Config.MaxRequests
  · refine ⟨2, ?_⟩
    simp [run, step, stepRequester, hr, h1, List.replicate, upd]
  · by_cases h2 : s.o.Store.Visited.get request.Url = some VType.VISITED
    · refine ⟨3, ?_⟩
      simp [run, step, stepRequester, hr, h1, h2, List.replicate, upd]
    · cases fr with
      | newRequestErr =>
        refine ⟨3, ?_⟩
        simp [run, step, stepRequester, hr, h1, h2, List.replicate, upd]
      | doErr =>
        refine ⟨3, ?_⟩
        simp [run, step, stepRequester, hr, h1, h2, List.replicate, upd]
      | ok resp =>
        refine ⟨5, ?_⟩
        by_cases h3 : HasPrefix resp.ContentType "text/html" = true
        · cases hb : resp.Body with
          | none =>
            simp [run, step, stepRequester, hr, h1, h2, h3, hb, hp, List.replicate, upd,
              Orchestrator.visited]
          | some hrefs =>
            simp [run, step, stepRequester, hr, h1, h2, h3, hb, hp, List.replicate, upd,
              Orchestrator.visited]
        · simp [run, step, stepRequester, hr, h1, h2, h3, List.replicate, upd,
            Orchestrator.visited]

/-- A `processWorkingLinks` goroutine, run alone on a link it has received,
does what `processWorkingLinks` does; where the body blocks on the full queue,
the goroutine stands at the send and cannot move. -/
theorem processWorkingLinks_alone {σ U : Type} (lib : NetUrl U) (startUrl : U) (s : System σ)
    (link : String) (l : List FilterPC) (hf : s.filters = .recv link :: l) :
    match processWorkingLinks lib s.o startUrl link with
    | .dropped o' =>
      ∃ n, run lib startUrl (List.replicate n (Action.filter 0)) s
        = some { s with o := o', filters := l }
    | .pushed o' =>
      ∃ n joined, canonical lib startUrl link = some joined
        ∧ run lib startUrl (List.replicate n (Action.filter 0)) s
          = some { s with o := o', filters := l, pushed := s.pushed ++ [joined] }
    | .blocked o' joined =>
      ∃ n, run lib startUrl (List.replicate n (Action.filter 0)) s
          = some { s with o := o', filters := .send joined :: l }
        ∧ step lib startUrl (Action.filter 0) { s with o := o', filters := .send joined :: l }
          = none := by
  unfold processWorkingLinks
  cases hc : canonical lib startUrl link with
  | none =>
    refine ⟨1, ?_⟩
    simp [run, step, stepFilter, hf, hc, List.replicate, upd]
  | some joined =>
    by_cases h1 : (s.o.Store.Visited.get joined).isSome = true
    · simp only [h1, if_true]
      refine ⟨1, ?_⟩
      simp [run, step, stepFilter, hf, hc, h1, List.replicate, upd]
    · simp only [h1, if_false]
      by_cases h2 : s.o.processedOps > s.o.Config.MaxRequests
      · simp only [h2, if_true]
        refine ⟨2, ?_⟩
        simp [run, step, stepFilter, hf, hc, h1, h2, List.replicate, upd]
      · simp only [h2, if_false]
        by_cases h3 : belowMark s.o.Config.MaxRequests s.o.Queue.len = true
        · simp only [h3, if_true]
          by_cases h4 : s.o.Queue.len < s.o.Queue.cap
          · simp only [h4, if_true]
            refine ⟨4, joined, rfl, ?_⟩
            simp [run, step, stepFilter, hf, hc, h1, h2, h3, h4, List.replicate, upd]
          · simp only [h4, if_false]
            refine ⟨3, ?_, ?_⟩
            · simp [run, step, stepFilter, hf, hc, h1, h2, h3, List.replicate, upd]
            · simp [step, stepFilter, h4]
        · simp only [h3]
          refine ⟨3, ?_⟩
          simp [run, step, stepFilter, hf, hc, h1, h2, h3, List.replicate, upd]

end crawl
